import Mathlib

/-!
# drafter: rendering an MSON schema description into Refract elements

A shallow embedding of `src/RefractAST.cc` (namespace `drafter`) together with the
parts of the `mson` input model and of the `refract` output model that the file uses,
followed by theorems about the transformation.

* `mson.*`     : the input AST (`mson::Element`, `mson::ValueMember`, ...).
* `refract.*`  : the output tree (`refract::IElement` and its five element classes).
* `drafter.*`  : the functions of `RefractAST.cc`, one definition per source function, and
  the functions of `SerializeAST.cc` and `SerializeSourcemap.cc` on parameters, symbols, type
  names and type attributes, with the `sos` value tree they build.
* `VisitableBy.*` : the visit dispatch of `refract/VisitableBy.h`.

C++ exceptions are modelled by `Except drafter.Error`; a `NULL` element pointer by `none`.
-/

/-! ## The `mson` input model

The `mson` and `snowcrash` types are declared in headers that are not among the sources.
Their fields are the ones `RefractAST.cc` and `SerializeAST.cc` read, as section 3 of the
specification describes them. -/

namespace mson

/-- Modelled from the spec: the enumeration `mson::BaseTypeName`. -/
inductive BaseTypeName where
  | UndefinedTypeName
  | BooleanTypeName
  | StringTypeName
  | NumberTypeName
  | ArrayTypeName
  | EnumTypeName
  | ObjectTypeName
  deriving DecidableEq, Repr

/-- Modelled from the spec: the type `mson::Literal` is a `std::string`. -/
abbrev Literal := String

/-- Modelled from the spec: the struct `mson::Symbol`: a literal and the template-variable flag.
-/
structure Symbol where
  literal : Literal
  variable_ : Bool
  deriving DecidableEq, Repr

/-- Modelled from the spec: the struct `mson::TypeName`: a base type name plus a symbol
(named-type reference). -/
structure TypeName where
  base : BaseTypeName
  symbol : Symbol
  deriving DecidableEq, Repr

/-- Modelled from the spec: the struct `mson::TypeSpecification`. -/
structure TypeSpecification where
  name : TypeName
  nestedTypes : List TypeName
  deriving DecidableEq, Repr

/-- Modelled from the spec: the type `mson::TypeAttributes` is an unsigned bit set. -/
abbrev TypeAttributes := Nat

/-- Modelled from the spec: the enumerators of `mson::TypeAttribute` are declared in a header
that is not part of the sources; the spec (4.3) says the five flags are independent bits, tested
in the order required, optional, default, sample, fixed. -/
def RequiredTypeAttribute : TypeAttributes := 1

/-- Modelled from the spec: see `RequiredTypeAttribute`. -/
def OptionalTypeAttribute : TypeAttributes := 2

/-- Modelled from the spec: see `RequiredTypeAttribute`. -/
def DefaultTypeAttribute : TypeAttributes := 4

/-- Modelled from the spec: see `RequiredTypeAttribute`. -/
def SampleTypeAttribute : TypeAttributes := 8

/-- Modelled from the spec: see `RequiredTypeAttribute`. -/
def FixedTypeAttribute : TypeAttributes := 16

/-- Modelled from the spec: the struct `mson::TypeDefinition`. -/
structure TypeDefinition where
  typeSpecification : TypeSpecification
  attributes : TypeAttributes
  deriving DecidableEq, Repr

/-- Modelled from the spec: a `mson::Mixin` is a type definition (`WrapMixin` passes it to
`WrapTypeDefinition`). -/
abbrev Mixin := TypeDefinition

/-- Modelled from the spec: the struct `mson::Value`: one raw literal of a value definition. -/
structure Value where
  literal : Literal
  variable_ : Bool
  deriving DecidableEq, Repr

/-- Modelled from the spec: the struct `mson::ValueDefinition`. -/
structure ValueDefinition where
  values : List Value
  typeDefinition : TypeDefinition
  deriving DecidableEq, Repr

/-- Modelled from the spec: the struct `mson::PropertyName`: a literal name or a variable name.
-/
structure PropertyName where
  literal : Literal
  variable_ : ValueDefinition
  deriving DecidableEq, Repr

/-- Modelled from the spec: the enumeration `mson::TypeSection::Class`, with the four classes
the sources name. -/
inductive TypeSection.Class where
  | BlockDescriptionClass
  | MemberTypeClass
  | SampleClass
  | DefaultClass
  deriving DecidableEq, Repr

mutual
/-- Modelled from the spec: the struct `mson::Element`: the class tag `klass` selects which
member of `content` is meaningful, so it is a tagged union here. -/
inductive Element where
  | PropertyClass (property : PropertyMember)
  | ValueClass (value : ValueMember)
  | MixinClass (mixin : Mixin)
  | OneOfClass (oneOf : List Element)
  | GroupClass (elements : List Element)
/-- Modelled from the spec: the struct `mson::ValueMember`. -/
inductive ValueMember where
  | mk (description : String) (valueDefinition : ValueDefinition) (sections : List TypeSection)
/-- Modelled from the spec: the struct `mson::PropertyMember`, which derives from
`mson::ValueMember` and adds `name`. -/
inductive PropertyMember where
  | mk (name : PropertyName) (toValueMember : ValueMember)
/-- Modelled from the spec: the struct `mson::TypeSection`; the three members of its `content`
(`description`, `value`, `elements()`) are all present whatever the class, as in the C++ struct.
-/
inductive TypeSection where
  | mk (klass : TypeSection.Class) (description : String) (value : Literal)
      (elements : List Element)
end

/-- Modelled from the spec: field `description` of a value member. -/
def ValueMember.description : ValueMember → String
  | .mk d _ _ => d

/-- Modelled from the spec: field `valueDefinition` of a value member. -/
def ValueMember.valueDefinition : ValueMember → ValueDefinition
  | .mk _ vd _ => vd

/-- Modelled from the spec: field `sections` of a value member. -/
def ValueMember.sections : ValueMember → List TypeSection
  | .mk _ _ s => s

/-- Modelled from the spec: field `name` of a property member. -/
def PropertyMember.name : PropertyMember → PropertyName
  | .mk n _ => n

/-- Modelled from the spec: the base-class part of a property member (the implicit upcast in
C++). -/
def PropertyMember.toValueMember : PropertyMember → ValueMember
  | .mk _ v => v

/-- Modelled from the spec: field `klass` of a type section. -/
def TypeSection.klass : TypeSection → TypeSection.Class
  | .mk k _ _ _ => k

/-- Modelled from the spec: field `content.description` of a type section. -/
def TypeSection.description : TypeSection → String
  | .mk _ d _ _ => d

/-- Modelled from the spec: field `content.value` of a type section. -/
def TypeSection.value : TypeSection → Literal
  | .mk _ _ v _ => v

/-- Modelled from the spec: accessor `content.elements()` of a type section. -/
def TypeSection.elements : TypeSection → List Element
  | .mk _ _ _ e => e

end mson

namespace snowcrash

/-- Modelled from the spec: the struct `snowcrash::DataStructure` (a `mson::NamedType`): a name,
a type definition and a section list. -/
structure DataStructure where
  name : mson.TypeName
  typeDefinition : mson.TypeDefinition
  sections : List mson.TypeSection

end snowcrash

/-! ## The C library function `atof` -/

namespace libc

/-- The value of a C `double`: finite values are kept as the exact rational they denote
(the two signed zeros are identified), plus the infinities and NaN. -/
inductive Double where
  | finite (q : ℚ)
  | inf (negative : Bool)
  | nan
  deriving DecidableEq

/-- Floor of the binary logarithm by repeated halving (`0` for `0` and `1`); `fuel` bounds
the number of halvings, and `fuel = n` always suffices. -/
def log2Fuel : Nat → Nat → Nat
  | 0, _ => 0
  | fuel + 1, n => if n ≤ 1 then 0 else log2Fuel fuel (n / 2) + 1

/-- Floor of the binary logarithm of a positive natural number. -/
def log2 (n : Nat) : Nat := log2Fuel n n

/-- Rounding of the non-negative rational `n / d` (`d > 0`) to IEEE 754 binary64,
round-to-nearest, ties-to-even, with gradual underflow and overflow to infinity. -/
def roundBinary64 (n d : Nat) : Double :=
  if n = 0 then .finite 0
  else
    let e0 : Int := (log2 n : Int) - (log2 d : Int)
    -- the binary exponent of n / d is e0 or e0 - 1
    let e : Int :=
      if 0 ≤ e0 then (if d * 2 ^ e0.toNat ≤ n then e0 else e0 - 1)
      else (if d ≤ n * 2 ^ (-e0).toNat then e0 else e0 - 1)
    -- exponent of the last place of the significand
    let p : Int := max e (-1022) - 52
    let N : Nat := if 0 ≤ p then n else n * 2 ^ (-p).toNat
    let D : Nat := if 0 ≤ p then d * 2 ^ p.toNat else d
    let f : Nat := N / D
    let rem : Nat := N % D
    let r : Nat :=
      if 2 * rem < D then f
      else if D < 2 * rem then f + 1
      else if f % 2 = 0 then f else f + 1
    if 0 ≤ p then
      (if 2 ^ 1024 ≤ r * 2 ^ p.toNat then .inf false else .finite ((r * 2 ^ p.toNat : Nat) : ℚ))
    else .finite (mkRat (r : Int) (2 ^ (-p).toNat))

/-- The binary exponent `roundBinary64` computes for `n / d`: the first step of the rounding,
as a function of its own. -/
def binaryExponent (n d : Nat) : Int :=
  let e0 : Int := (log2 n : Int) - (log2 d : Int)
  if 0 ≤ e0 then (if d * 2 ^ e0.toNat ≤ n then e0 else e0 - 1)
  else (if d ≤ n * 2 ^ (-e0).toNat then e0 else e0 - 1)

/-- The rounding of `n / d` to a multiple of `2 ^ p`, ties to even: the second step of
`roundBinary64`, as a function of its own. -/
def roundAt (n d : Nat) (p : Int) : Double :=
  let N : Nat := if 0 ≤ p then n else n * 2 ^ (-p).toNat
  let D : Nat := if 0 ≤ p then d * 2 ^ p.toNat else d
  let f : Nat := N / D
  let rem : Nat := N % D
  let r : Nat :=
    if 2 * rem < D then f
    else if D < 2 * rem then f + 1
    else if f % 2 = 0 then f else f + 1
  if 0 ≤ p then
    (if 2 ^ 1024 ≤ r * 2 ^ p.toNat then .inf false else .finite ((r * 2 ^ p.toNat : Nat) : ℚ))
  else .finite (mkRat (r : Int) (2 ^ (-p).toNat))

/-- Sign application to a parsed magnitude. -/
def Double.withSign (negative : Bool) : Double → Double
  | .finite q => .finite (if negative then -q else q)
  | .inf _ => .inf negative
  | .nan => .nan

/-- The C function `isspace` in the "C" locale: space, and the controls 9 to 13. -/
def isspace (c : Char) : Bool :=
  c.toNat == 32 || (9 ≤ c.toNat && c.toNat ≤ 13)

/-- Value of a list of decimal digit characters. -/
def decValue (ds : List Char) : Nat :=
  ds.foldl (fun a c => 10 * a + (c.toNat - 48)) 0

/-- Hexadecimal digit test. -/
def isxdigit (c : Char) : Bool :=
  c.isDigit || (97 ≤ c.toLower.toNat && c.toLower.toNat ≤ 102)

/-- Value of a list of hexadecimal digit characters. -/
def hexValue (ds : List Char) : Nat :=
  ds.foldl (fun a c => 16 * a + (if c.isDigit then c.toNat - 48 else c.toLower.toNat - 87)) 0

/-- Case-insensitive test that `cs` starts with the lower-case word `w`. -/
def startsWithCI (w : List Char) (cs : List Char) : Bool :=
  (cs.take w.length).map Char.toLower == w

/-- An optional exponent part: the marker (given in lower case), an optional sign and at least
one decimal digit; an incomplete exponent part is not consumed and counts as 0. -/
def exponentPart (marker : Char) (cs : List Char) : Int :=
  match cs with
  | [] => 0
  | c :: rest =>
    if c.toLower == marker then
      match rest with
      | [] => 0
      | s :: rest2 =>
        if s == '-' then
          (if (rest2.span Char.isDigit).1.isEmpty then 0
           else - (decValue (rest2.span Char.isDigit).1 : Int))
        else if s == '+' then (decValue (rest2.span Char.isDigit).1 : Int)
        else (decValue (rest.span Char.isDigit).1 : Int)
    else 0

/-- The magnitude `m * b ^ x` as a binary64 value. -/
def scaled (m b : Nat) (x : Int) : Double :=
  if 0 ≤ x then roundBinary64 (m * b ^ x.toNat) 1 else roundBinary64 m (b ^ (-x).toNat)

/-- A decimal floating constant at the head of `cs`: digits with an optional radix point
(at least one digit in all) and an optional exponent part. `none` when there is none. -/
def decimalConstant (cs : List Char) : Option Double :=
  let ip := cs.span Char.isDigit
  let fp := match ip.2 with
    | c :: rest => if c == '.' then rest.span Char.isDigit else ([], ip.2)
    | [] => ([], [])
  if ip.1.isEmpty && fp.1.isEmpty then none
  else some (scaled (decValue (ip.1 ++ fp.1)) 10 (exponentPart 'e' fp.2 - (fp.1.length : Int)))

/-- A hexadecimal floating constant at the head of `cs`: `0x`, hexadecimal digits with an
optional radix point (at least one digit in all) and an optional binary exponent part. -/
def hexConstant (cs : List Char) : Option Double :=
  if startsWithCI ['0', 'x'] cs then
    let body := cs.drop 2
    let ip := body.span isxdigit
    let fp := match ip.2 with
      | c :: rest => if c == '.' then rest.span isxdigit else ([], ip.2)
      | [] => ([], [])
    if ip.1.isEmpty && fp.1.isEmpty then none
    else some (scaled (hexValue (ip.1 ++ fp.1)) 2 (exponentPart 'p' fp.2 - 4 * (fp.1.length : Int)))
  else none

/-- The magnitude denoted by the longest valid prefix of `cs` (after the sign):
infinity, NaN, a hexadecimal or a decimal floating constant; `none` when no prefix is valid. -/
def magnitude (cs : List Char) : Option Double :=
  if startsWithCI ['i', 'n', 'f'] cs then some (.inf false)
  else if startsWithCI ['n', 'a', 'n'] cs then some .nan
  else match hexConstant cs with
    | some v => some v
    | none => decimalConstant cs

/-- The C library function `atof` (`strtod` with the end pointer dropped) in the "C" locale,
on the characters of a C string: leading white space is skipped, an optional sign is read,
the longest valid prefix is converted and rounded to binary64, and `0` is returned when no
conversion can be performed. -/
def atofChars (cs : List Char) : Double :=
  let cs := cs.dropWhile isspace
  let signed : Bool × List Char := match cs with
    | c :: rest => if c == '-' then (true, rest) else if c == '+' then (false, rest) else (false, cs)
    | [] => (false, [])
  match magnitude signed.2 with
  | some v => v.withSign signed.1
  | none => .finite 0

/-- The call `atof(s.c_str())` on a `std::string`: the C string ends at the first NUL. -/
def atof (s : String) : Double :=
  atofChars (s.toList.takeWhile (fun c => c.toNat != 0))

/-- The text of a plain decimal numeral: an optional minus sign, the digits of the integer
part and, when there are fraction digits, a point followed by them. -/
def decimalNumeral (negative : Bool) (integerPart fractionPart : List Char) : String :=
  String.mk ((if negative then ['-'] else []) ++ integerPart ++
    (if fractionPart.isEmpty then [] else '.' :: fractionPart))

/-- The number a plain decimal numeral denotes. -/
def decimalValue (negative : Bool) (integerPart fractionPart : List Char) : ℚ :=
  (if negative then -1 else 1) *
    ((decValue (integerPart ++ fractionPart) : ℚ) / (10 ^ fractionPart.length : Nat))

end libc


/-! ## The `refract` output model

The element classes are declared in `refract/Element.h`, which is not among the sources.
The model keeps what `RefractAST.cc` uses of them, as section 3 of the specification
describes the generic element. -/

namespace refract

mutual
/-- Modelled from the spec: `refract::IElement` is declared in `refract/Element.h`, which is not
part of the sources. An element has a free-form element-name override `element_` (empty when
none was set), the flag `hasContent` that `set` and `push_back` raise and that `empty()` reads,
the compact-rendering hint, the `meta` and `attributes` mappings (string key to element, in
insertion order) and its `value`. -/
inductive Element where
  | mk (element_ : String) (hasContent : Bool) (useCompactContent : Bool)
      (meta : List (String × Element)) (attributes : List (String × Element)) (value : Value)
/-- Modelled from the spec: the `value` member of an element. Its constructor tells which of the
five element classes (`BooleanElement`, `NumberElement`, `StringElement`, `ArrayElement`,
`ObjectElement`) the element belongs to. -/
inductive Value where
  | boolean (v : Bool)
  | number (v : libc.Double)
  | string (v : String)
  | array (v : List Element)
  | object (v : List Element)
end

/-- Modelled from the spec: the five element classes, used as the template argument `T` of the
builders. -/
inductive ElementType where
  | BooleanElement
  | NumberElement
  | StringElement
  | ArrayElement
  | ObjectElement
  deriving DecidableEq, Repr

/-- Modelled from the spec: a `meta` or `attributes` mapping. -/
abbrev Collection := List (String × Element)

/-- Modelled from the spec: the element class a value belongs to. -/
def Value.kind : Value → ElementType
  | .boolean _ => .BooleanElement
  | .number _ => .NumberElement
  | .string _ => .StringElement
  | .array _ => .ArrayElement
  | .object _ => .ObjectElement

/-- Modelled from the spec: the value a freshly constructed element of class `T` holds. -/
def Value.init : ElementType → Value
  | .BooleanElement => .boolean false
  | .NumberElement => .number (.finite 0)
  | .StringElement => .string ""
  | .ArrayElement => .array []
  | .ObjectElement => .object []

namespace Element

/-- Modelled from the spec: member `element_`: the element-name override. -/
def element_ : Element → String
  | .mk n _ _ _ _ _ => n

/-- Modelled from the spec: member `hasContent`. -/
def hasContent : Element → Bool
  | .mk _ h _ _ _ _ => h

/-- Modelled from the spec: member `useCompactContent`. -/
def useCompactContent : Element → Bool
  | .mk _ _ c _ _ _ => c

/-- Modelled from the spec: member `meta`. -/
def meta : Element → Collection
  | .mk _ _ _ m _ _ => m

/-- Modelled from the spec: member `attributes`. -/
def attributes : Element → Collection
  | .mk _ _ _ _ a _ => a

/-- Modelled from the spec: member `value`. -/
def value : Element → Value
  | .mk _ _ _ _ _ v => v

/-- Modelled from the spec: the class of an element (its dynamic type). -/
def kind (e : Element) : ElementType := e.value.kind

/-- Modelled from the spec: the children of an `ArrayElement` or `ObjectElement` (its `value`
vector); a scalar element has none. -/
def children (e : Element) : List Element :=
  match e.value with
  | .array v => v
  | .object v => v
  | _ => []

/-- Modelled from the spec: the expression `new T`: no element-name override, no content, no
hint, empty mappings. -/
def new (T : ElementType) : Element :=
  .mk "" false false [] [] (Value.init T)

/-- Modelled from the spec: the method `empty()`: true until content has been set. -/
def empty (e : Element) : Bool := !e.hasContent

/-- Modelled from the spec: the method `set(val)`: stores the value and marks the content as
set. -/
def set : Element → Value → Element
  | .mk n _ c m a _, val => .mk n true c m a val

/-- Modelled from the spec: the setter `element(name)`: overrides the element name. -/
def element : Element → String → Element
  | .mk _ h c m a v, name => .mk name h c m a v

/-- Modelled from the spec: the setter `renderCompactContent(compact)`. -/
def renderCompactContent : Element → Bool → Element
  | .mk n h _ m a v, compact => .mk n h compact m a v

/-- Modelled from the spec: the method `push_back(e)` of `ArrayElement` and `ObjectElement`:
appends a child and marks the content as set. The scalar classes have no such method. -/
def push_back : Element → Element → Element
  | .mk n _ c m a (.array v), x => .mk n true c m a (.array (v ++ [x]))
  | .mk n _ c m a (.object v), x => .mk n true c m a (.object (v ++ [x]))
  | e, _ => e

end Element

/-- Modelled from the spec: the assignment `collection[key] = e` on a mapping: replaces the
entry of an existing key, appends a new entry otherwise. -/
def Collection.assign : Collection → String → Element → Collection
  | [], key, e => [(key, e)]
  | (k, x) :: rest, key, e =>
    if k = key then (k, e) :: rest else (k, x) :: Collection.assign rest key e

/-- Modelled from the spec: the entry a mapping holds under `key`, if any. -/
def Collection.lookup : Collection → String → Option Element
  | [], _ => none
  | (k, x) :: rest, key => if k = key then some x else Collection.lookup rest key

/-- Modelled from the spec: the statement `element->meta[key] = e`. -/
def Element.setMeta : Element → String → Element → Element
  | .mk n h c m a v, key, e => .mk n h c (Collection.assign m key e) a v

/-- Modelled from the spec: the statement `element->attributes[key] = e`. -/
def Element.setAttribute : Element → String → Element → Element
  | .mk n h c m a v, key, e => .mk n h c m (Collection.assign a key e) v

/-- Modelled from the spec: the factory `IElement::Create(text)`: a `StringElement` holding the
text. -/
def IElement.Create (value : String) : Element :=
  (Element.new .StringElement).set (.string value)

end refract

/-! ## `RefractAST.cc` -/

namespace drafter

open refract

/-- The exceptions thrown in `RefractAST.cc`, with their messages. -/
inductive Error where
  | logic_error (what : String)
  | runtime_error (what : String)
  deriving DecidableEq, Repr

/-- `MsAttributesToRefract`: the tags of the set flags, in fixed order; `none` is `NULL`. -/
def MsAttributesToRefract (ta : mson.TypeAttributes) : Option Element :=
  let attr := Element.new .ArrayElement
  let attr := if ta &&& mson.RequiredTypeAttribute ≠ 0
    then attr.push_back (IElement.Create "required") else attr
  let attr := if ta &&& mson.OptionalTypeAttribute ≠ 0
    then attr.push_back (IElement.Create "optional") else attr
  let attr := if ta &&& mson.DefaultTypeAttribute ≠ 0
    then attr.push_back (IElement.Create "default") else attr
  let attr := if ta &&& mson.SampleTypeAttribute ≠ 0
    then attr.push_back (IElement.Create "sample") else attr
  let attr := if ta &&& mson.FixedTypeAttribute ≠ 0
    then attr.push_back (IElement.Create "fixed") else attr
  if attr.children.isEmpty then none else some attr

/-- `LiteralTo<bool>`. -/
def LiteralTo_bool (literal : mson.Literal) : Bool :=
  literal == "true"

/-- `LiteralTo<double>`. -/
def LiteralTo_double (literal : mson.Literal) : libc.Double :=
  libc.atof literal

/-- `LiteralTo<std::string>`. -/
def LiteralTo_string (literal : mson.Literal) : String :=
  literal

/-- `SimplifyRefractContainer`: `NULL` for an empty container, the element itself for a
singleton, an `ArrayElement` of the elements otherwise. -/
def SimplifyRefractContainer (container : List Element) : Option Element :=
  if container.isEmpty then none
  else if container.length = 1 then container.head?
  else some (container.foldl Element.push_back (Element.new .ArrayElement))

/-- `RefractElementFactoryImpl<refract::BooleanElement>::Create`. -/
def bef (literal : String) : Element :=
  (Element.new .BooleanElement).set (.boolean (LiteralTo_bool literal))

/-- `RefractElementFactoryImpl<refract::NumberElement>::Create`. -/
def nef (literal : String) : Element :=
  (Element.new .NumberElement).set (.number (LiteralTo_double literal))

/-- `RefractElementFactoryImpl<refract::StringElement>::Create`. -/
def sef (literal : String) : Element :=
  (Element.new .StringElement).set (.string (LiteralTo_string literal))

/-- `FactoryFromType`: the factory (its `Create` method) of a scalar base type. -/
def FactoryFromType (typeName : mson.BaseTypeName) : Except Error (String → Element) :=
  match typeName with
  | .BooleanTypeName => pure bef
  | .NumberTypeName => pure nef
  | .StringTypeName => pure sef
  | _ => throw (.logic_error "Out of scope - this should never happen")

/-- The primary template `ExtractValues<T, V>::operator V()` for the primitive elements;
`LiteralTo` is `LiteralTo<V>`. -/
def ExtractValues.primitive {V : Type} (LiteralTo : mson.Literal → V)
    (vd : mson.ValueDefinition) : Except Error V :=
  if vd.values.isEmpty then
    throw (.logic_error "Cannot extract values from empty container")
  else if vd.values.length > 1 then
    throw (.logic_error "For primitive types is just one value supported")
  else
    pure (LiteralTo (vd.values.headD ⟨"", false⟩).literal)

/-- The specialisation `ExtractValues<T, std::vector<refract::IElement*> >::operator V()`
for `ArrayElement` and `ObjectElement`. -/
def ExtractValues.composite (vd : mson.ValueDefinition) : Except Error (List Element) :=
  if vd.values.isEmpty then
    throw (.logic_error "Cannot extract values from empty container")
  else
    let type : mson.BaseTypeName :=
      if vd.typeDefinition.typeSpecification.nestedTypes.length = 1 then
        (vd.typeDefinition.typeSpecification.nestedTypes.headD
          ⟨.StringTypeName, ⟨"", false⟩⟩).base
      else .StringTypeName
    match FactoryFromType type with
    | .error err => .error err
    | .ok elementFactory => pure (vd.values.map fun it => elementFactory it.literal)

/-- `ExtractValues<T>(vd)` converted to `T::ValueType`, for each element class `T`. -/
def ExtractValues (T : ElementType) (vd : mson.ValueDefinition) : Except Error Value :=
  match T with
  | .BooleanElement => Value.boolean <$> ExtractValues.primitive LiteralTo_bool vd
  | .NumberElement => Value.number <$> ExtractValues.primitive LiteralTo_double vd
  | .StringElement => Value.string <$> ExtractValues.primitive LiteralTo_string vd
  | .ArrayElement => Value.array <$> ExtractValues.composite vd
  | .ObjectElement => Value.object <$> ExtractValues.composite vd

/-- `hasMembers`: some section of the value member is a MemberType section. -/
def hasMembers (value : mson.ValueMember) : Bool :=
  value.sections.any fun it => it.klass = .MemberTypeClass

/-- `hasChildren`: more than one direct value, or a MemberType section. -/
def hasChildren (value : mson.ValueMember) : Bool :=
  decide (value.valueDefinition.values.length > 1) || hasMembers value

/-- `ArrayToEnum` on a non-null element: re-tags it "enum" and wraps it in a fresh
`ObjectElement`. (The `NULL` guard of the source passes a null pointer through; the builders
only return fresh elements.) -/
def ArrayToEnum (array : Element) : Element :=
  (Element.new .ObjectElement).push_back (array.element "enum")

/-- `MsonMixinToRefract`. -/
def MsonMixinToRefract (mixin : mson.Mixin) : Element :=
  let ref := (Element.new .ObjectElement).element "ref"
  let ref := ref.renderCompactContent true
  let path := (Element.new .StringElement).set (.string "content")
  let path := path.setMeta "name" (IElement.Create "path")
  let ref := ref.push_back path
  let href := (Element.new .StringElement).set (.string mixin.typeSpecification.name.symbol.literal)
  let href := href.setMeta "name" (IElement.Create "href")
  ref.push_back href

/-- The local variables the section loop of `RefractElementFromValue` updates. -/
structure SectionState where
  element : Element
  defaults : List Element
  samples : List Element

/-- The statements of `RefractElementFromValue<T>` before its section loop: the fresh
element, its content from the direct values (when there are any), the `typeAttributes`
attribute and the `description` meta entry. -/
def RefractElementFromValue.head (T : ElementType) (description : String)
    (valueDefinition : mson.ValueDefinition) : Except Error Element :=
  let element := Element.new T
  let content : Except Error Element :=
    if !valueDefinition.values.isEmpty then
      match ExtractValues T valueDefinition with
      | .error err => .error err
      | .ok v => .ok (element.set v)
    else .ok element
  match content with
  | .error err => .error err
  | .ok element =>
    let element :=
      match MsAttributesToRefract valueDefinition.typeDefinition.attributes with
      | some attrs => element.setAttribute "typeAttributes" attrs
      | none => element
    let element :=
      if !description.isEmpty then element.setMeta "description" (IElement.Create description)
      else element
    .ok element

/-- The statements of `RefractElementFromValue<T>` after its section loop: the collapsed
`sample` attribute, then the collapsed `default` attribute. -/
def RefractElementFromValue.tail (st : SectionState) : Element :=
  let element := st.element
  let element :=
    match SimplifyRefractContainer st.samples with
    | some e => element.setAttribute "sample" e
    | none => element
  let element :=
    match SimplifyRefractContainer st.defaults with
    | some e => element.setAttribute "default" e
    | none => element
  element

mutual
/-- `MsonElementToRefract`. The three callees `MsonPropertyToRefract`, `MsonValueToRefract`
and `MsonOneofToRefract` take the very member the element holds, so their bodies stand here
in place of the calls to keep the recursion structural; they are defined on their own below,
and `MsonElementToRefract_eq` states the dispatch in the shape of the source. -/
def MsonElementToRefract : mson.Element → Except Error Element
  | .PropertyClass property =>
    match property.toValueMember.valueDefinition.typeDefinition.typeSpecification.name.base with
    | .BooleanTypeName => RefractElementFromProperty .BooleanElement property
    | .NumberTypeName => RefractElementFromProperty .NumberElement property
    | .StringTypeName => RefractElementFromProperty .StringElement property
    | .EnumTypeName => ArrayToEnum <$> RefractElementFromProperty .ArrayElement property
    | .ArrayTypeName => RefractElementFromProperty .ArrayElement property
    | .ObjectTypeName => RefractElementFromProperty .ObjectElement property
    | .UndefinedTypeName =>
      if hasChildren property.toValueMember
      then RefractElementFromProperty .ObjectElement property
      else RefractElementFromProperty .StringElement property
  | .ValueClass value =>
    match value.valueDefinition.typeDefinition.typeSpecification.name.base with
    | .BooleanTypeName => RefractElementFromValue .BooleanElement value
    | .NumberTypeName => RefractElementFromValue .NumberElement value
    | .StringTypeName => RefractElementFromValue .StringElement value
    | .UndefinedTypeName => RefractElementFromValue .StringElement value
    | _ => throw (.runtime_error "Unhandled type of ValueMember")
  | .MixinClass mixin => pure (MsonMixinToRefract mixin)
  | .OneOfClass oneOf =>
    MsonOneofToRefract.loop oneOf ((Element.new .ArrayElement).element "select")
  | .GroupClass _ => throw (.runtime_error "NI unhandled element")
/-- `RefractElementFromProperty<T>`. -/
def RefractElementFromProperty (T : ElementType) : mson.PropertyMember → Except Error Element
  | .mk name value =>
    match RefractElementFromValue T value with
    | .error err => .error err
    | .ok element => .ok (element.setMeta "name" (IElement.Create name.literal))
/-- `RefractElementFromValue<T>`: the statements before the loop
(`RefractElementFromValue.head`), the loop over the sections, entered when there are any
(`RefractElementFromValue.loop`), and the statements after it
(`RefractElementFromValue.tail`). -/
def RefractElementFromValue (T : ElementType) : mson.ValueMember → Except Error Element
  | .mk description valueDefinition sections =>
    match RefractElementFromValue.head T description valueDefinition with
    | .error err => .error err
    | .ok element =>
      if !sections.isEmpty then
        match RefractElementFromValue.loop T sections ⟨element, [], []⟩ with
        | .error err => .error err
        | .ok st => .ok (RefractElementFromValue.tail st)
      else .ok element
/-- The `for` loop over `value.sections` in `RefractElementFromValue<T>`. -/
def RefractElementFromValue.loop (T : ElementType) :
    List mson.TypeSection → SectionState → Except Error SectionState
  | [], st => .ok st
  | it :: rest, st =>
    if it.klass = .MemberTypeClass then
      if !st.element.empty then
        .error (.logic_error
          "Element content was already set, you cannot fill it from 'memberType'")
      else
        match ExtractTypeSection T it with
        | .error err => .error err
        | .ok v => RefractElementFromValue.loop T rest { st with element := st.element.set v }
    else
      match ExtractTypeSection T it with
      | .error err => .error err
      | .ok v =>
        let e := (Element.new T).set v
        if it.klass = .SampleClass then
          RefractElementFromValue.loop T rest { st with samples := st.samples ++ [e] }
        else if it.klass = .DefaultClass then
          RefractElementFromValue.loop T rest { st with defaults := st.defaults ++ [e] }
        else .error (.logic_error "Unexpected section for property")
/-- `ExtractTypeSection<T>(ts)` converted to `T::ValueType`: the primary template for the
primitive elements, the specialisation for `ArrayElement` and `ObjectElement`. -/
def ExtractTypeSection (T : ElementType) : mson.TypeSection → Except Error Value
  | .mk _ _ value elements =>
    match T with
    | .BooleanElement => pure (.boolean (LiteralTo_bool value))
    | .NumberElement => pure (.number (LiteralTo_double value))
    | .StringElement => pure (.string (LiteralTo_string value))
    | .ArrayElement =>
      if elements.isEmpty then
        throw (.logic_error "Cannot extract values from empty container")
      else Value.array <$> ExtractTypeSection.loop elements []
    | .ObjectElement =>
      if elements.isEmpty then
        throw (.logic_error "Cannot extract values from empty container")
      else Value.object <$> ExtractTypeSection.loop elements []
/-- The `for` loop of the composite `ExtractTypeSection`, on the vector `result`. -/
def ExtractTypeSection.loop : List mson.Element → List Element → Except Error (List Element)
  | [], result => .ok result
  | it :: rest, result =>
    match MsonElementToRefract it with
    | .error err => .error err
    | .ok e => ExtractTypeSection.loop rest (result ++ [e])
/-- The `for` loop of `MsonOneofToRefract`, on the element `select`. -/
def MsonOneofToRefract.loop : List mson.Element → Element → Except Error Element
  | [], select => .ok select
  | it :: rest, select =>
    let option := (Element.new .ObjectElement).element "option"
    match MsonElementToRefract it with
    | .error err => .error err
    | .ok e => MsonOneofToRefract.loop rest (select.push_back (option.push_back e))
end

/-- `MsonPropertyToRefract`. -/
def MsonPropertyToRefract (property : mson.PropertyMember) : Except Error Element :=
  match property.toValueMember.valueDefinition.typeDefinition.typeSpecification.name.base with
  | .BooleanTypeName => RefractElementFromProperty .BooleanElement property
  | .NumberTypeName => RefractElementFromProperty .NumberElement property
  | .StringTypeName => RefractElementFromProperty .StringElement property
  | .EnumTypeName => ArrayToEnum <$> RefractElementFromProperty .ArrayElement property
  | .ArrayTypeName => RefractElementFromProperty .ArrayElement property
  | .ObjectTypeName => RefractElementFromProperty .ObjectElement property
  | .UndefinedTypeName =>
    if hasChildren property.toValueMember
    then RefractElementFromProperty .ObjectElement property
    else RefractElementFromProperty .StringElement property

/-- `MsonValueToRefract`. -/
def MsonValueToRefract (value : mson.ValueMember) : Except Error Element :=
  match value.valueDefinition.typeDefinition.typeSpecification.name.base with
  | .BooleanTypeName => RefractElementFromValue .BooleanElement value
  | .NumberTypeName => RefractElementFromValue .NumberElement value
  | .StringTypeName => RefractElementFromValue .StringElement value
  | .UndefinedTypeName => RefractElementFromValue .StringElement value
  | _ => throw (.runtime_error "Unhandled type of ValueMember")

/-- `MsonOneofToRefract`. -/
def MsonOneofToRefract (oneOf : List mson.Element) : Except Error Element :=
  MsonOneofToRefract.loop oneOf ((Element.new .ArrayElement).element "select")

/-- The inner `for` loop of `ToRefract`, over the elements of one section. -/
def ToRefract.elements : List mson.Element → Element → Except Error Element
  | [], e => .ok e
  | eit :: rest, e =>
    match MsonElementToRefract eit with
    | .error err => .error err
    | .ok x => ToRefract.elements rest (e.push_back x)

/-- The outer `for` loop of `ToRefract`, over the sections of the data structure. -/
def ToRefract.loop : List mson.TypeSection → Element → Except Error Element
  | [], e => .ok e
  | it :: rest, e =>
    if it.klass = .BlockDescriptionClass then
      ToRefract.loop rest (e.setMeta "description" (IElement.Create it.description))
    else
      match ToRefract.elements it.elements e with
      | .error err => .error err
      | .ok e => ToRefract.loop rest e

/-- `ToRefract`. -/
def ToRefract (ds : snowcrash.DataStructure) : Except Error Element :=
  let e := Element.new .ObjectElement
  let e :=
    if !ds.typeDefinition.typeSpecification.name.symbol.literal.isEmpty then
      e.element ds.typeDefinition.typeSpecification.name.symbol.literal
    else e
  let e := e.setMeta "id" (IElement.Create ds.name.symbol.literal)
  let e := e.setMeta "title" (IElement.Create ds.name.symbol.literal)
  ToRefract.loop ds.sections e

/-! ### Vocabulary for the statements about `ToRefract` -/

/-- The schema elements `ToRefract` builds: those of the sections that are not
BlockDescription sections, in section order and then element order. -/
def ToRefract.members : List mson.TypeSection → List mson.Element
  | [] => []
  | it :: rest =>
    if it.klass = .BlockDescriptionClass then ToRefract.members rest
    else it.elements ++ ToRefract.members rest

/-- The description text of the last BlockDescription section of a section list, if any. -/
def ToRefract.blockDescription : List mson.TypeSection → Option String
  | [] => none
  | it :: rest =>
    match ToRefract.blockDescription rest with
    | some d => some d
    | none => if it.klass = .BlockDescriptionClass then some it.description else none

/-! ### Vocabulary for the statements about attributes -/

/-- The tag strings of the flags set in `ta`, in the fixed order required, optional, default,
sample, fixed. -/
def typeAttributeTags (ta : mson.TypeAttributes) : List String :=
  ([(mson.RequiredTypeAttribute, "required"), (mson.OptionalTypeAttribute, "optional"),
    (mson.DefaultTypeAttribute, "default"), (mson.SampleTypeAttribute, "sample"),
    (mson.FixedTypeAttribute, "fixed")].filter fun f => ta &&& f.1 ≠ 0).map fun f => f.2

/-- The element `e` the section loop of `RefractElementFromValue<T>` extracts from a Sample or
Default section: a fresh element of class `T` holding the content of the section. -/
def sectionElement (T : ElementType) (s : mson.TypeSection) : Except Error Element :=
  match ExtractTypeSection T s with
  | .error err => .error err
  | .ok v => .ok ((Element.new T).set v)

/-- The collapse rule on a list of extracted elements: nothing for the empty list, the
element itself for a singleton, an Array element holding the elements otherwise. -/
def collapse : List Element → Option Element
  | [] => none
  | [x] => some x
  | xs => some (.mk "" true false [] [] (.array xs))

/-! ### Vocabulary for the statements about errors -/

/-- The error of the first element of a list on which `MsonElementToRefract` fails, if any:
the elements are built in order and the first failure ends the traversal. -/
def firstError : List mson.Element → Option Error
  | [] => none
  | x :: rest =>
    match MsonElementToRefract x with
    | .error err => some err
    | .ok _ => firstError rest

/-! ### Scenarios of the specification (section 8), as inputs -/

namespace Scenario

/-- A type definition with the given base type, no named type, no nested type, no flag. -/
def typeDefinition (base : mson.BaseTypeName) : mson.TypeDefinition :=
  ⟨⟨⟨base, ⟨"", false⟩⟩, []⟩, 0⟩

/-- A value definition with the given base type and literals. -/
def valueDefinition (base : mson.BaseTypeName) (literals : List String) :
    mson.ValueDefinition :=
  ⟨literals.map fun l => ⟨l, false⟩, typeDefinition base⟩

/-- A property name given by a literal. -/
def propertyName (literal : String) : mson.PropertyName :=
  ⟨literal, valueDefinition .UndefinedTypeName []⟩

/-- A OneOf with two Value alternatives: String "x" and Number "1". -/
def oneOf : List mson.Element :=
  [.ValueClass (.mk "" (valueDefinition .StringTypeName ["x"]) []),
    .ValueClass (.mk "" (valueDefinition .NumberTypeName ["1"]) [])]

/-- A Property named "count", declared type Number, one literal "42". -/
def count : mson.PropertyMember :=
  .mk (propertyName "count") (.mk "" (valueDefinition .NumberTypeName ["42"]) [])

/-- A Property of declared type Undefined with one literal "x" and no section. -/
def undefinedLeaf : mson.PropertyMember :=
  .mk (propertyName "p") (.mk "" (valueDefinition .UndefinedTypeName ["x"]) [])

/-- The same Property with an added MemberType section, empty of further values. -/
def undefinedWithMember : mson.PropertyMember :=
  .mk (propertyName "p")
    (.mk "" (valueDefinition .UndefinedTypeName ["x"]) [.mk .MemberTypeClass "" "" []])

/-- A String Property with one literal, a BlockDescription section and then a MemberType
section. -/
def describedWithMember : mson.PropertyMember :=
  .mk (propertyName "p")
    (.mk "" (valueDefinition .StringTypeName ["a"])
      [.mk .BlockDescriptionClass "text" "" [], .mk .MemberTypeClass "" "" []])

/-- A String Property with one literal, a Sample section and then a MemberType section. -/
def sampledWithMember : mson.PropertyMember :=
  .mk (propertyName "p")
    (.mk "" (valueDefinition .StringTypeName ["a"])
      [.mk .SampleClass "" "b" [], .mk .MemberTypeClass "" "" []])

/-- An Enum-typed Property with the values "a" and "b". -/
def enumAB : mson.PropertyMember :=
  .mk (propertyName "e") (.mk "" (valueDefinition .EnumTypeName ["a", "b"]) [])

/-- A value member of declared type Array with one literal. -/
def arrayValue : mson.ValueMember :=
  .mk "" (valueDefinition .ArrayTypeName ["a"]) []

/-- A value member of declared type String with one literal and a description. -/
def describedString : mson.ValueMember :=
  .mk "about" (valueDefinition .StringTypeName ["a"]) []

/-- A String Property without direct value whose MemberType section holds a Group. -/
def stringWithGroupMember : mson.PropertyMember :=
  .mk (propertyName "p")
    (.mk "" (valueDefinition .StringTypeName [])
      [.mk .MemberTypeClass "" "v" [.GroupClass []]])

/-- An Object Property without direct value whose MemberType section holds a Group. -/
def objectWithGroupMember : mson.ValueMember :=
  .mk "" (valueDefinition .ObjectTypeName []) [.mk .MemberTypeClass "" "" [.GroupClass []]]

/-- A data structure named "User" with a description section and one section holding the
property `count` and a mixin of "Base". -/
def user : snowcrash.DataStructure :=
  { name := ⟨.UndefinedTypeName, ⟨"User", false⟩⟩
    typeDefinition := typeDefinition .UndefinedTypeName
    sections :=
      [.mk .BlockDescriptionClass "A user." "" [],
        .mk .MemberTypeClass "" "" [.PropertyClass count, .MixinClass (typeDefinition .ObjectTypeName)]] }

/-- A Number Property with the two direct values "1" and "2". -/
def twoNumbers : mson.PropertyMember :=
  .mk (propertyName "n") (.mk "" (valueDefinition .NumberTypeName ["1", "2"]) [])

/-- A String value member with one Sample section and two Default sections. -/
def sampled : mson.ValueMember :=
  .mk "" (valueDefinition .StringTypeName ["a"])
    [.mk .DefaultClass "" "d1" [], .mk .SampleClass "" "s1" [], .mk .DefaultClass "" "d2" []]

/-- A String value member with the flag `required` and no other flag. -/
def required : mson.ValueMember :=
  .mk "" ⟨[⟨"a", false⟩], ⟨⟨⟨.StringTypeName, ⟨"", false⟩⟩, []⟩, mson.RequiredTypeAttribute⟩⟩ []

/-- An Array Property without direct value whose only section is a BlockDescription section
(which carries no element). -/
def arrayWithDescription : mson.PropertyMember :=
  .mk (propertyName "p")
    (.mk "" (valueDefinition .ArrayTypeName []) [.mk .BlockDescriptionClass "text" "" []])

/-- A String value member whose only section is a BlockDescription section. -/
def stringWithDescription : mson.ValueMember :=
  .mk "" (valueDefinition .StringTypeName ["a"]) [.mk .BlockDescriptionClass "text" "" []]

/-- An Object Property without direct value whose MemberType section holds the property
`count` and then a value member of declared type Array, which does not build. -/
def objectWithBadMember : mson.PropertyMember :=
  .mk (propertyName "o")
    (.mk "" (valueDefinition .ObjectTypeName [])
      [.mk .MemberTypeClass "" "" [.PropertyClass count, .ValueClass arrayValue]])

end Scenario

end drafter

namespace drafter

/-! ### Vocabulary for the statements about the recursion -/

/-- The schema elements directly nested in a schema element: the elements of the sections of
a Property or Value member, the alternatives of a OneOf, the elements of a Group. The calls of
`MsonElementToRefract` inside a call on `mse` are calls on elements of `subElements mse`. -/
def subElements : mson.Element → List mson.Element
  | .PropertyClass property => (property.toValueMember.sections.map fun s => s.elements).flatten
  | .ValueClass value => (value.sections.map fun s => s.elements).flatten
  | .MixinClass _ => []
  | .OneOfClass oneOf => oneOf
  | .GroupClass elements => elements

namespace Scenario

/-- A value definition of declared type Array with the given literals and the single
nested type name `nested`. -/
def arrayOf (nested : mson.BaseTypeName) (literals : List String) : mson.ValueDefinition :=
  ⟨literals.map fun l => ⟨l, false⟩,
    ⟨⟨⟨.ArrayTypeName, ⟨"", false⟩⟩, [⟨nested, ⟨"", false⟩⟩]⟩, 0⟩⟩

/-- An Object value member without direct value whose MemberType section holds the property
`count` and a mixin. -/
def objectWithMembers : mson.ValueMember :=
  .mk "" (valueDefinition .ObjectTypeName [])
    [.mk .MemberTypeClass "" "" [.PropertyClass count, .MixinClass (typeDefinition .ObjectTypeName)]]

/-- A String value member without direct value and with two MemberType sections. -/
def twoMembers : mson.ValueMember :=
  .mk "" (valueDefinition .StringTypeName [])
    [.mk .MemberTypeClass "" "a" [], .mk .MemberTypeClass "" "b" []]

/-- A Number value member with the direct value "1" and a Sample section of text "abc". -/
def numberWithSample : mson.ValueMember :=
  .mk "" (valueDefinition .NumberTypeName ["1"]) [.mk .SampleClass "" "abc" []]

end Scenario

end drafter

/-! ## The serializers of `SerializeAST.cc` and `SerializeSourcemap.cc`, on parameters

The `sos` value tree and the `snowcrash` parameter types are declared in headers that are not
among the sources. The model keeps what `WrapParameters` and `WrapParametersSourcemap` use of
them. -/

namespace sos

/-- Modelled from the spec: the class `sos::Base` and its subclasses `sos::Null`,
`sos::String`, `sos::Number`, `sos::Boolean`, `sos::Array` and `sos::Object`: the directly
JSON-encodable object tree the serializers build. An object keeps its keys in insertion
order. -/
inductive Base where
  | null
  | string (value : String)
  | number (value : Nat)
  | boolean (value : Bool)
  | array (values : List Base)
  | object (fields : List (String × Base))

/-- Modelled from the spec: the content of a `sos::Array`. -/
abbrev Array := List Base

/-- Modelled from the spec: the content of a `sos::Object`. -/
abbrev Object := List (String × Base)

/-- Modelled from the spec: the method `sos::Array::push`: appends a value. -/
def Array.push (array : sos.Array) (value : Base) : sos.Array :=
  array ++ [value]

/-- Modelled from the spec: the method `sos::Object::set`: replaces the value of an existing
key, appends a new key otherwise. -/
def Object.set : sos.Object → String → Base → sos.Object
  | [], key, value => [(key, value)]
  | (k, x) :: rest, key, value =>
    if k = key then (k, value) :: rest else (k, x) :: Object.set rest key value

end sos

namespace mdp

/-- Modelled from the spec: the struct `mdp::BytesRange`: a byte range of the source text. -/
structure BytesRange where
  location : Nat
  length : Nat
  deriving DecidableEq, Repr

end mdp

namespace snowcrash

/-- Modelled from the spec: the enumeration `snowcrash::ParameterUse`. -/
inductive ParameterUse where
  | UndefinedParameterUse
  | OptionalParameterUse
  | RequiredParameterUse
  deriving DecidableEq, Repr

/-- Modelled from the spec: the struct `snowcrash::Parameter`, with the members
`WrapParameters` reads. -/
structure Parameter where
  name : String
  description : String
  type : String
  use : ParameterUse
  defaultValue : String
  exampleValue : String
  values : List String
  deriving DecidableEq, Repr

/-- Modelled from the spec: the struct `snowcrash::SourceMapBase`: the byte ranges of one
node. -/
structure SourceMapBase where
  sourceMap : List mdp.BytesRange
  deriving DecidableEq, Repr

/-- Modelled from the spec: the struct `snowcrash::SourceMap<Parameter>`, with the members
`WrapParametersSourcemap` reads; `values` is the member `values.collection`. -/
structure ParameterSourceMap where
  name : SourceMapBase
  description : SourceMapBase
  type : SourceMapBase
  use : SourceMapBase
  exampleValue : SourceMapBase
  defaultValue : SourceMapBase
  values : List SourceMapBase
  deriving DecidableEq, Repr

/-- Modelled from the spec: the struct `snowcrash::SourceMap<Parameters>`. -/
structure ParametersSourceMap where
  collection : List ParameterSourceMap
  deriving DecidableEq, Repr

end snowcrash

namespace drafter

/-- Modelled from the spec: the key constants of `SerializeKey` the serializers modelled here
use; their strings are defined outside the sources and are taken as given. -/
structure SerializeKey where
  Name : String
  Description : String
  Type_ : String
  Required : String
  Default : String
  Example : String
  Values : String
  Value : String
  Literal : String
  Variable : String

/-- The inner `for` loop of `WrapParameters`, over the values of one parameter. -/
def WrapParameters.values (K : SerializeKey) : List String → sos.Array → sos.Array
  | [], values => values
  | valIt :: rest, values =>
    let value : sos.Object := []
    let value := value.set K.Value (.string valIt)
    WrapParameters.values K rest (values.push (.object value))

/-- The object `parameter` the body of the loop of `WrapParameters` fills. -/
def WrapParameters.parameter (K : SerializeKey) (it : snowcrash.Parameter) : sos.Object :=
  let parameter : sos.Object := []
  let parameter := parameter.set K.Name (.string it.name)
  let parameter := parameter.set K.Description (.string it.description)
  let parameter := parameter.set K.Type_ (.string it.type)
  let parameter := parameter.set K.Required (.boolean (it.use != .OptionalParameterUse))
  let parameter := parameter.set K.Default (.string it.defaultValue)
  let parameter := parameter.set K.Example (.string it.exampleValue)
  let values := WrapParameters.values K it.values []
  parameter.set K.Values (.array values)

/-- The `for` loop of `WrapParameters`: every parameter object is pushed on
`parametersArray`. -/
def WrapParameters.loop (K : SerializeKey) : List snowcrash.Parameter → sos.Array → sos.Array
  | [], parametersArray => parametersArray
  | it :: rest, parametersArray =>
    let parameter := WrapParameters.parameter K it
    WrapParameters.loop K rest (parametersArray.push (.object parameter))

/-- `WrapParameters` of `SerializeAST.cc`. -/
def WrapParameters (K : SerializeKey) (parameters : List snowcrash.Parameter) : sos.Array :=
  WrapParameters.loop K parameters []

/-- The inner `for` loop of `WrapSourcemap`, over the byte ranges. -/
def WrapSourcemap.loop : List mdp.BytesRange → sos.Array → sos.Array
  | [], sourceMap => sourceMap
  | it :: rest, sourceMap =>
    let sourceMapRow : sos.Array := []
    let sourceMapRow := sourceMapRow.push (.number it.location)
    let sourceMapRow := sourceMapRow.push (.number it.length)
    WrapSourcemap.loop rest (sourceMap.push (.array sourceMapRow))

/-- `WrapSourcemap` of `SerializeSourcemap.cc`. -/
def WrapSourcemap (value : snowcrash.SourceMapBase) : sos.Array :=
  WrapSourcemap.loop value.sourceMap []

/-- The inner `for` loop of `WrapParametersSourcemap`, over the values of one parameter. -/
def WrapParametersSourcemap.values (K : SerializeKey) :
    List snowcrash.SourceMapBase → sos.Array → sos.Array
  | [], values => values
  | valIt :: rest, values =>
    let value : sos.Object := []
    let value := value.set K.Value (.array (WrapSourcemap valIt))
    WrapParametersSourcemap.values K rest (values.push (.object value))

/-- The object `parameter` the body of the loop of `WrapParametersSourcemap` fills. -/
def WrapParametersSourcemap.parameter (K : SerializeKey) (it : snowcrash.ParameterSourceMap) :
    sos.Object :=
  let parameter : sos.Object := []
  let parameter := parameter.set K.Name (.array (WrapSourcemap it.name))
  let parameter := parameter.set K.Description (.array (WrapSourcemap it.description))
  let parameter := parameter.set K.Type_ (.array (WrapSourcemap it.type))
  let parameter := parameter.set K.Required (.array (WrapSourcemap it.use))
  let parameter := parameter.set K.Example (.array (WrapSourcemap it.exampleValue))
  let parameter := parameter.set K.Default (.array (WrapSourcemap it.defaultValue))
  let values := WrapParametersSourcemap.values K it.values []
  parameter.set K.Values (.array values)

/-- The `for` loop of `WrapParametersSourcemap`: the body fills the local object `parameter`
and ends; the source has no statement that pushes it on `parametersArray`. -/
def WrapParametersSourcemap.loop (K : SerializeKey) :
    List snowcrash.ParameterSourceMap → sos.Array → sos.Array
  | [], parametersArray => parametersArray
  | it :: rest, parametersArray =>
    let _parameter := WrapParametersSourcemap.parameter K it
    WrapParametersSourcemap.loop K rest parametersArray

/-- `WrapParametersSourcemap` of `SerializeSourcemap.cc`. -/
def WrapParametersSourcemap (K : SerializeKey) (parameters : snowcrash.ParametersSourceMap) :
    sos.Array :=
  WrapParametersSourcemap.loop K parameters.collection []

end drafter

namespace drafter

namespace Scenario

/-- A value member of declared type Undefined with the two direct values "a" and "b". -/
def undefinedPair : mson.ValueMember :=
  .mk "" (valueDefinition .UndefinedTypeName ["a", "b"]) []

/-- An Enum-typed Property named "e" with the description "kind", the flag `required`, the
values "a" and "b", a Sample section and a Default section. -/
def enumFull : mson.PropertyMember :=
  .mk (propertyName "e")
    (.mk "kind"
      ⟨[⟨"a", false⟩, ⟨"b", false⟩],
        ⟨⟨⟨.EnumTypeName, ⟨"", false⟩⟩, []⟩, mson.RequiredTypeAttribute⟩⟩
      [.mk .SampleClass "" "" [.ValueClass (.mk "" (valueDefinition .StringTypeName ["a"]) [])],
        .mk .DefaultClass "" "" [.ValueClass (.mk "" (valueDefinition .StringTypeName ["b"]) [])]])

end Scenario

end drafter

namespace drafter

namespace Scenario

/-- The strings of the serialization keys. -/
def keys : SerializeKey :=
  ⟨"name", "description", "type", "required", "default", "example", "values", "value",
    "literal", "variable"⟩

/-- A required parameter "id" of type "number" with the example value "1" and no listed
value. -/
def idParameter : snowcrash.Parameter :=
  { name := "id", description := "", type := "number", use := .RequiredParameterUse,
    defaultValue := "", exampleValue := "1", values := [] }

/-- The source map of a parameter collection holding one parameter, whose name spans the
bytes 10 to 11. -/
def idParameterSourceMap : snowcrash.ParametersSourceMap :=
  ⟨[{ name := ⟨[⟨10, 2⟩]⟩, description := ⟨[]⟩, type := ⟨[]⟩, use := ⟨[]⟩,
      exampleValue := ⟨[]⟩, defaultValue := ⟨[]⟩, values := [] }]⟩

end Scenario

end drafter

namespace drafter

/-! ### `SerializeAST.cc`: symbols, type names and type attributes -/

/-- `WrapSymbol` of `SerializeAST.cc`. -/
def WrapSymbol (K : SerializeKey) (symbol : mson.Symbol) : sos.Object :=
  let symbolObject : sos.Object := []
  let symbolObject := symbolObject.set K.Literal (.string symbol.literal)
  symbolObject.set K.Variable (.boolean symbol.variable_)

/-- `WrapTypeName` of `SerializeAST.cc`. The method `typeName.empty()` is declared outside
the sources; it is the parameter `empty`. -/
def WrapTypeName (K : SerializeKey) (empty : mson.TypeName → Bool) (typeName : mson.TypeName) :
    sos.Base :=
  if empty typeName then .null
  else if typeName.base != .UndefinedTypeName then
    let baseTypeName : String := ""
    let baseTypeName :=
      match typeName.base with
      | .BooleanTypeName => "boolean"
      | .StringTypeName => "string"
      | .NumberTypeName => "number"
      | .ArrayTypeName => "array"
      | .EnumTypeName => "enum"
      | .ObjectTypeName => "object"
      | _ => baseTypeName
    .string baseTypeName
  else .object (WrapSymbol K typeName.symbol)

/-- `WrapTypeAttributes` of `SerializeAST.cc`: an `if` / `else if` chain over the five
flags. -/
def WrapTypeAttributes (typeAttributes : mson.TypeAttributes) : sos.Array :=
  let typeAttributesArray : sos.Array := []
  if typeAttributes &&& mson.RequiredTypeAttribute ≠ 0 then
    typeAttributesArray.push (.string "required")
  else if typeAttributes &&& mson.OptionalTypeAttribute ≠ 0 then
    typeAttributesArray.push (.string "optional")
  else if typeAttributes &&& mson.DefaultTypeAttribute ≠ 0 then
    typeAttributesArray.push (.string "default")
  else if typeAttributes &&& mson.SampleTypeAttribute ≠ 0 then
    typeAttributesArray.push (.string "sample")
  else if typeAttributes &&& mson.FixedTypeAttribute ≠ 0 then
    typeAttributesArray.push (.string "fixed")
  else typeAttributesArray

/-! ### Vocabulary for the comparison of the two attribute mappers -/

/-- The tag strings an array of the legacy serializer holds. -/
def legacyTags (array : sos.Array) : List String :=
  array.filterMap fun v =>
    match v with
    | .string tag => some tag
    | _ => none

/-- The tag strings the element of `MsAttributesToRefract` holds; none for `NULL`. -/
def elementTags (attrs : Option refract.Element) : List String :=
  match attrs with
  | none => []
  | some e => e.children.filterMap fun x =>
    match x.value with
    | .string tag => some tag
    | _ => none

/-- The number of flags set in a flag set, among the five flags. -/
def flagCount (ta : mson.TypeAttributes) : Nat :=
  ([mson.RequiredTypeAttribute, mson.OptionalTypeAttribute, mson.DefaultTypeAttribute,
    mson.SampleTypeAttribute, mson.FixedTypeAttribute].filter fun f => ta &&& f ≠ 0).length

end drafter

/-! ## `refract/VisitableBy.h` -/

/-- Modelled from the spec: the template `typelist::typelist<H, T>` of `Typelist.h` (not among
the sources), for the lists `VisitableBy` is specialised on: a head type and a tail that is
either `typelist::null_type` (`last`) or another such list (`cons`). The types are named by
the values of `Hs`. -/
inductive typelist (Hs : Type) where
  | last (H : Hs)
  | cons (H : Hs) (T : typelist Hs)

/-- The types of a typelist, in order. -/
def typelist.toList {Hs : Type} : typelist Hs → List Hs
  | .last H => [H]
  | .cons H T => H :: T.toList

namespace VisitableBy

/-- `VisitableBy<Tlist>::InvokeVisit(v, a)`, for the two specialisations of the template. The
visitor `v` is given by `dynamic_cast`, which tells for each type `H` whether
`dynamic_cast<H*>(&v)` is non-null; the calls `pFound->visit(a)` are recorded, in order, on
`calls`, and the outcome is the exception thrown, if any. -/
def InvokeVisit {Hs Arg : Type} (dynamic_cast : Hs → Bool) (a : Arg) :
    typelist Hs → List (Hs × Arg) → Except drafter.Error Unit × List (Hs × Arg)
  | .cons H T, calls =>
    if dynamic_cast H then (.ok (), calls ++ [(H, a)])
    else InvokeVisit dynamic_cast a T calls
  | .last H, calls =>
    if dynamic_cast H then (.ok (), calls ++ [(H, a)])
    else (.error (.runtime_error "Unknown visitor type"), calls)

end VisitableBy

namespace drafter

namespace Scenario

/-- An Enum-typed Property without direct value and without section. -/
def enumEmpty : mson.PropertyMember :=
  .mk (propertyName "e") (.mk "" (valueDefinition .EnumTypeName []) [])

/-- An Array Property without direct value whose only section is a Sample section carrying
only scalar text. -/
def arrayWithScalarSample : mson.PropertyMember :=
  .mk (propertyName "p")
    (.mk "" (valueDefinition .ArrayTypeName []) [.mk .SampleClass "" "text" []])

end Scenario

end drafter

namespace libc

end libc

namespace drafter

open refract

/-! ### The recursion of `MsonElementToRefract`, call by call

The functions of the recursive cycle `MsonElementToRefract` -> `MsonPropertyToRefract` /
`MsonValueToRefract` / `MsonOneofToRefract` -> `RefractElementFromProperty` /
`RefractElementFromValue` -> `ExtractTypeSection` -> `MsonElementToRefract`, once more, each
with the call of `MsonElementToRefract` it makes as the parameter `self`. A call returns
`none` when the bound on the depth of the recursion is reached, and otherwise what the C++
call returns: an element or an exception. -/

/-- The outcome of a call under a bound on the depth of the recursion. -/
abbrev Bounded (α : Type) := Option (Except Error α)

/-- The `for` loop of the composite `ExtractTypeSection`, calling `self` on each element. -/
def ExtractTypeSectionWith.loop (self : mson.Element → Bounded Element) :
    List mson.Element → List Element → Bounded (List Element)
  | [], result => some (.ok result)
  | it :: rest, result =>
    match self it with
    | none => none
    | some (.error err) => some (.error err)
    | some (.ok e) => ExtractTypeSectionWith.loop self rest (result ++ [e])

/-- `ExtractTypeSection<T>(ts)`, calling `self` for `MsonElementToRefract`. -/
def ExtractTypeSectionWith (self : mson.Element → Bounded Element) (T : ElementType)
    (ts : mson.TypeSection) : Bounded Value :=
  match T with
  | .BooleanElement => some (.ok (.boolean (LiteralTo_bool ts.value)))
  | .NumberElement => some (.ok (.number (LiteralTo_double ts.value)))
  | .StringElement => some (.ok (.string (LiteralTo_string ts.value)))
  | .ArrayElement =>
    if ts.elements.isEmpty then
      some (.error (.logic_error "Cannot extract values from empty container"))
    else
      match ExtractTypeSectionWith.loop self ts.elements [] with
      | none => none
      | some (.error err) => some (.error err)
      | some (.ok result) => some (.ok (.array result))
  | .ObjectElement =>
    if ts.elements.isEmpty then
      some (.error (.logic_error "Cannot extract values from empty container"))
    else
      match ExtractTypeSectionWith.loop self ts.elements [] with
      | none => none
      | some (.error err) => some (.error err)
      | some (.ok result) => some (.ok (.object result))

/-- The `for` loop over `value.sections` in `RefractElementFromValue<T>`, calling `self` for
`MsonElementToRefract`. -/
def RefractElementFromValueWith.loop (self : mson.Element → Bounded Element)
    (T : ElementType) : List mson.TypeSection → SectionState → Bounded SectionState
  | [], st => some (.ok st)
  | it :: rest, st =>
    if it.klass = .MemberTypeClass then
      if !st.element.empty then
        some (.error (.logic_error
          "Element content was already set, you cannot fill it from 'memberType'"))
      else
        match ExtractTypeSectionWith self T it with
        | none => none
        | some (.error err) => some (.error err)
        | some (.ok v) =>
          RefractElementFromValueWith.loop self T rest { st with element := st.element.set v }
    else
      match ExtractTypeSectionWith self T it with
      | none => none
      | some (.error err) => some (.error err)
      | some (.ok v) =>
        let e := (Element.new T).set v
        if it.klass = .SampleClass then
          RefractElementFromValueWith.loop self T rest { st with samples := st.samples ++ [e] }
        else if it.klass = .DefaultClass then
          RefractElementFromValueWith.loop self T rest
            { st with defaults := st.defaults ++ [e] }
        else some (.error (.logic_error "Unexpected section for property"))

/-- `RefractElementFromValue<T>`, calling `self` for `MsonElementToRefract`. -/
def RefractElementFromValueWith (self : mson.Element → Bounded Element) (T : ElementType)
    (value : mson.ValueMember) : Bounded Element :=
  match RefractElementFromValue.head T value.description value.valueDefinition with
  | .error err => some (.error err)
  | .ok element =>
    if !value.sections.isEmpty then
      match RefractElementFromValueWith.loop self T value.sections ⟨element, [], []⟩ with
      | none => none
      | some (.error err) => some (.error err)
      | some (.ok st) => some (.ok (RefractElementFromValue.tail st))
    else some (.ok element)

/-- `RefractElementFromProperty<T>`, calling `self` for `MsonElementToRefract`. -/
def RefractElementFromPropertyWith (self : mson.Element → Bounded Element) (T : ElementType)
    (property : mson.PropertyMember) : Bounded Element :=
  match RefractElementFromValueWith self T property.toValueMember with
  | none => none
  | some (.error err) => some (.error err)
  | some (.ok element) =>
    some (.ok (element.setMeta "name" (IElement.Create property.name.literal)))

/-- `MsonPropertyToRefract`, calling `self` for `MsonElementToRefract`. -/
def MsonPropertyToRefractWith (self : mson.Element → Bounded Element)
    (property : mson.PropertyMember) : Bounded Element :=
  match property.toValueMember.valueDefinition.typeDefinition.typeSpecification.name.base with
  | .BooleanTypeName => RefractElementFromPropertyWith self .BooleanElement property
  | .NumberTypeName => RefractElementFromPropertyWith self .NumberElement property
  | .StringTypeName => RefractElementFromPropertyWith self .StringElement property
  | .EnumTypeName =>
    match RefractElementFromPropertyWith self .ArrayElement property with
    | none => none
    | some (.error err) => some (.error err)
    | some (.ok array) => some (.ok (ArrayToEnum array))
  | .ArrayTypeName => RefractElementFromPropertyWith self .ArrayElement property
  | .ObjectTypeName => RefractElementFromPropertyWith self .ObjectElement property
  | .UndefinedTypeName =>
    if hasChildren property.toValueMember
    then RefractElementFromPropertyWith self .ObjectElement property
    else RefractElementFromPropertyWith self .StringElement property

/-- `MsonValueToRefract`, calling `self` for `MsonElementToRefract`. -/
def MsonValueToRefractWith (self : mson.Element → Bounded Element)
    (value : mson.ValueMember) : Bounded Element :=
  match value.valueDefinition.typeDefinition.typeSpecification.name.base with
  | .BooleanTypeName => RefractElementFromValueWith self .BooleanElement value
  | .NumberTypeName => RefractElementFromValueWith self .NumberElement value
  | .StringTypeName => RefractElementFromValueWith self .StringElement value
  | .UndefinedTypeName => RefractElementFromValueWith self .StringElement value
  | _ => some (.error (.runtime_error "Unhandled type of ValueMember"))

/-- The `for` loop of `MsonOneofToRefract`, calling `self` on each alternative. -/
def MsonOneofToRefractWith.loop (self : mson.Element → Bounded Element) :
    List mson.Element → Element → Bounded Element
  | [], select => some (.ok select)
  | it :: rest, select =>
    let option := (Element.new .ObjectElement).element "option"
    match self it with
    | none => none
    | some (.error err) => some (.error err)
    | some (.ok e) => MsonOneofToRefractWith.loop self rest (select.push_back (option.push_back e))

/-- `MsonOneofToRefract`, calling `self` for `MsonElementToRefract`. -/
def MsonOneofToRefractWith (self : mson.Element → Bounded Element)
    (oneOf : List mson.Element) : Bounded Element :=
  MsonOneofToRefractWith.loop self oneOf ((Element.new .ArrayElement).element "select")

/-- The body of `MsonElementToRefract`, calling `self` for the calls of `MsonElementToRefract`
made down the cycle. -/
def MsonElementToRefractWith (self : mson.Element → Bounded Element) :
    mson.Element → Bounded Element
  | .PropertyClass property => MsonPropertyToRefractWith self property
  | .ValueClass value => MsonValueToRefractWith self value
  | .MixinClass mixin => some (.ok (MsonMixinToRefract mixin))
  | .OneOfClass oneOf => MsonOneofToRefractWith self oneOf
  | .GroupClass _ => some (.error (.runtime_error "NI unhandled element"))

/-- `MsonElementToRefract` as the C++ runs it, by unrestricted recursion, under a bound `fuel`
on the depth of the nested calls of `MsonElementToRefract`: each call of
`MsonElementToRefract` made down the cycle runs with the bound decreased by one, and a call
with bound 0 gives up (`none`). -/
def MsonElementToRefractFuel : Nat → mson.Element → Bounded Element
  | 0, _ => none
  | fuel + 1, mse => MsonElementToRefractWith (MsonElementToRefractFuel fuel) mse

/-- The inner `for` loop of `ToRefract`, calling `self` for `MsonElementToRefract`. -/
def ToRefractWith.elements (self : mson.Element → Bounded Element) :
    List mson.Element → Element → Bounded Element
  | [], e => some (.ok e)
  | eit :: rest, e =>
    match self eit with
    | none => none
    | some (.error err) => some (.error err)
    | some (.ok x) => ToRefractWith.elements self rest (e.push_back x)

/-- The outer `for` loop of `ToRefract`, calling `self` for `MsonElementToRefract`. -/
def ToRefractWith.loop (self : mson.Element → Bounded Element) :
    List mson.TypeSection → Element → Bounded Element
  | [], e => some (.ok e)
  | it :: rest, e =>
    if it.klass = .BlockDescriptionClass then
      ToRefractWith.loop self rest (e.setMeta "description" (IElement.Create it.description))
    else
      match ToRefractWith.elements self it.elements e with
      | none => none
      | some (.error err) => some (.error err)
      | some (.ok e) => ToRefractWith.loop self rest e

/-- `ToRefract`, calling `self` for `MsonElementToRefract`. -/
def ToRefractWith (self : mson.Element → Bounded Element) (ds : snowcrash.DataStructure) :
    Bounded Element :=
  let e := Element.new .ObjectElement
  let e :=
    if !ds.typeDefinition.typeSpecification.name.symbol.literal.isEmpty then
      e.element ds.typeDefinition.typeSpecification.name.symbol.literal
    else e
  let e := e.setMeta "id" (IElement.Create ds.name.symbol.literal)
  let e := e.setMeta "title" (IElement.Create ds.name.symbol.literal)
  ToRefractWith.loop self ds.sections e

/-- `ToRefract` as the C++ runs it, with the calls of `MsonElementToRefract` under the bound
`fuel` on the depth of their recursion. -/
def ToRefractFuel (fuel : Nat) (ds : snowcrash.DataStructure) : Bounded Element :=
  ToRefractWith (MsonElementToRefractFuel fuel) ds

end drafter

/-! ## Theorems -/

namespace drafter

open refract

/-! ### The dispatch of `MsonElementToRefract`, in the shape of the source -/

/-- The `switch` of `MsonElementToRefract`: each class is handed to its own builder, and the
Group class (like any class without a `return`) reaches the final `throw`. -/
theorem MsonElementToRefract_eq (mse : mson.Element) :
    MsonElementToRefract mse =
      match mse with
      | .PropertyClass property => MsonPropertyToRefract property
      | .ValueClass value => MsonValueToRefract value
      | .MixinClass mixin => pure (MsonMixinToRefract mixin)
      | .OneOfClass oneOf => MsonOneofToRefract oneOf
      | .GroupClass _ => throw (.runtime_error "NI unhandled element") := by
  cases mse <;> rfl

/-! ### Elementary facts about elements and mappings -/

theorem Collection.lookup_assign (m : Collection) (key k : String) (e : Element) :
    (Collection.assign m key e).lookup k = if k = key then some e else m.lookup k := by
  induction m with
  | nil =>
    by_cases h : k = key
    · simp [Collection.assign, Collection.lookup, h]
    · have h2 : ¬ key = k := fun h3 => h h3.symm
      simp [Collection.assign, Collection.lookup, h, h2]
  | cons p rest ih =>
    obtain ⟨k0, x⟩ := p
    by_cases h0 : k0 = key
    · by_cases h : k = key
      · simp [Collection.assign, Collection.lookup, h0, h]
      · have h2 : ¬ key = k := fun h3 => h h3.symm
        simp [Collection.assign, Collection.lookup, h0, h, h2]
    · by_cases h : k = key
      · subst h
        simp [Collection.assign, Collection.lookup, h0, ih]
      · simp only [Collection.assign, h0, if_false, Collection.lookup, ih, h]

theorem Element.push_back_array (n : String) (h c : Bool) (m a : Collection)
    (v : List Element) (x : Element) :
    (Element.mk n h c m a (.array v)).push_back x = .mk n true c m a (.array (v ++ [x])) := rfl

theorem Element.push_back_object (n : String) (h c : Bool) (m a : Collection)
    (v : List Element) (x : Element) :
    (Element.mk n h c m a (.object v)).push_back x = .mk n true c m a (.object (v ++ [x])) := rfl

/-- Pushing a list of children, one after the other, on an array element. -/
theorem Element.foldl_push_back_array (xs : List Element) :
    ∀ (n : String) (h c : Bool) (m a : Collection) (v : List Element),
      xs.foldl Element.push_back (Element.mk n h c m a (.array v)) =
        .mk n (h || !xs.isEmpty) c m a (.array (v ++ xs)) := by
  induction xs with
  | nil => intro n h c m a v; simp
  | cons x xs ih =>
    intro n h c m a v
    simp [List.foldl_cons, Element.push_back_array, ih]

/-- Pushing a list of children, one after the other, on an object element. -/
theorem Element.foldl_push_back_object (xs : List Element) :
    ∀ (n : String) (h c : Bool) (m a : Collection) (v : List Element),
      xs.foldl Element.push_back (Element.mk n h c m a (.object v)) =
        .mk n (h || !xs.isEmpty) c m a (.object (v ++ xs)) := by
  induction xs with
  | nil => intro n h c m a v; simp
  | cons x xs ih =>
    intro n h c m a v
    simp [List.foldl_cons, Element.push_back_object, ih]

/-! ### OneOf -/

/-- The option wrapper `MsonOneofToRefract` builds around one alternative. -/
theorem option_wrapper (r : Element) :
    ((Element.new .ObjectElement).element "option").push_back r =
      .mk "option" true false [] [] (.object [r]) := rfl

/-- The loop of `MsonOneofToRefract` when every alternative builds: one option is pushed per
alternative, in order. -/
theorem MsonOneofToRefract_loop_ok (alts : List mson.Element) :
    ∀ (rs : List Element) (select : Element),
      alts.map MsonElementToRefract = rs.map Except.ok →
      MsonOneofToRefract.loop alts select =
        .ok ((rs.map fun r => Element.mk "option" true false [] [] (.object [r])).foldl
          Element.push_back select) := by
  induction alts with
  | nil =>
    intro rs select h
    cases rs with
    | nil => rfl
    | cons r rs => simp at h
  | cons a alts ih =>
    intro rs select h
    cases rs with
    | nil => simp at h
    | cons r rs =>
      simp only [List.map_cons, List.cons.injEq] at h
      rw [MsonOneofToRefract.loop, h.1]
      simp only []
      rw [ih rs _ h.2]
      rfl

/-- The loop of `MsonOneofToRefract` fails as soon as one alternative fails to build. -/
theorem MsonOneofToRefract.loop_error (alts : List mson.Element) :
    ∀ (select : Element), (∃ a ∈ alts, ∃ err, MsonElementToRefract a = .error err) →
      ∃ err, MsonOneofToRefract.loop alts select = .error err := by
  induction alts with
  | nil => intro select h; simp at h
  | cons a alts ih =>
    intro select h
    rw [MsonOneofToRefract.loop]
    cases ha : MsonElementToRefract a with
    | error err => exact ⟨err, rfl⟩
    | ok r =>
      simp only []
      apply ih
      obtain ⟨b, hb, err, hberr⟩ := h
      rcases List.mem_cons.mp hb with rfl | hb
      · rw [ha] at hberr; cases hberr
      · exact ⟨b, hb, err, hberr⟩

/-- C8. For a OneOf whose alternatives `a1..an` (`n ≥ 0`) all build, to `r1..rn`,
`MsonOneofToRefract` returns an Array element with element-name "select" whose children are,
in the alternatives' order, `n` Object elements with element-name "option", the i-th having
`ri = MsonElementToRefract ai` as its only child. -/
theorem C8_oneOf_select_of_options (oneOf : List mson.Element) (rs : List Element)
    (h : oneOf.map MsonElementToRefract = rs.map Except.ok) :
    MsonOneofToRefract oneOf =
        .ok (.mk "select" (!rs.isEmpty) false [] []
          (.array (rs.map fun r => Element.mk "option" true false [] [] (.object [r])))) ∧
      rs.length = oneOf.length := by
  constructor
  · unfold MsonOneofToRefract
    rw [MsonOneofToRefract_loop_ok oneOf rs _ h]
    show Except.ok (List.foldl Element.push_back (Element.mk "select" false false [] [] (.array [])) _) = _
    rw [Element.foldl_push_back_array]
    cases rs <;> simp
  · have := congrArg List.length h
    simpa using this.symm

/-- C8, the scenario of the spec: two Value alternatives, String "x" and Number "1", give a
"select" array of two "option" objects wrapping a String "x" and a Number 1. -/
theorem C8_oneOf_select_of_options_witness :
    Scenario.oneOf.map MsonElementToRefract =
      [Element.mk "" true false [] [] (.string "x"),
        Element.mk "" true false [] [] (.number (.finite 1))].map Except.ok ∧
    (MsonOneofToRefract Scenario.oneOf =
        .ok (.mk "select" true false [] []
          (.array [.mk "option" true false [] [] (.object [.mk "" true false [] [] (.string "x")]),
            .mk "option" true false [] [] (.object
              [.mk "" true false [] [] (.number (.finite 1))])])) ∧
      2 = Scenario.oneOf.length) :=
  ⟨rfl, C8_oneOf_select_of_options Scenario.oneOf
    [.mk "" true false [] [] (.string "x"), .mk "" true false [] [] (.number (.finite 1))] rfl⟩

/-! ### Mixin -/

/-- C9. `MsonMixinToRefract` is total (the Mixin branch of `MsonElementToRefract` never
fails) and returns an Object element with element-name "ref" and the compact-rendering hint
set, with exactly two String children: first the one with meta name "path" and content
"content", then the one with meta name "href" and the mixin's target symbol literal as
content. -/
theorem C9_mixin_ref (mixin : mson.Mixin) :
    MsonElementToRefract (.MixinClass mixin) = .ok (MsonMixinToRefract mixin) ∧
    MsonMixinToRefract mixin =
      .mk "ref" true true [] []
        (.object
          [.mk "" true false [("name", .mk "" true false [] [] (.string "path"))] []
              (.string "content"),
            .mk "" true false [("name", .mk "" true false [] [] (.string "href"))] []
              (.string mixin.typeSpecification.name.symbol.literal)]) :=
  ⟨rfl, rfl⟩

end drafter

namespace drafter

open refract

/-! ### Accessors after the element mutators -/

@[simp] theorem Element.kind_new (T : ElementType) : (Element.new T).kind = T := by
  cases T <;> rfl

@[simp] theorem Element.kind_set (e : Element) (v : Value) : (e.set v).kind = v.kind := by
  cases e; rfl

@[simp] theorem Element.kind_setMeta (e x : Element) (k : String) :
    (e.setMeta k x).kind = e.kind := by
  cases e; rfl

@[simp] theorem Element.kind_setAttribute (e x : Element) (k : String) :
    (e.setAttribute k x).kind = e.kind := by
  cases e; rfl

@[simp] theorem Element.kind_element (e : Element) (n : String) :
    (e.element n).kind = e.kind := by
  cases e; rfl

@[simp] theorem Element.meta_new (T : ElementType) : (Element.new T).meta = [] := rfl

@[simp] theorem Element.meta_set (e : Element) (v : Value) : (e.set v).meta = e.meta := by
  cases e; rfl

@[simp] theorem Element.meta_setMeta (e x : Element) (k : String) :
    (e.setMeta k x).meta = Collection.assign e.meta k x := by
  cases e; rfl

@[simp] theorem Element.meta_setAttribute (e x : Element) (k : String) :
    (e.setAttribute k x).meta = e.meta := by
  cases e; rfl

@[simp] theorem Element.hasContent_new (T : ElementType) :
    (Element.new T).hasContent = false := rfl

@[simp] theorem Element.hasContent_set (e : Element) (v : Value) :
    (e.set v).hasContent = true := by
  cases e; rfl

@[simp] theorem Element.hasContent_setMeta (e x : Element) (k : String) :
    (e.setMeta k x).hasContent = e.hasContent := by
  cases e; rfl

@[simp] theorem Element.hasContent_setAttribute (e x : Element) (k : String) :
    (e.setAttribute k x).hasContent = e.hasContent := by
  cases e; rfl

@[simp] theorem Element.value_set (e : Element) (v : Value) : (e.set v).value = v := by
  cases e; rfl

@[simp] theorem Element.value_setMeta (e x : Element) (k : String) :
    (e.setMeta k x).value = e.value := by
  cases e; rfl

@[simp] theorem Element.value_setAttribute (e x : Element) (k : String) :
    (e.setAttribute k x).value = e.value := by
  cases e; rfl

/-! ### Value extraction yields a value of the requested class -/

theorem Except.map_eq_ok {α β : Type} {f : α → β} {x : Except Error α} {v : β}
    (h : f <$> x = .ok v) : ∃ a, x = .ok a ∧ v = f a := by
  cases x with
  | error err => cases h
  | ok a => cases h; exact ⟨a, rfl, rfl⟩

theorem ExtractValues_kind (T : ElementType) (vd : mson.ValueDefinition) (v : Value)
    (h : ExtractValues T vd = .ok v) : v.kind = T := by
  cases T <;> simp only [ExtractValues] at h <;>
    (obtain ⟨a, _, rfl⟩ := Except.map_eq_ok h; rfl)

theorem ExtractTypeSection_kind (T : ElementType) (ts : mson.TypeSection) (v : Value)
    (h : ExtractTypeSection T ts = .ok v) : v.kind = T := by
  obtain ⟨k, d, value, elements⟩ := ts
  cases T <;> simp only [ExtractTypeSection] at h
  · cases h; rfl
  · cases h; rfl
  · cases h; rfl
  · split at h
    · cases h
    · obtain ⟨a, _, rfl⟩ := Except.map_eq_ok h; rfl
  · split at h
    · cases h
    · obtain ⟨a, _, rfl⟩ := Except.map_eq_ok h; rfl

/-! ### The three stages of `RefractElementFromValue` -/

/-- `RefractElementFromValue<T>` in its three stages. -/
theorem RefractElementFromValue_eq (T : ElementType) (d : String) (vd : mson.ValueDefinition)
    (sections : List mson.TypeSection) :
    RefractElementFromValue T (.mk d vd sections) =
      match RefractElementFromValue.head T d vd with
      | .error err => .error err
      | .ok element =>
        if !sections.isEmpty then
          match RefractElementFromValue.loop T sections ⟨element, [], []⟩ with
          | .error err => .error err
          | .ok st => .ok (RefractElementFromValue.tail st)
        else .ok element := by
  rw [RefractElementFromValue]

/-- What the statements before the loop produce, given the outcome of the value
extraction. -/
theorem RefractElementFromValue.head_ok (T : ElementType) (d : String)
    (vd : mson.ValueDefinition) (e : Element)
    (h : RefractElementFromValue.head T d vd = .ok e) :
    e.kind = T ∧
    e.meta = (if d.isEmpty then [] else [("description", IElement.Create d)]) ∧
    e.hasContent = !vd.values.isEmpty ∧
    (vd.values.isEmpty = false → ExtractValues T vd = .ok e.value) := by
  unfold RefractElementFromValue.head at h
  by_cases hv : vd.values.isEmpty = true
  · simp only [hv, Bool.not_true, Bool.false_eq_true, if_false] at h
    cases hd : d.isEmpty <;> cases ha : MsAttributesToRefract vd.typeDefinition.attributes <;>
      simp only [hd, ha, Bool.not_true, Bool.not_false, Bool.false_eq_true, if_false,
        if_true, Except.ok.injEq] at h <;>
      (subst h; simp [hv, Collection.assign])
  · have hv2 : vd.values.isEmpty = false := by simpa using hv
    simp only [hv2, Bool.not_false, if_true] at h
    cases hx : ExtractValues T vd with
    | error err => simp only [hx] at h; cases h
    | ok v =>
      have hk := ExtractValues_kind T vd v hx
      simp only [hx] at h
      cases hd : d.isEmpty <;> cases ha : MsAttributesToRefract vd.typeDefinition.attributes <;>
        simp only [hd, ha, Bool.not_true, Bool.not_false, Bool.false_eq_true, if_false,
          if_true, Except.ok.injEq] at h <;>
        (subst h; simp [hk, hv2, Collection.assign])

end drafter

namespace drafter

open refract

/-- The error of the content-conflict rule. -/
theorem RefractElementFromValue.loop_cons_member (T : ElementType) (it : mson.TypeSection)
    (rest : List mson.TypeSection) (st : SectionState)
    (hk : it.klass = .MemberTypeClass) (hc : st.element.hasContent = true) :
    RefractElementFromValue.loop T (it :: rest) st =
      .error (.logic_error
        "Element content was already set, you cannot fill it from 'memberType'") := by
  rw [RefractElementFromValue.loop]
  simp [hk, hc, Element.empty]

/-- Facts about a section loop that ends without an error: the element keeps its class and
its meta mapping, every section has been extracted, and an element whose content was already
set has met no MemberType section. -/
theorem RefractElementFromValue_loop_ok (T : ElementType) (sections : List mson.TypeSection) :
    ∀ (st st' : SectionState), RefractElementFromValue.loop T sections st = .ok st' →
      (st.element.kind = T → st'.element.kind = T) ∧
      st'.element.meta = st.element.meta ∧
      (∀ s ∈ sections, ∃ v, ExtractTypeSection T s = .ok v) ∧
      (st.element.hasContent = true → ∀ s ∈ sections, s.klass ≠ .MemberTypeClass) := by
  induction sections with
  | nil =>
    intro st st' h
    rw [RefractElementFromValue.loop] at h
    cases h
    simp
  | cons it rest ih =>
    intro st st' h
    rw [RefractElementFromValue.loop] at h
    by_cases hk : it.klass = .MemberTypeClass
    · simp only [hk, if_true] at h
      by_cases hc : st.element.hasContent = true
      · simp [Element.empty, hc] at h
      · have hc2 : st.element.hasContent = false := by simpa using hc
        simp only [Element.empty, hc2, Bool.not_false, Bool.not_true, Bool.false_eq_true,
          if_false] at h
        cases hx : ExtractTypeSection T it with
        | error err => simp only [hx] at h; cases h
        | ok v =>
          simp only [hx] at h
          obtain ⟨h1, h2, h3, _⟩ := ih _ _ h
          have hkv := ExtractTypeSection_kind T it v hx
          refine ⟨fun _ => h1 (by simp [hkv]), by simpa using h2, ?_, fun hc3 => ?_⟩
          · intro s hs
            rcases List.mem_cons.mp hs with rfl | hs
            · exact ⟨v, hx⟩
            · exact h3 s hs
          · rw [hc2] at hc3; cases hc3
    · simp only [hk, if_false] at h
      cases hx : ExtractTypeSection T it with
      | error err => simp only [hx] at h; cases h
      | ok v =>
        simp only [hx] at h
        have key : ∀ st2 : SectionState, st2.element = st.element →
            RefractElementFromValue.loop T rest st2 = .ok st' →
            (st.element.kind = T → st'.element.kind = T) ∧
            st'.element.meta = st.element.meta ∧
            (∀ s ∈ it :: rest, ∃ v, ExtractTypeSection T s = .ok v) ∧
            (st.element.hasContent = true → ∀ s ∈ it :: rest, s.klass ≠ .MemberTypeClass) := by
          intro st2 he h2
          obtain ⟨h1, h2, h3, h4⟩ := ih _ _ h2
          rw [he] at h1 h2 h4
          refine ⟨h1, h2, ?_, fun hc => ?_⟩
          · intro s hs
            rcases List.mem_cons.mp hs with rfl | hs
            · exact ⟨v, hx⟩
            · exact h3 s hs
          · intro s hs
            rcases List.mem_cons.mp hs with rfl | hs
            · exact hk
            · exact h4 hc s hs
        by_cases hs : it.klass = .SampleClass
        · simp only [hs, if_true] at h
          exact key ⟨st.element, st.defaults, st.samples ++ [(Element.new T).set v]⟩ rfl h
        · by_cases hd : it.klass = .DefaultClass
          · simp only [hd, reduceCtorEq, if_true, if_false] at h
            exact key ⟨st.element, st.defaults ++ [(Element.new T).set v], st.samples⟩ rfl h
          · simp only [hs, hd, if_false] at h
            cases h

/-- The content-conflict rule fires at the first MemberType section of a node whose content
is already set, when the sections before it are Sample or Default sections that extract. -/
theorem RefractElementFromValue.loop_conflict (T : ElementType) (pre : List mson.TypeSection) :
    ∀ (m : mson.TypeSection) (post : List mson.TypeSection) (st : SectionState),
      st.element.hasContent = true → m.klass = .MemberTypeClass →
      (∀ s ∈ pre, (s.klass = .SampleClass ∨ s.klass = .DefaultClass) ∧
        ∃ x, ExtractTypeSection T s = .ok x) →
      RefractElementFromValue.loop T (pre ++ m :: post) st =
        .error (.logic_error
          "Element content was already set, you cannot fill it from 'memberType'") := by
  induction pre with
  | nil =>
    intro m post st hc hm _
    exact RefractElementFromValue.loop_cons_member T m post st hm hc
  | cons it pre ih =>
    intro m post st hc hm hpre
    obtain ⟨hk, x, hx⟩ := hpre it (List.mem_cons_self _ _)
    have hrest : ∀ s ∈ pre, (s.klass = .SampleClass ∨ s.klass = .DefaultClass) ∧
        ∃ x, ExtractTypeSection T s = .ok x :=
      fun s hs => hpre s (List.mem_cons_of_mem _ hs)
    rw [List.cons_append, RefractElementFromValue.loop]
    rcases hk with hk | hk
    · simp only [hk, hx, if_true, reduceCtorEq, if_false]
      exact ih m post _ hc hm hrest
    · simp only [hk, hx, if_true, reduceCtorEq, if_false]
      exact ih m post _ hc hm hrest

@[simp] theorem RefractElementFromValue.tail_kind (st : SectionState) :
    (RefractElementFromValue.tail st).kind = st.element.kind := by
  unfold RefractElementFromValue.tail
  cases SimplifyRefractContainer st.samples <;> cases SimplifyRefractContainer st.defaults <;>
    simp

@[simp] theorem RefractElementFromValue.tail_meta (st : SectionState) :
    (RefractElementFromValue.tail st).meta = st.element.meta := by
  unfold RefractElementFromValue.tail
  cases SimplifyRefractContainer st.samples <;> cases SimplifyRefractContainer st.defaults <;>
    simp

/-- A successful `RefractElementFromValue<T>` returns an element of class `T` whose meta
mapping holds the description, when there is one, and nothing else. -/
theorem RefractElementFromValue_ok (T : ElementType) (value : mson.ValueMember) (e : Element)
    (h : RefractElementFromValue T value = .ok e) :
    e.kind = T ∧
    e.meta = (if value.description.isEmpty then []
      else [("description", IElement.Create value.description)]) := by
  obtain ⟨d, vd, sections⟩ := value
  rw [RefractElementFromValue_eq] at h
  cases hh : RefractElementFromValue.head T d vd with
  | error err => simp only [hh] at h; cases h
  | ok e0 =>
    obtain ⟨hk, hm, _, _⟩ := RefractElementFromValue.head_ok T d vd e0 hh
    simp only [hh] at h
    by_cases hs : sections.isEmpty = true
    · simp only [hs, Bool.not_true, Bool.false_eq_true, if_false, Except.ok.injEq] at h
      subst h
      exact ⟨hk, hm⟩
    · have hs2 : sections.isEmpty = false := by simpa using hs
      simp only [hs2, Bool.not_false, if_true] at h
      cases hl : RefractElementFromValue.loop T sections ⟨e0, [], []⟩ with
      | error err => simp only [hl] at h; cases h
      | ok st =>
        simp only [hl, Except.ok.injEq] at h
        subst h
        obtain ⟨h1, h2, _, _⟩ := RefractElementFromValue_loop_ok T sections _ _ hl
        exact ⟨by simpa using h1 hk, by simpa [mson.ValueMember.description] using h2.trans hm⟩

/-- A node with a direct value and a MemberType section never builds. -/
theorem RefractElementFromValue_values_and_member (T : ElementType)
    (value : mson.ValueMember) (hv : value.valueDefinition.values.isEmpty = false)
    (hm : hasMembers value = true) (e : Element) :
    RefractElementFromValue T value ≠ .ok e := by
  obtain ⟨d, vd, sections⟩ := value
  intro h
  rw [RefractElementFromValue_eq] at h
  cases hh : RefractElementFromValue.head T d vd with
  | error err => simp only [hh] at h; cases h
  | ok e0 =>
    obtain ⟨_, _, hc, _⟩ := RefractElementFromValue.head_ok T d vd e0 hh
    simp only [hh] at h
    have hv2 : vd.values.isEmpty = false := hv
    rw [hv2] at hc
    obtain ⟨s, hs, hsk⟩ : ∃ s ∈ sections, s.klass = .MemberTypeClass := by
      simpa [hasMembers, mson.ValueMember.sections] using hm
    have hne : sections.isEmpty = false := by
      cases sections with
      | nil => simp at hs
      | cons _ _ => rfl
    simp only [hne, Bool.not_false, if_true] at h
    cases hl : RefractElementFromValue.loop T sections ⟨e0, [], []⟩ with
    | error err => simp only [hl] at h; cases h
    | ok st =>
      obtain ⟨_, _, _, h4⟩ := RefractElementFromValue_loop_ok T sections _ _ hl
      exact h4 (by simpa using hc) s hs hsk

end drafter

namespace drafter

open refract

/-! ### Outcome of the statements before the loop -/

theorem RefractElementFromValue.head_of_empty (T : ElementType) (d : String)
    (vd : mson.ValueDefinition) (hv : vd.values.isEmpty = true) :
    ∃ e, RefractElementFromValue.head T d vd = .ok e := by
  unfold RefractElementFromValue.head
  simp only [hv, Bool.not_true, Bool.false_eq_true, if_false]
  exact ⟨_, rfl⟩

theorem RefractElementFromValue.head_of_extract (T : ElementType) (d : String)
    (vd : mson.ValueDefinition) (v : Value) (hv : vd.values.isEmpty = false)
    (hx : ExtractValues T vd = .ok v) :
    ∃ e, RefractElementFromValue.head T d vd = .ok e := by
  unfold RefractElementFromValue.head
  simp only [hv, hx, Bool.not_false, if_true]
  exact ⟨_, rfl⟩

theorem RefractElementFromValue.head_of_extract_error (T : ElementType) (d : String)
    (vd : mson.ValueDefinition) (err : Error) (hv : vd.values.isEmpty = false)
    (hx : ExtractValues T vd = .error err) :
    RefractElementFromValue.head T d vd = .error err := by
  unfold RefractElementFromValue.head
  simp only [hv, hx, Bool.not_false, if_true]

/-- Without sections, `RefractElementFromValue<T>` is the statements before the loop. -/
theorem RefractElementFromValue_nil (T : ElementType) (d : String)
    (vd : mson.ValueDefinition) :
    RefractElementFromValue T (.mk d vd []) = RefractElementFromValue.head T d vd := by
  rw [RefractElementFromValue_eq]
  cases RefractElementFromValue.head T d vd <;> rfl

/-- `RefractElementFromProperty<T>` builds the value member and attaches the name. -/
theorem RefractElementFromProperty_eq (T : ElementType) (property : mson.PropertyMember) :
    RefractElementFromProperty T property =
      match RefractElementFromValue T property.toValueMember with
      | .error err => .error err
      | .ok element => .ok (element.setMeta "name" (IElement.Create property.name.literal)) := by
  cases property
  rw [RefractElementFromProperty]
  rfl

/-- A successful `RefractElementFromProperty<T>` returns an element of class `T`. -/
theorem RefractElementFromProperty_kind (T : ElementType) (property : mson.PropertyMember)
    (e : Element) (h : RefractElementFromProperty T property = .ok e) : e.kind = T := by
  rw [RefractElementFromProperty_eq] at h
  cases hv : RefractElementFromValue T property.toValueMember with
  | error err => simp only [hv] at h; cases h
  | ok e0 =>
    simp only [hv, Except.ok.injEq] at h
    subst h
    simpa using (RefractElementFromValue_ok T _ e0 hv).1

/-- The primitive extraction of a single literal. -/
theorem ExtractValues.primitive_singleton {V : Type} (LiteralTo : mson.Literal → V)
    (vd : mson.ValueDefinition) (v : mson.Value) (hv : vd.values = [v]) :
    ExtractValues.primitive LiteralTo vd = .ok (LiteralTo v.literal) := by
  simp [ExtractValues.primitive, hv, pure, Except.pure]

/-! ### Properties of scalar type -/

/-- C2. A Property whose declared type is Boolean, Number or String, with exactly one
literal value and no type sections, builds: `MsonPropertyToRefract` returns an element of the
declared kind, whose content is set to the coercion (`LiteralTo`) of that literal, and whose
meta "name" is the String element holding the property's literal name. -/
theorem C2_scalar_property (property : mson.PropertyMember) (v : mson.Value)
    (ht : property.toValueMember.valueDefinition.typeDefinition.typeSpecification.name.base
        = .BooleanTypeName ∨
      property.toValueMember.valueDefinition.typeDefinition.typeSpecification.name.base
        = .NumberTypeName ∨
      property.toValueMember.valueDefinition.typeDefinition.typeSpecification.name.base
        = .StringTypeName)
    (hv : property.toValueMember.valueDefinition.values = [v])
    (hs : property.toValueMember.sections = []) :
    ∃ e, MsonPropertyToRefract property = .ok e ∧
      e.hasContent = true ∧
      (property.toValueMember.valueDefinition.typeDefinition.typeSpecification.name.base
          = .BooleanTypeName → e.value = .boolean (LiteralTo_bool v.literal)) ∧
      (property.toValueMember.valueDefinition.typeDefinition.typeSpecification.name.base
          = .NumberTypeName → e.value = .number (LiteralTo_double v.literal)) ∧
      (property.toValueMember.valueDefinition.typeDefinition.typeSpecification.name.base
          = .StringTypeName → e.value = .string (LiteralTo_string v.literal)) ∧
      e.meta.lookup "name" = some (IElement.Create property.name.literal) := by
  obtain ⟨name, d, vd, sections⟩ := property
  simp only [mson.PropertyMember.toValueMember, mson.ValueMember.valueDefinition,
    mson.ValueMember.sections, mson.PropertyMember.name] at ht hv hs ⊢
  subst hs
  have hne : vd.values.isEmpty = false := by rw [hv]; rfl
  -- the outcome for a scalar class `T` whose extraction is known
  have key : ∀ (T : ElementType) (val : Value), ExtractValues T vd = .ok val →
      ∃ e, RefractElementFromProperty T (.mk name (.mk d vd [])) = .ok e ∧
        e.hasContent = true ∧ e.value = val ∧
        e.meta.lookup "name" = some (IElement.Create name.literal) := by
    intro T val hx
    obtain ⟨e0, he0⟩ := RefractElementFromValue.head_of_extract T d vd val hne hx
    obtain ⟨_, _, hc, hval⟩ := RefractElementFromValue.head_ok T d vd e0 he0
    refine ⟨e0.setMeta "name" (IElement.Create name.literal), ?_, ?_, ?_, ?_⟩
    · rw [RefractElementFromProperty_eq]
      simp only [mson.PropertyMember.toValueMember, mson.PropertyMember.name,
        RefractElementFromValue_nil, he0]
    · simpa [hne] using hc
    · have := hval hne
      rw [hx] at this
      simpa using (Except.ok.inj this).symm
    · simp [Collection.lookup_assign]
  unfold MsonPropertyToRefract
  simp only [mson.PropertyMember.toValueMember, mson.ValueMember.valueDefinition]
  rcases ht with ht | ht | ht
  · obtain ⟨e, h1, h2, h3, h4⟩ := key .BooleanElement (.boolean (LiteralTo_bool v.literal))
      (by simp only [ExtractValues, ExtractValues.primitive_singleton _ vd v hv]; rfl)
    exact ⟨e, by simp only [ht, h1], h2, by simp [ht, h3], by simp [ht], by simp [ht], h4⟩
  · obtain ⟨e, h1, h2, h3, h4⟩ := key .NumberElement (.number (LiteralTo_double v.literal))
      (by simp only [ExtractValues, ExtractValues.primitive_singleton _ vd v hv]; rfl)
    exact ⟨e, by simp only [ht, h1], h2, by simp [ht], by simp [ht, h3], by simp [ht], h4⟩
  · obtain ⟨e, h1, h2, h3, h4⟩ := key .StringElement (.string (LiteralTo_string v.literal))
      (by simp only [ExtractValues, ExtractValues.primitive_singleton _ vd v hv]; rfl)
    exact ⟨e, by simp only [ht, h1], h2, by simp [ht], by simp [ht], by simp [ht, h3], h4⟩

end drafter

namespace drafter

open refract

/-- C2, the scenario of the spec: the Property named "count", declared type Number, one
literal "42", gives a Number element with meta name "count" and content 42. -/
theorem C2_scalar_property_witness :
    Scenario.count.toValueMember.valueDefinition.values = [⟨"42", false⟩] ∧
    Scenario.count.toValueMember.sections = [] ∧
    ∃ e, MsonPropertyToRefract Scenario.count = .ok e ∧ e.hasContent = true ∧
      e.value = .number (.finite 42) ∧
      e.meta.lookup "name" = some (.mk "" true false [] [] (.string "count")) := by
  obtain ⟨e, h1, h2, _, h4, _, h6⟩ :=
    C2_scalar_property Scenario.count ⟨"42", false⟩ (Or.inr (Or.inl rfl)) rfl rfl
  exact ⟨rfl, rfl, e, h1, h2, h4 rfl, h6⟩

/-! ### Properties of undefined type -/

/-- C3. A Property with declared type Undefined is built as Object kind when it has more
than one direct value or at least one MemberType section, and as String kind otherwise; in
particular, with zero sections and exactly one literal value the build succeeds and yields a
String leaf whose content is that literal. -/
theorem C3_undefined_fallback (property : mson.PropertyMember)
    (ht : property.toValueMember.valueDefinition.typeDefinition.typeSpecification.name.base
      = .UndefinedTypeName) :
    ((property.toValueMember.valueDefinition.values.length > 1 ∨
        ∃ s ∈ property.toValueMember.sections, s.klass = .MemberTypeClass) →
      MsonPropertyToRefract property = RefractElementFromProperty .ObjectElement property ∧
      ∀ e, MsonPropertyToRefract property = .ok e → e.kind = .ObjectElement) ∧
    (¬ (property.toValueMember.valueDefinition.values.length > 1 ∨
        ∃ s ∈ property.toValueMember.sections, s.klass = .MemberTypeClass) →
      MsonPropertyToRefract property = RefractElementFromProperty .StringElement property ∧
      ∀ e, MsonPropertyToRefract property = .ok e → e.kind = .StringElement) ∧
    (∀ v, property.toValueMember.sections = [] →
      property.toValueMember.valueDefinition.values = [v] →
      ∃ e, MsonPropertyToRefract property = .ok e ∧ e.kind = .StringElement ∧
        e.hasContent = true ∧ e.value = .string v.literal) := by
  have hch : hasChildren property.toValueMember = true ↔
      (property.toValueMember.valueDefinition.values.length > 1 ∨
        ∃ s ∈ property.toValueMember.sections, s.klass = .MemberTypeClass) := by
    simp [hasChildren, hasMembers]
  have hobj : hasChildren property.toValueMember = true →
      MsonPropertyToRefract property = RefractElementFromProperty .ObjectElement property := by
    intro h
    unfold MsonPropertyToRefract
    simp only [ht, h, if_true]
  have hstr : ¬ hasChildren property.toValueMember = true →
      MsonPropertyToRefract property = RefractElementFromProperty .StringElement property := by
    intro h
    have h2 : hasChildren property.toValueMember = false := by simpa using h
    unfold MsonPropertyToRefract
    simp only [ht, h2, Bool.false_eq_true, if_false]
  refine ⟨fun h => ?_, fun h => ?_, fun v hs hv => ?_⟩
  · have h1 := hobj (hch.mpr h)
    exact ⟨h1, fun e he => RefractElementFromProperty_kind _ property e (h1 ▸ he)⟩
  · have h1 := hstr (fun hc => h (hch.mp hc))
    exact ⟨h1, fun e he => RefractElementFromProperty_kind _ property e (h1 ▸ he)⟩
  · have hno : ¬ hasChildren property.toValueMember = true := by
      rw [hch, hs, hv]
      simp
    have h1 := hstr hno
    obtain ⟨name, d, vd, sections⟩ := property
    simp only [mson.PropertyMember.toValueMember, mson.ValueMember.valueDefinition,
      mson.ValueMember.sections] at hs hv
    subst hs
    have hne : vd.values.isEmpty = false := by rw [hv]; rfl
    have hx : ExtractValues .StringElement vd = .ok (.string v.literal) := by
      simp only [ExtractValues, ExtractValues.primitive_singleton _ vd v hv]
      rfl
    obtain ⟨e0, he0⟩ := RefractElementFromValue.head_of_extract .StringElement d vd _ hne hx
    obtain ⟨hk, _, hc, hval⟩ := RefractElementFromValue.head_ok .StringElement d vd e0 he0
    refine ⟨e0.setMeta "name" (IElement.Create name.literal), ?_, ?_, ?_, ?_⟩
    · rw [h1, RefractElementFromProperty_eq]
      simp only [mson.PropertyMember.toValueMember, mson.PropertyMember.name,
        RefractElementFromValue_nil, he0]
    · simpa using hk
    · simpa [hne] using hc
    · have := hval hne
      rw [hx] at this
      simpa using (Except.ok.inj this).symm

/-- C3 on the scenario of the spec: an Undefined Property with zero sections and the one
literal "x" is a String leaf holding "x". -/
theorem C3_undefined_fallback_witness :
    Scenario.undefinedLeaf.toValueMember.valueDefinition.typeDefinition.typeSpecification.name.base
      = .UndefinedTypeName ∧
    ∃ e, MsonPropertyToRefract Scenario.undefinedLeaf = .ok e ∧ e.kind = .StringElement ∧
      e.hasContent = true ∧ e.value = .string "x" :=
  ⟨rfl, (C3_undefined_fallback Scenario.undefinedLeaf rfl).2.2 ⟨"x", false⟩ rfl rfl⟩

/-- C4, as stated, fails: the Undefined Property with the one literal "x" and an added
MemberType section does not build; the content-conflict rule rejects it. -/
theorem C4_counterexample :
    Scenario.undefinedWithMember.toValueMember.valueDefinition.typeDefinition.typeSpecification.name.base
      = .UndefinedTypeName ∧
    Scenario.undefinedWithMember.toValueMember.valueDefinition.values.length = 1 ∧
    (Scenario.undefinedWithMember.toValueMember.sections.map mson.TypeSection.klass)
      = [.MemberTypeClass] ∧
    MsonPropertyToRefract Scenario.undefinedWithMember =
      .error (.logic_error
        "Element content was already set, you cannot fill it from 'memberType'") ∧
    ¬ ∃ e, MsonPropertyToRefract Scenario.undefinedWithMember = .ok e ∧
      e.kind = .ObjectElement := by
  refine ⟨rfl, rfl, rfl, rfl, ?_⟩
  rintro ⟨e, he, _⟩
  have h : MsonPropertyToRefract Scenario.undefinedWithMember =
      .error (.logic_error
        "Element content was already set, you cannot fill it from 'memberType'") := rfl
  rw [h] at he
  cases he

/-- C4, amended. A Property with declared type Undefined, exactly one literal value and one
added MemberType section is handed to the Object builder, and the build fails: with the
content-conflict error when the literal extracts, with the error of the extraction
otherwise. -/
theorem C4_undefined_with_member_conflict (property : mson.PropertyMember) (v : mson.Value)
    (s : mson.TypeSection)
    (ht : property.toValueMember.valueDefinition.typeDefinition.typeSpecification.name.base
      = .UndefinedTypeName)
    (hv : property.toValueMember.valueDefinition.values = [v])
    (hs : property.toValueMember.sections = [s]) (hk : s.klass = .MemberTypeClass) :
    MsonPropertyToRefract property = RefractElementFromProperty .ObjectElement property ∧
    MsonPropertyToRefract property =
      (match ExtractValues .ObjectElement property.toValueMember.valueDefinition with
      | .ok _ => .error (.logic_error
          "Element content was already set, you cannot fill it from 'memberType'")
      | .error err => .error err) ∧
    ∀ e, MsonPropertyToRefract property ≠ .ok e := by
  have h1 : MsonPropertyToRefract property =
      RefractElementFromProperty .ObjectElement property := by
    have hch : hasChildren property.toValueMember = true := by
      simp [hasChildren, hasMembers, hs, hk]
    unfold MsonPropertyToRefract
    simp only [ht, hch, if_true]
  obtain ⟨name, d, vd, sections⟩ := property
  simp only [mson.PropertyMember.toValueMember, mson.ValueMember.valueDefinition,
    mson.ValueMember.sections] at hv hs ⊢
  subst hs
  have hne : vd.values.isEmpty = false := by rw [hv]; rfl
  have h2 : MsonPropertyToRefract (.mk name (.mk d vd [s])) =
      (match ExtractValues .ObjectElement vd with
      | .ok _ => .error (.logic_error
          "Element content was already set, you cannot fill it from 'memberType'")
      | .error err => .error err) := by
    rw [h1, RefractElementFromProperty_eq]
    simp only [mson.PropertyMember.toValueMember, RefractElementFromValue_eq]
    cases hx : ExtractValues .ObjectElement vd with
    | error err =>
      simp only [RefractElementFromValue.head_of_extract_error _ d vd err hne hx]
    | ok val =>
      obtain ⟨e0, he0⟩ := RefractElementFromValue.head_of_extract .ObjectElement d vd val hne hx
      obtain ⟨_, _, hc, _⟩ := RefractElementFromValue.head_ok .ObjectElement d vd e0 he0
      have hc2 : e0.hasContent = true := by simpa [hne] using hc
      simp only [he0, List.isEmpty_cons, Bool.not_false, if_true,
        RefractElementFromValue.loop_cons_member .ObjectElement s [] ⟨e0, [], []⟩ hk hc2]
  refine ⟨h1, h2, fun e he => ?_⟩
  rw [h2] at he
  cases hx : ExtractValues .ObjectElement vd <;> simp only [hx] at he <;> cases he

/-- C4, amended, on the scenario of the spec. -/
theorem C4_undefined_with_member_conflict_witness :
    MsonPropertyToRefract Scenario.undefinedWithMember =
        RefractElementFromProperty .ObjectElement Scenario.undefinedWithMember ∧
      MsonPropertyToRefract Scenario.undefinedWithMember =
        .error (.logic_error
          "Element content was already set, you cannot fill it from 'memberType'") ∧
      ∀ e, MsonPropertyToRefract Scenario.undefinedWithMember ≠ .ok e :=
  C4_undefined_with_member_conflict Scenario.undefinedWithMember ⟨"x", false⟩
    (.mk .MemberTypeClass "" "" []) rfl rfl rfl rfl

end drafter

namespace drafter

open refract

/-! ### The content-conflict rule -/

/-- `MsonPropertyToRefract` succeeds only if the builder it selects succeeds on the value
member part of the property. -/
theorem MsonPropertyToRefract_ok_inv (property : mson.PropertyMember) (e : Element)
    (h : MsonPropertyToRefract property = .ok e) :
    ∃ T e0, RefractElementFromValue T property.toValueMember = .ok e0 := by
  have key : ∀ (T : ElementType) (e1 : Element),
      RefractElementFromProperty T property = .ok e1 →
      ∃ T e0, RefractElementFromValue T property.toValueMember = .ok e0 := by
    intro T e1 h1
    rw [RefractElementFromProperty_eq] at h1
    cases hv : RefractElementFromValue T property.toValueMember with
    | error err => simp only [hv] at h1; cases h1
    | ok e0 => exact ⟨T, e0, hv⟩
  unfold MsonPropertyToRefract at h
  split at h
  · exact key _ _ h
  · exact key _ _ h
  · exact key _ _ h
  · obtain ⟨a, ha, _⟩ := Except.map_eq_ok h
    exact key _ _ ha
  · exact key _ _ h
  · exact key _ _ h
  · split at h
    · exact key _ _ h
    · exact key _ _ h

/-- `MsonValueToRefract` succeeds only if the builder it selects succeeds. -/
theorem MsonValueToRefract_ok_inv (value : mson.ValueMember) (e : Element)
    (h : MsonValueToRefract value = .ok e) :
    ∃ T, RefractElementFromValue T value = .ok e := by
  unfold MsonValueToRefract at h
  split at h
  · exact ⟨_, h⟩
  · exact ⟨_, h⟩
  · exact ⟨_, h⟩
  · exact ⟨_, h⟩
  · cases h

/-- C5, as stated, fails: a String Property with one literal, a BlockDescription section and
then a MemberType section fails with the unexpected-section error, not with the
content-conflict error. -/
theorem C5_counterexample :
    Scenario.describedWithMember.toValueMember.valueDefinition.values.length = 1 ∧
    hasMembers Scenario.describedWithMember.toValueMember = true ∧
    MsonPropertyToRefract Scenario.describedWithMember =
      .error (.logic_error "Unexpected section for property") ∧
    MsonPropertyToRefract Scenario.describedWithMember ≠
      .error (.logic_error
        "Element content was already set, you cannot fill it from 'memberType'") := by
  refine ⟨rfl, rfl, rfl, ?_⟩
  have h : MsonPropertyToRefract Scenario.describedWithMember =
      .error (.logic_error "Unexpected section for property") := rfl
  rw [h]
  intro h2
  injection h2 with h3
  injection h3 with h4
  exact absurd h4 (by decide)

/-- C5, amended. A Property or Value node that has at least one direct literal value and at
least one MemberType section never builds, whatever the builder, wherever the MemberType
section stands and whatever the other sections are; and the error is the content-conflict
error whenever the direct values extract and every section before the first MemberType
section is a Sample or Default section that extracts. -/
theorem C5_content_conflict (T : ElementType) (name : mson.PropertyName)
    (value : mson.ValueMember)
    (hv : value.valueDefinition.values ≠ [])
    (hm : ∃ s ∈ value.sections, s.klass = .MemberTypeClass) :
    (∀ e, RefractElementFromValue T value ≠ .ok e) ∧
    (∀ e, MsonValueToRefract value ≠ .ok e) ∧
    (∀ e, MsonPropertyToRefract (.mk name value) ≠ .ok e) ∧
    (∀ (pre post : List mson.TypeSection) (m : mson.TypeSection) (val : Value),
      value.sections = pre ++ m :: post → m.klass = .MemberTypeClass →
      (∀ s ∈ pre, (s.klass = .SampleClass ∨ s.klass = .DefaultClass) ∧
        ∃ x, ExtractTypeSection T s = .ok x) →
      ExtractValues T value.valueDefinition = .ok val →
      RefractElementFromValue T value =
        .error (.logic_error
          "Element content was already set, you cannot fill it from 'memberType'")) := by
  have hne : value.valueDefinition.values.isEmpty = false := by
    cases hl : value.valueDefinition.values with
    | nil => exact absurd hl hv
    | cons _ _ => rfl
  have hmem : hasMembers value = true := by
    simpa [hasMembers] using hm
  refine ⟨fun e => RefractElementFromValue_values_and_member T value hne hmem e,
    fun e he => ?_, fun e he => ?_, ?_⟩
  · obtain ⟨T2, h2⟩ := MsonValueToRefract_ok_inv value e he
    exact RefractElementFromValue_values_and_member T2 value hne hmem e h2
  · obtain ⟨T2, e0, h2⟩ := MsonPropertyToRefract_ok_inv _ e he
    exact RefractElementFromValue_values_and_member T2 value hne hmem e0 h2
  · intro pre post m val hsec hmk hpre hx
    obtain ⟨d, vd, sections⟩ := value
    simp only [mson.ValueMember.sections, mson.ValueMember.valueDefinition] at hsec hx hne
    subst hsec
    obtain ⟨e0, he0⟩ := RefractElementFromValue.head_of_extract T d vd val hne hx
    obtain ⟨_, _, hc, _⟩ := RefractElementFromValue.head_ok T d vd e0 he0
    have hc2 : e0.hasContent = true := by simpa [hne] using hc
    have hsne : (pre ++ m :: post).isEmpty = false := by
      cases pre <;> rfl
    rw [RefractElementFromValue_eq]
    simp only [he0, hsne, Bool.not_false, if_true,
      RefractElementFromValue.loop_conflict T pre m post ⟨e0, [], []⟩ hc2 hmk hpre]

/-- C5, amended, on a String Property with one literal, a Sample section and then a
MemberType section: it fails with the content-conflict error. -/
theorem C5_content_conflict_witness :
    Scenario.sampledWithMember.toValueMember.valueDefinition.values ≠ [] ∧
    (∀ e, MsonPropertyToRefract Scenario.sampledWithMember ≠ .ok e) ∧
    RefractElementFromValue .StringElement Scenario.sampledWithMember.toValueMember =
      .error (.logic_error
        "Element content was already set, you cannot fill it from 'memberType'") := by
  have hv : Scenario.sampledWithMember.toValueMember.valueDefinition.values ≠ [] := by
    decide
  have h := C5_content_conflict .StringElement Scenario.sampledWithMember.name
    Scenario.sampledWithMember.toValueMember hv
    ⟨.mk .MemberTypeClass "" "" [], by simp [Scenario.sampledWithMember,
      mson.PropertyMember.toValueMember, mson.ValueMember.sections], rfl⟩
  refine ⟨hv, h.2.2.1, ?_⟩
  exact h.2.2.2 [.mk .SampleClass "" "b" []] [] (.mk .MemberTypeClass "" "" [])
    (.string "a") rfl rfl
    (by
      intro s hs
      rw [List.mem_singleton.mp hs]
      exact ⟨Or.inl rfl, _, rfl⟩)
    rfl

end drafter

namespace drafter

open refract

/-! ### More accessors after the element mutators -/

@[simp] theorem Element.element__element (e : Element) (n : String) :
    (e.element n).element_ = n := by
  cases e; rfl

@[simp] theorem Element.element__set (e : Element) (v : Value) :
    (e.set v).element_ = e.element_ := by
  cases e; rfl

@[simp] theorem Element.element__setMeta (e x : Element) (k : String) :
    (e.setMeta k x).element_ = e.element_ := by
  cases e; rfl

@[simp] theorem Element.element__setAttribute (e x : Element) (k : String) :
    (e.setAttribute k x).element_ = e.element_ := by
  cases e; rfl

@[simp] theorem Element.value_element (e : Element) (n : String) :
    (e.element n).value = e.value := by
  cases e; rfl

@[simp] theorem Element.hasContent_element (e : Element) (n : String) :
    (e.element n).hasContent = e.hasContent := by
  cases e; rfl

@[simp] theorem Element.attributes_setMeta (e x : Element) (k : String) :
    (e.setMeta k x).attributes = e.attributes := by
  cases e; rfl

theorem Element.children_of_value (e : Element) (v : List Element)
    (h : e.value = .array v ∨ e.value = .object v) : e.children = v := by
  unfold Element.children
  rcases h with h | h <;> rw [h]

/-! ### Enum properties -/

/-- The composite extraction when no nested type is declared: one String leaf per literal. -/
theorem ExtractValues.composite_no_nested (vd : mson.ValueDefinition)
    (hv : vd.values ≠ []) (hn : vd.typeDefinition.typeSpecification.nestedTypes = []) :
    ExtractValues.composite vd =
      .ok (vd.values.map fun v => Element.mk "" true false [] [] (.string v.literal)) := by
  have hne : vd.values.isEmpty = false := by
    cases hl : vd.values with
    | nil => exact absurd hl hv
    | cons _ _ => rfl
  unfold ExtractValues.composite
  simp only [hne, hn, Bool.false_eq_true, if_false, List.length_nil, Nat.zero_ne_one,
    FactoryFromType, pure, Except.pure]
  rfl

/-- C6. An Enum-typed Property with a non-empty list of literal values, no declared nested
type and no sections builds to an Object element whose content is exactly one child: an
Array element with element-name "enum" whose children are String leaves holding the literals
in their original order. -/
theorem C6_enum_property (property : mson.PropertyMember)
    (ht : property.toValueMember.valueDefinition.typeDefinition.typeSpecification.name.base
      = .EnumTypeName)
    (hv : property.toValueMember.valueDefinition.values ≠ [])
    (hn : property.toValueMember.valueDefinition.typeDefinition.typeSpecification.nestedTypes
      = [])
    (hs : property.toValueMember.sections = []) :
    ∃ array, MsonPropertyToRefract property = .ok (.mk "" true false [] [] (.object [array])) ∧
      array.kind = .ArrayElement ∧ array.element_ = "enum" ∧ array.hasContent = true ∧
      array.children = property.toValueMember.valueDefinition.values.map
        (fun v => Element.mk "" true false [] [] (.string v.literal)) := by
  obtain ⟨name, d, vd, sections⟩ := property
  simp only [mson.PropertyMember.toValueMember, mson.ValueMember.valueDefinition,
    mson.ValueMember.sections] at ht hv hn hs ⊢
  subst hs
  have hne : vd.values.isEmpty = false := by
    cases hl : vd.values with
    | nil => exact absurd hl hv
    | cons _ _ => rfl
  have hx : ExtractValues .ArrayElement vd =
      .ok (.array (vd.values.map fun v => Element.mk "" true false [] [] (.string v.literal))) := by
    simp only [ExtractValues, ExtractValues.composite_no_nested vd hv hn]
    rfl
  obtain ⟨e0, he0⟩ := RefractElementFromValue.head_of_extract .ArrayElement d vd _ hne hx
  obtain ⟨hk, _, hc, hval⟩ := RefractElementFromValue.head_ok .ArrayElement d vd e0 he0
  have hval2 : e0.value =
      .array (vd.values.map fun v => Element.mk "" true false [] [] (.string v.literal)) := by
    have := hval hne
    rw [hx] at this
    exact (Except.ok.inj this).symm
  refine ⟨(e0.setMeta "name" (IElement.Create name.literal)).element "enum", ?_, ?_, ?_, ?_, ?_⟩
  · unfold MsonPropertyToRefract
    simp only [mson.PropertyMember.toValueMember, mson.ValueMember.valueDefinition, ht,
      RefractElementFromProperty_eq, RefractElementFromValue_nil, he0,
      mson.PropertyMember.name]
    rfl
  · simpa using hk
  · simp
  · simpa [hne] using hc
  · exact Element.children_of_value _ _ (Or.inl (by simpa using hval2))

/-- C6, the scenario of the spec: the Enum-typed Property with values "a", "b" gives an Object
wrapping one Array tagged "enum" with the two String leaves "a", "b". -/
theorem C6_enum_property_witness :
    Scenario.enumAB.toValueMember.valueDefinition.values ≠ [] ∧
    ∃ array, MsonPropertyToRefract Scenario.enumAB =
        .ok (.mk "" true false [] [] (.object [array])) ∧
      array.kind = .ArrayElement ∧ array.element_ = "enum" ∧ array.hasContent = true ∧
      array.children = [.mk "" true false [] [] (.string "a"),
        .mk "" true false [] [] (.string "b")] :=
  ⟨by decide, C6_enum_property Scenario.enumAB rfl (by decide) rfl rfl⟩

/-! ### Value members against properties -/

/-- C7, as stated, fails: for the payload of declared type Array with one literal, the
Property builds while the Value member fails with "Unhandled type of ValueMember". -/
theorem C7_counterexample :
    (∃ e, MsonPropertyToRefract (.mk (Scenario.propertyName "p") Scenario.arrayValue) = .ok e) ∧
    MsonValueToRefract Scenario.arrayValue =
      .error (.runtime_error "Unhandled type of ValueMember") :=
  ⟨⟨_, rfl⟩, rfl⟩

/-- C7, amended. For a payload of declared type Boolean, Number or String, or of declared
type Undefined with at most one direct value and no MemberType section, the Value member and
the Property carrying the same payload either both fail, with the same error, or both
succeed, and then the Property's element is the Value's element with meta "name" attached:
same kind, element-name, content, attributes and meta "description", while the Value's
element has no meta "name". -/
theorem C7_value_as_property_without_name (name : mson.PropertyName)
    (value : mson.ValueMember)
    (ht : value.valueDefinition.typeDefinition.typeSpecification.name.base = .BooleanTypeName ∨
      value.valueDefinition.typeDefinition.typeSpecification.name.base = .NumberTypeName ∨
      value.valueDefinition.typeDefinition.typeSpecification.name.base = .StringTypeName ∨
      (value.valueDefinition.typeDefinition.typeSpecification.name.base = .UndefinedTypeName ∧
        value.valueDefinition.values.length ≤ 1 ∧
        ∀ s ∈ value.sections, s.klass ≠ .MemberTypeClass)) :
    (∀ err, MsonValueToRefract value = .error err ↔
      MsonPropertyToRefract (.mk name value) = .error err) ∧
    (∀ e, MsonValueToRefract value = .ok e →
      ∃ p, MsonPropertyToRefract (.mk name value) = .ok p ∧
        p = e.setMeta "name" (IElement.Create name.literal) ∧
        p.kind = e.kind ∧ p.element_ = e.element_ ∧ p.hasContent = e.hasContent ∧
        p.value = e.value ∧ p.attributes = e.attributes ∧
        p.meta.lookup "description" = e.meta.lookup "description" ∧
        p.meta.lookup "name" = some (IElement.Create name.literal) ∧
        e.meta.lookup "name" = none) ∧
    (∀ p, MsonPropertyToRefract (.mk name value) = .ok p →
      ∃ e, MsonValueToRefract value = .ok e) := by
  -- both dispatches select the same builder
  have hsel : ∃ T, MsonValueToRefract value = RefractElementFromValue T value ∧
      MsonPropertyToRefract (.mk name value) =
        RefractElementFromProperty T (.mk name value) := by
    unfold MsonValueToRefract MsonPropertyToRefract
    simp only [mson.PropertyMember.toValueMember]
    rcases ht with ht | ht | ht | ⟨ht, hlen, hsec⟩
    · exact ⟨.BooleanElement, by simp only [ht], by simp only [ht]⟩
    · exact ⟨.NumberElement, by simp only [ht], by simp only [ht]⟩
    · exact ⟨.StringElement, by simp only [ht], by simp only [ht]⟩
    · have hch : hasChildren value = false := by
        simp only [hasChildren, hasMembers, Bool.or_eq_false_iff, decide_eq_false_iff_not,
          List.any_eq_false, decide_eq_true_eq]
        exact ⟨by omega, hsec⟩
      exact ⟨.StringElement, by simp only [ht], by simp only [ht, hch, Bool.false_eq_true, if_false]⟩
  obtain ⟨T, hV, hP⟩ := hsel
  rw [hV, hP, RefractElementFromProperty_eq]
  simp only [mson.PropertyMember.toValueMember, mson.PropertyMember.name]
  cases hr : RefractElementFromValue T value with
  | error err0 =>
    refine ⟨fun err => Iff.rfl, fun e he => (by cases he), fun p hp => (by cases hp)⟩
  | ok e0 =>
    refine ⟨fun err => ⟨fun h => (by cases h), fun h => (by cases h)⟩, fun e he => ?_,
      fun p _ => ⟨e0, rfl⟩⟩
    cases he
    have hmeta := (RefractElementFromValue_ok T value e0 hr).2
    refine ⟨_, rfl, rfl, ?_, ?_, ?_, ?_, ?_, ?_, ?_, ?_⟩
    · simp
    · simp
    · simp
    · simp
    · simp
    · simp [Collection.lookup_assign]
    · simp [Collection.lookup_assign]
    · rw [hmeta]
      split <;> simp [Collection.lookup]

/-- C7, amended, on a String value member with a description. -/
theorem C7_value_as_property_without_name_witness :
    MsonValueToRefract Scenario.describedString =
      .ok (.mk "" true false [("description", IElement.Create "about")] [] (.string "a")) ∧
    ∃ p, MsonPropertyToRefract (.mk (Scenario.propertyName "p") Scenario.describedString) = .ok p ∧
      p = (Element.mk "" true false [("description", IElement.Create "about")] []
        (.string "a")).setMeta "name" (IElement.Create "p") := by
  obtain ⟨p, h1, h2, _⟩ := (C7_value_as_property_without_name (Scenario.propertyName "p")
    Scenario.describedString (Or.inr (Or.inr (Or.inl rfl)))).2.1 _ rfl
  exact ⟨rfl, p, h1, h2⟩

end drafter

namespace drafter

open refract

/-! ### Loops over schema elements -/

/-- The loop of the composite `ExtractTypeSection` ends without an error exactly with the
built elements appended to `result`, each element having built. -/
theorem ExtractTypeSection_loop_ok (els : List mson.Element) :
    ∀ (result r : List Element), ExtractTypeSection.loop els result = .ok r →
      ∃ ys, els.map MsonElementToRefract = ys.map Except.ok ∧ r = result ++ ys := by
  induction els with
  | nil =>
    intro result r h
    rw [ExtractTypeSection.loop] at h
    cases h
    exact ⟨[], rfl, by simp⟩
  | cons it rest ih =>
    intro result r h
    rw [ExtractTypeSection.loop] at h
    cases hx : MsonElementToRefract it with
    | error err => simp only [hx] at h; cases h
    | ok y =>
      simp only [hx] at h
      obtain ⟨ys, h1, h2⟩ := ih _ _ h
      exact ⟨y :: ys, by simp [hx, h1], by simp [h2]⟩

/-- A composite extraction that succeeds has built every element of the section. -/
theorem ExtractTypeSection_composite_ok (T : ElementType) (ts : mson.TypeSection) (v : Value)
    (hT : T = .ArrayElement ∨ T = .ObjectElement) (h : ExtractTypeSection T ts = .ok v) :
    ∀ x ∈ ts.elements, ∃ y, MsonElementToRefract x = .ok y := by
  obtain ⟨k, d, value, elements⟩ := ts
  have key : ∀ r, ExtractTypeSection.loop elements [] = .ok r →
      ∀ x ∈ elements, ∃ y, MsonElementToRefract x = .ok y := by
    intro r hr x hx
    obtain ⟨ys, h1, _⟩ := ExtractTypeSection_loop_ok elements [] r hr
    have hmem : MsonElementToRefract x ∈ ys.map Except.ok := by
      rw [← h1]
      exact List.mem_map_of_mem _ hx
    obtain ⟨y, _, hy⟩ := List.mem_map.mp hmem
    exact ⟨y, hy.symm⟩
  simp only [mson.TypeSection.elements]
  rcases hT with rfl | rfl <;> simp only [ExtractTypeSection] at h
  · split at h
    · cases h
    · obtain ⟨r, hr, _⟩ := Except.map_eq_ok h
      exact key r hr
  · split at h
    · cases h
    · obtain ⟨r, hr, _⟩ := Except.map_eq_ok h
      exact key r hr

/-- The inner loop of `ToRefract` ends without an error exactly with the built elements
pushed on the object, each element having built. -/
theorem ToRefract.elements_ok (els : List mson.Element) :
    ∀ (n : String) (h c : Bool) (m a : Collection) (cs : List Element) (e : Element),
      ToRefract.elements els (.mk n h c m a (.object cs)) = .ok e →
      ∃ ys h2, els.map MsonElementToRefract = ys.map Except.ok ∧
        e = .mk n h2 c m a (.object (cs ++ ys)) := by
  induction els with
  | nil =>
    intro n h c m a cs e he
    rw [ToRefract.elements] at he
    cases he
    exact ⟨[], h, rfl, by simp⟩
  | cons it rest ih =>
    intro n h c m a cs e he
    rw [ToRefract.elements] at he
    cases hx : MsonElementToRefract it with
    | error err => simp only [hx] at he; cases he
    | ok y =>
      simp only [hx, Element.push_back_object] at he
      obtain ⟨ys, h2, h1, h3⟩ := ih _ _ _ _ _ _ _ he
      exact ⟨y :: ys, h2, by simp [hx, h1], by simp [h3]⟩

/-- The outer loop of `ToRefract` ends without an error exactly with all the members built
and pushed, in order, and with `description` assigned from the BlockDescription sections. -/
theorem ToRefract_loop_ok (sections : List mson.TypeSection) :
    ∀ (n : String) (h c : Bool) (m a : Collection) (cs : List Element) (e : Element),
      ToRefract.loop sections (.mk n h c m a (.object cs)) = .ok e →
      ∃ (ys : List Element) (h2 : Bool) (m2 : Collection),
        (ToRefract.members sections).map MsonElementToRefract = ys.map Except.ok ∧
        e = .mk n h2 c m2 a (.object (cs ++ ys)) ∧
        ∀ k, Collection.lookup m2 k =
          if k = "description" then
            (match ToRefract.blockDescription sections with
            | some d => some (IElement.Create d)
            | none => Collection.lookup m k)
          else Collection.lookup m k := by
  induction sections with
  | nil =>
    intro n h c m a cs e he
    rw [ToRefract.loop] at he
    cases he
    exact ⟨[], h, m, rfl, by simp, fun k => by simp [ToRefract.blockDescription]⟩
  | cons it rest ih =>
    intro n h c m a cs e he
    rw [ToRefract.loop] at he
    by_cases hk : it.klass = .BlockDescriptionClass
    · simp only [hk, if_true, Element.setMeta] at he
      obtain ⟨ys, h2, m2, h1, h3, h4⟩ := ih _ _ _ _ _ _ _ he
      refine ⟨ys, h2, m2, by simpa [ToRefract.members, hk] using h1, h3, fun k => ?_⟩
      rw [h4 k]
      by_cases hkd : k = "description"
      · subst hkd
        simp only [if_true, ToRefract.blockDescription, hk]
        cases ToRefract.blockDescription rest <;> simp [Collection.lookup_assign]
      · simp [hkd, Collection.lookup_assign]
    · simp only [hk, if_false] at he
      cases hel : ToRefract.elements it.elements (.mk n h c m a (.object cs)) with
      | error err => simp only [hel] at he; cases he
      | ok e1 =>
        simp only [hel] at he
        obtain ⟨xs, hx2, hx1, rfl⟩ := ToRefract.elements_ok _ _ _ _ _ _ _ _ hel
        obtain ⟨ys, h2, m2, h1, h3, h4⟩ := ih _ _ _ _ _ _ _ he
        refine ⟨xs ++ ys, h2, m2, by simp [ToRefract.members, hk, hx1, h1],
          by simp [h3], fun k => ?_⟩
        rw [h4 k]
        simp only [ToRefract.blockDescription, hk, if_false]
        cases ToRefract.blockDescription rest <;> rfl

/-! ### The root element -/

/-- C1. When `ToRefract` succeeds on a data structure, the result is an Object element whose
meta "id" and meta "title" are both the String element holding the declared name, whose meta
"description" is the String element holding the description text of the BlockDescription
section (of the last one, should there be several; no entry when there is none), and whose
children are exactly the results of `MsonElementToRefract` applied to every element of every
non-BlockDescription section, in section order and then element order. -/
theorem C1_ToRefract_root (ds : snowcrash.DataStructure) (e : Element)
    (h : ToRefract ds = .ok e) :
    e.kind = .ObjectElement ∧
    e.meta.lookup "id" = some (IElement.Create ds.name.symbol.literal) ∧
    e.meta.lookup "title" = some (IElement.Create ds.name.symbol.literal) ∧
    e.meta.lookup "description" =
      (ToRefract.blockDescription ds.sections).map IElement.Create ∧
    (ToRefract.members ds.sections).map MsonElementToRefract = e.children.map Except.ok := by
  unfold ToRefract at h
  have key : ∀ n : String,
      ToRefract.loop ds.sections
        (((Element.mk n false false [] [] (.object [])).setMeta "id"
          (IElement.Create ds.name.symbol.literal)).setMeta "title"
          (IElement.Create ds.name.symbol.literal)) = .ok e →
      e.kind = .ObjectElement ∧
      e.meta.lookup "id" = some (IElement.Create ds.name.symbol.literal) ∧
      e.meta.lookup "title" = some (IElement.Create ds.name.symbol.literal) ∧
      e.meta.lookup "description" =
        (ToRefract.blockDescription ds.sections).map IElement.Create ∧
      (ToRefract.members ds.sections).map MsonElementToRefract = e.children.map Except.ok := by
    intro n hn
    simp only [Element.setMeta] at hn
    obtain ⟨ys, h2, m2, h1, rfl, h4⟩ := ToRefract_loop_ok _ _ _ _ _ _ _ _ hn
    refine ⟨rfl, ?_, ?_, ?_, ?_⟩
    · simp only [Element.meta, h4]
      simp [Collection.assign, Collection.lookup]
    · simp only [Element.meta, h4]
      simp [Collection.assign, Collection.lookup]
    · simp only [Element.meta, h4]
      cases ToRefract.blockDescription ds.sections <;>
        simp [Collection.assign, Collection.lookup]
    · simpa [Element.children, Element.value] using h1
  by_cases hl : ds.typeDefinition.typeSpecification.name.symbol.literal.isEmpty = true
  · simp only [hl, Bool.not_true, Bool.false_eq_true, if_false] at h
    exact key "" h
  · have hl2 : ds.typeDefinition.typeSpecification.name.symbol.literal.isEmpty = false := by
      simpa using hl
    simp only [hl2, Bool.not_false, if_true] at h
    exact key _ h

/-- C1 on a data structure "User" with a description section and a section holding a
property and a mixin. -/
theorem C1_ToRefract_root_witness :
    ∃ e, ToRefract Scenario.user = .ok e ∧
      e.kind = .ObjectElement ∧
      e.meta.lookup "id" = some (.mk "" true false [] [] (.string "User")) ∧
      e.meta.lookup "title" = some (.mk "" true false [] [] (.string "User")) ∧
      e.meta.lookup "description" = some (.mk "" true false [] [] (.string "A user.")) ∧
      [MsonElementToRefract (.PropertyClass Scenario.count),
        MsonElementToRefract (.MixinClass (Scenario.typeDefinition .ObjectTypeName))] =
        e.children.map Except.ok :=
  ⟨_, rfl, C1_ToRefract_root Scenario.user _ rfl⟩

end drafter

namespace drafter

open refract

/-! ### Group elements -/

/-- A list of build results that are all successes holds no failed build. -/
theorem not_mem_map_ok_of_error {x : mson.Element} {els : List mson.Element}
    {ys : List Element} {err : Error} (hx : x ∈ els)
    (h : els.map MsonElementToRefract = ys.map Except.ok)
    (he : MsonElementToRefract x = .error err) : False := by
  have hmem : MsonElementToRefract x ∈ ys.map Except.ok := by
    rw [← h]
    exact List.mem_map_of_mem _ hx
  obtain ⟨y, _, hy⟩ := List.mem_map.mp hmem
  rw [he] at hy
  cases hy

/-- An element of a section that is not a BlockDescription section is a member. -/
theorem ToRefract.mem_members (sections : List mson.TypeSection) (s : mson.TypeSection)
    (x : mson.Element) (hs : s ∈ sections) (hk : s.klass ≠ .BlockDescriptionClass)
    (hx : x ∈ s.elements) : x ∈ ToRefract.members sections := by
  induction sections with
  | nil => cases hs
  | cons it rest ih =>
    rw [ToRefract.members]
    rcases List.mem_cons.mp hs with rfl | hs
    · simp only [hk, if_false]
      exact List.mem_append_left _ hx
    · split
      · exact ih hs
      · exact List.mem_append_right _ (ih hs)

/-- A successful `RefractElementFromValue<T>` has extracted every section of the node. -/
theorem RefractElementFromValue_ok_sections (T : ElementType) (value : mson.ValueMember)
    (e : Element) (h : RefractElementFromValue T value = .ok e) :
    ∀ s ∈ value.sections, ∃ v, ExtractTypeSection T s = .ok v := by
  obtain ⟨d, vd, sections⟩ := value
  intro s hs
  simp only [mson.ValueMember.sections] at hs
  rw [RefractElementFromValue_eq] at h
  cases hh : RefractElementFromValue.head T d vd with
  | error err => simp only [hh] at h; cases h
  | ok e0 =>
    simp only [hh] at h
    have hne : sections.isEmpty = false := by
      cases sections with
      | nil => cases hs
      | cons _ _ => rfl
    simp only [hne, Bool.not_false, if_true] at h
    cases hl : RefractElementFromValue.loop T sections ⟨e0, [], []⟩ with
    | error err => simp only [hl] at h; cases h
    | ok st =>
      exact (RefractElementFromValue_loop_ok T sections _ _ hl).2.2.1 s hs

/-- A successful `ToRefract` has built every member of the data structure. -/
theorem ToRefract_ok_members (ds : snowcrash.DataStructure) (e : Element)
    (h : ToRefract ds = .ok e) :
    ∃ ys : List Element,
      (ToRefract.members ds.sections).map MsonElementToRefract = ys.map Except.ok := by
  unfold ToRefract at h
  by_cases hl : ds.typeDefinition.typeSpecification.name.symbol.literal.isEmpty = true
  · simp only [hl, Bool.not_true, Bool.false_eq_true, if_false] at h
    obtain ⟨ys, _, _, h1, _⟩ := ToRefract_loop_ok _ _ _ _ _ _ _ _ h
    exact ⟨ys, h1⟩
  · have hl2 : ds.typeDefinition.typeSpecification.name.symbol.literal.isEmpty = false := by
      simpa using hl
    simp only [hl2, Bool.not_false, if_true] at h
    obtain ⟨ys, _, _, h1, _⟩ := ToRefract_loop_ok _ _ _ _ _ _ _ _ h
    exact ⟨ys, h1⟩

/-- C10, as stated, fails: a String Property whose MemberType section holds a Group element
builds, because the member body of a scalar node is never built. -/
theorem C10_counterexample :
    (∃ s ∈ Scenario.stringWithGroupMember.toValueMember.sections,
      s.klass = .MemberTypeClass ∧ mson.Element.GroupClass [] ∈ s.elements) ∧
    MsonElementToRefract (.PropertyClass Scenario.stringWithGroupMember) =
      .ok (.mk "" true false [("name", IElement.Create "p")] [] (.string "v")) :=
  ⟨⟨.mk .MemberTypeClass "" "v" [.GroupClass []], List.mem_singleton.mpr rfl, rfl,
    List.mem_singleton.mpr rfl⟩, rfl⟩

/-- C10, amended. `MsonElementToRefract` fails on every Group element with the
unsupported-element error, whatever the group contains; therefore a OneOf with a Group
alternative, an Array- or Object-built node with a MemberType section holding a Group, and a
data structure with a Group in a section other than a BlockDescription section all fail to
build. -/
theorem C10_group_unsupported :
    (∀ elements, MsonElementToRefract (.GroupClass elements) =
      .error (.runtime_error "NI unhandled element")) ∧
    (∀ (oneOf : List mson.Element) (elements : List mson.Element),
      mson.Element.GroupClass elements ∈ oneOf →
      (∀ e, MsonOneofToRefract oneOf ≠ .ok e) ∧
      ∀ e, MsonElementToRefract (.OneOfClass oneOf) ≠ .ok e) ∧
    (∀ (T : ElementType) (value : mson.ValueMember) (s : mson.TypeSection)
      (elements : List mson.Element),
      T = .ArrayElement ∨ T = .ObjectElement → s ∈ value.sections →
      s.klass = .MemberTypeClass → mson.Element.GroupClass elements ∈ s.elements →
      ∀ e, RefractElementFromValue T value ≠ .ok e) ∧
    (∀ (ds : snowcrash.DataStructure) (s : mson.TypeSection) (elements : List mson.Element),
      s ∈ ds.sections → s.klass ≠ .BlockDescriptionClass →
      mson.Element.GroupClass elements ∈ s.elements →
      ∀ e, ToRefract ds ≠ .ok e) := by
  have hgroup : ∀ elements, MsonElementToRefract (.GroupClass elements) =
      .error (.runtime_error "NI unhandled element") := fun _ => rfl
  refine ⟨hgroup, ?_, ?_, ?_⟩
  · intro oneOf elements hmem
    have hno : ∀ e, MsonOneofToRefract oneOf ≠ .ok e := by
      intro e he
      obtain ⟨err, herr⟩ := MsonOneofToRefract.loop_error oneOf
        ((Element.new .ArrayElement).element "select")
        ⟨_, hmem, _, hgroup elements⟩
      unfold MsonOneofToRefract at he
      rw [herr] at he
      cases he
    exact ⟨hno, fun e he => hno e (by rw [MsonElementToRefract_eq] at he; exact he)⟩
  · intro T value s elements hT hs _ hmem e he
    obtain ⟨v, hv⟩ := RefractElementFromValue_ok_sections T value e he s hs
    obtain ⟨y, hy⟩ := ExtractTypeSection_composite_ok T s v hT hv _ hmem
    rw [hgroup elements] at hy
    cases hy
  · intro ds s elements hs hk hmem e he
    obtain ⟨ys, h5⟩ := ToRefract_ok_members ds e he
    exact not_mem_map_ok_of_error (ToRefract.mem_members ds.sections s _ hs hk hmem) h5
      (hgroup elements)

/-- C10, amended, on an Object node whose MemberType section holds a Group. -/
theorem C10_group_unsupported_witness :
    MsonElementToRefract (.GroupClass []) = .error (.runtime_error "NI unhandled element") ∧
    ∀ e, RefractElementFromValue .ObjectElement Scenario.objectWithGroupMember ≠ .ok e :=
  ⟨C10_group_unsupported.1 [],
    C10_group_unsupported.2.2.1 .ObjectElement Scenario.objectWithGroupMember
      (.mk .MemberTypeClass "" "" [.GroupClass []]) [] (Or.inr rfl)
      (List.mem_singleton.mpr rfl) rfl (List.mem_singleton.mpr rfl)⟩

end drafter

namespace drafter

open refract

/-! ### Boolean coercion -/

/-- C17. Boolean coercion: `LiteralTo<bool>(s)` is true if and only if `s` is exactly "true";
every other text, such as "True", "1" and the empty string, yields false. -/
theorem C17_boolean_coercion :
    (∀ s : mson.Literal, LiteralTo_bool s = true ↔ s = "true") ∧
    (∀ s : mson.Literal, s ≠ "true" → LiteralTo_bool s = false) ∧
    LiteralTo_bool "true" = true ∧ LiteralTo_bool "True" = false ∧
    LiteralTo_bool "1" = false ∧ LiteralTo_bool "" = false := by
  refine ⟨fun s => ?_, fun s hs => ?_, by decide, by decide, by decide, by decide⟩
  · simp [LiteralTo_bool]
  · simp [LiteralTo_bool, hs]

/-! ### Value extraction: the checks on the number of literals -/

/-- C20. Value-set extraction from an empty value list fails with the empty-value error
("Cannot extract values from empty container"), for the scalar target kinds and for the
composite target kinds alike. -/
theorem C20_extract_empty (T : ElementType) (vd : mson.ValueDefinition)
    (hv : vd.values = []) :
    ExtractValues T vd = .error (.logic_error "Cannot extract values from empty container") := by
  cases T <;>
    simp [ExtractValues, ExtractValues.primitive, ExtractValues.composite, hv, throw,
      throwThe, MonadExceptOf.throw, Functor.map, Except.map]

/-- C20 on the value definitions without literal of a Number and of an Array node. -/
theorem C20_extract_empty_witness :
    ExtractValues .NumberElement (Scenario.valueDefinition .NumberTypeName []) =
      .error (.logic_error "Cannot extract values from empty container") ∧
    ExtractValues .ArrayElement (Scenario.valueDefinition .ArrayTypeName []) =
      .error (.logic_error "Cannot extract values from empty container") :=
  ⟨C20_extract_empty .NumberElement _ rfl, C20_extract_empty .ArrayElement _ rfl⟩

/-- The primitive extraction of more than one literal fails with the cardinality error. -/
theorem ExtractValues.primitive_many {V : Type} (LiteralTo : mson.Literal → V)
    (vd : mson.ValueDefinition) (hv : vd.values.length > 1) :
    ExtractValues.primitive LiteralTo vd =
      .error (.logic_error "For primitive types is just one value supported") := by
  have hne : vd.values.isEmpty = false := by
    cases hl : vd.values with
    | nil => rw [hl] at hv; simp at hv
    | cons _ _ => rfl
  simp [ExtractValues.primitive, hne, hv, throw, throwThe, MonadExceptOf.throw]

/-- The scalar extraction of more than one literal fails with the cardinality error. -/
theorem ExtractValues_scalar_many (T : ElementType) (vd : mson.ValueDefinition)
    (hT : T = .BooleanElement ∨ T = .NumberElement ∨ T = .StringElement)
    (hv : vd.values.length > 1) :
    ExtractValues T vd =
      .error (.logic_error "For primitive types is just one value supported") := by
  rcases hT with rfl | rfl | rfl <;>
    simp only [ExtractValues, ExtractValues.primitive_many _ vd hv] <;> rfl

/-- C14. For the scalar target kinds, `ExtractValues` returns the coercion of the single
literal when the value list has length 1 and fails with the cardinality error ("For primitive
types is just one value supported") when it has more than one literal; hence every Property
declared Boolean, Number or String with two or more direct values fails to build, with that
error. -/
theorem C14_scalar_cardinality (vd : mson.ValueDefinition) :
    (∀ v, vd.values = [v] →
      ExtractValues .BooleanElement vd = .ok (.boolean (LiteralTo_bool v.literal)) ∧
      ExtractValues .NumberElement vd = .ok (.number (LiteralTo_double v.literal)) ∧
      ExtractValues .StringElement vd = .ok (.string (LiteralTo_string v.literal))) ∧
    (vd.values.length > 1 →
      ExtractValues .BooleanElement vd =
        .error (.logic_error "For primitive types is just one value supported") ∧
      ExtractValues .NumberElement vd =
        .error (.logic_error "For primitive types is just one value supported") ∧
      ExtractValues .StringElement vd =
        .error (.logic_error "For primitive types is just one value supported")) ∧
    (∀ (name : mson.PropertyName) (d : String) (sections : List mson.TypeSection),
      (vd.typeDefinition.typeSpecification.name.base = .BooleanTypeName ∨
        vd.typeDefinition.typeSpecification.name.base = .NumberTypeName ∨
        vd.typeDefinition.typeSpecification.name.base = .StringTypeName) →
      vd.values.length ≥ 2 →
      MsonPropertyToRefract (.mk name (.mk d vd sections)) =
        .error (.logic_error "For primitive types is just one value supported")) := by
  refine ⟨fun v hv => ⟨?_, ?_, ?_⟩, fun hv => ⟨?_, ?_, ?_⟩, fun name d sections ht hv => ?_⟩
  · simp only [ExtractValues, ExtractValues.primitive_singleton _ vd v hv]; rfl
  · simp only [ExtractValues, ExtractValues.primitive_singleton _ vd v hv]; rfl
  · simp only [ExtractValues, ExtractValues.primitive_singleton _ vd v hv]; rfl
  · exact ExtractValues_scalar_many _ vd (Or.inl rfl) hv
  · exact ExtractValues_scalar_many _ vd (Or.inr (Or.inl rfl)) hv
  · exact ExtractValues_scalar_many _ vd (Or.inr (Or.inr rfl)) hv
  · have hne : vd.values.isEmpty = false := by
      cases hl : vd.values with
      | nil => rw [hl] at hv; simp at hv
      | cons _ _ => rfl
    have key : ∀ T : ElementType,
        (T = .BooleanElement ∨ T = .NumberElement ∨ T = .StringElement) →
        RefractElementFromProperty T (.mk name (.mk d vd sections)) =
          .error (.logic_error "For primitive types is just one value supported") := by
      intro T hT
      rw [RefractElementFromProperty_eq]
      simp only [mson.PropertyMember.toValueMember, RefractElementFromValue_eq,
        RefractElementFromValue.head_of_extract_error T d vd _ hne
          (ExtractValues_scalar_many T vd hT (by omega))]
    unfold MsonPropertyToRefract
    simp only [mson.PropertyMember.toValueMember, mson.ValueMember.valueDefinition]
    rcases ht with ht | ht | ht
    · simp only [ht]; exact key _ (Or.inl rfl)
    · simp only [ht]; exact key _ (Or.inr (Or.inl rfl))
    · simp only [ht]; exact key _ (Or.inr (Or.inr rfl))

/-- C14 on a Number Property with the two direct values "1" and "2". -/
theorem C14_scalar_cardinality_witness :
    MsonPropertyToRefract Scenario.twoNumbers =
      .error (.logic_error "For primitive types is just one value supported") :=
  (C14_scalar_cardinality (Scenario.valueDefinition .NumberTypeName ["1", "2"])).2.2
    (Scenario.propertyName "n") "" [] (Or.inr (Or.inl rfl)) (by decide)

end drafter

namespace drafter

open refract

/-! ### The attribute mapper -/

/-- The result of `MsAttributesToRefract`, given the tags of the set flags. -/
theorem MsAttributesToRefract_eq (ta : mson.TypeAttributes) :
    MsAttributesToRefract ta =
      (match typeAttributeTags ta with
      | [] => none
      | tags => some (.mk "" true false [] []
          (.array (tags.map fun tag => Element.mk "" true false [] [] (.string tag))))) := by
  unfold MsAttributesToRefract typeAttributeTags
  by_cases h1 : ta &&& mson.RequiredTypeAttribute = 0 <;>
  by_cases h2 : ta &&& mson.OptionalTypeAttribute = 0 <;>
  by_cases h3 : ta &&& mson.DefaultTypeAttribute = 0 <;>
  by_cases h4 : ta &&& mson.SampleTypeAttribute = 0 <;>
  by_cases h5 : ta &&& mson.FixedTypeAttribute = 0 <;>
  simp [h1, h2, h3, h4, h5, List.filter, Element.new, Value.init, Element.push_back,
    IElement.Create, Element.set, Element.children, Element.value]

/-- A tag is among the tags of a flag set exactly when its flag is set. -/
theorem mem_typeAttributeTags (ta : mson.TypeAttributes) :
    ("required" ∈ typeAttributeTags ta ↔ ta &&& mson.RequiredTypeAttribute ≠ 0) ∧
    ("optional" ∈ typeAttributeTags ta ↔ ta &&& mson.OptionalTypeAttribute ≠ 0) ∧
    ("default" ∈ typeAttributeTags ta ↔ ta &&& mson.DefaultTypeAttribute ≠ 0) ∧
    ("sample" ∈ typeAttributeTags ta ↔ ta &&& mson.SampleTypeAttribute ≠ 0) ∧
    ("fixed" ∈ typeAttributeTags ta ↔ ta &&& mson.FixedTypeAttribute ≠ 0) := by
  unfold typeAttributeTags
  by_cases h1 : ta &&& mson.RequiredTypeAttribute = 0 <;>
  by_cases h2 : ta &&& mson.OptionalTypeAttribute = 0 <;>
  by_cases h3 : ta &&& mson.DefaultTypeAttribute = 0 <;>
  by_cases h4 : ta &&& mson.SampleTypeAttribute = 0 <;>
  by_cases h5 : ta &&& mson.FixedTypeAttribute = 0 <;>
  simp [h1, h2, h3, h4, h5, List.filter]

/-- C12. For every attribute flag set, `MsAttributesToRefract` yields the subsequence of
["required", "optional", "default", "sample", "fixed"] made of exactly the tags whose flag bit
is set, in that fixed order, one String element per set flag, and signals "no attribute"
(`NULL`) exactly when none of the five flags is set. -/
theorem C12_attribute_tags (ta : mson.TypeAttributes) :
    (typeAttributeTags ta).Sublist ["required", "optional", "default", "sample", "fixed"] ∧
    (("required" ∈ typeAttributeTags ta ↔ ta &&& mson.RequiredTypeAttribute ≠ 0) ∧
      ("optional" ∈ typeAttributeTags ta ↔ ta &&& mson.OptionalTypeAttribute ≠ 0) ∧
      ("default" ∈ typeAttributeTags ta ↔ ta &&& mson.DefaultTypeAttribute ≠ 0) ∧
      ("sample" ∈ typeAttributeTags ta ↔ ta &&& mson.SampleTypeAttribute ≠ 0) ∧
      ("fixed" ∈ typeAttributeTags ta ↔ ta &&& mson.FixedTypeAttribute ≠ 0)) ∧
    (typeAttributeTags ta ≠ [] →
      MsAttributesToRefract ta = some (.mk "" true false [] []
        (.array ((typeAttributeTags ta).map fun tag =>
          Element.mk "" true false [] [] (.string tag))))) ∧
    (MsAttributesToRefract ta = none ↔
      ta &&& mson.RequiredTypeAttribute = 0 ∧ ta &&& mson.OptionalTypeAttribute = 0 ∧
      ta &&& mson.DefaultTypeAttribute = 0 ∧ ta &&& mson.SampleTypeAttribute = 0 ∧
      ta &&& mson.FixedTypeAttribute = 0) ∧
    MsAttributesToRefract (mson.RequiredTypeAttribute ||| mson.FixedTypeAttribute) =
      some (.mk "" true false [] []
        (.array [.mk "" true false [] [] (.string "required"),
          .mk "" true false [] [] (.string "fixed")])) := by
  refine ⟨?_, mem_typeAttributeTags ta, ?_, ?_, rfl⟩
  · unfold typeAttributeTags
    have h := List.Sublist.map (fun f : mson.TypeAttributes × String => f.2)
      (@List.filter_sublist _ (fun f : mson.TypeAttributes × String => decide (ta &&& f.1 ≠ 0))
        [(mson.RequiredTypeAttribute, "required"), (mson.OptionalTypeAttribute, "optional"),
          (mson.DefaultTypeAttribute, "default"), (mson.SampleTypeAttribute, "sample"),
          (mson.FixedTypeAttribute, "fixed")])
    simpa using h
  · intro hne
    rw [MsAttributesToRefract_eq]
    cases h : typeAttributeTags ta with
    | nil => exact absurd h hne
    | cons _ _ => rfl
  · rw [MsAttributesToRefract_eq]
    unfold typeAttributeTags
    by_cases h1 : ta &&& mson.RequiredTypeAttribute = 0 <;>
    by_cases h2 : ta &&& mson.OptionalTypeAttribute = 0 <;>
    by_cases h3 : ta &&& mson.DefaultTypeAttribute = 0 <;>
    by_cases h4 : ta &&& mson.SampleTypeAttribute = 0 <;>
    by_cases h5 : ta &&& mson.FixedTypeAttribute = 0 <;>
    simp [h1, h2, h3, h4, h5, List.filter]

end drafter

namespace drafter

open refract

/-! ### The attributes of a built node -/

@[simp] theorem Element.attributes_new (T : ElementType) : (Element.new T).attributes = [] :=
  rfl

@[simp] theorem Element.attributes_set (e : Element) (v : Value) :
    (e.set v).attributes = e.attributes := by
  cases e; rfl

@[simp] theorem Element.attributes_setAttribute (e x : Element) (k : String) :
    (e.setAttribute k x).attributes = Collection.assign e.attributes k x := by
  cases e; rfl

/-- `SimplifyRefractContainer` is the collapse rule. -/
theorem SimplifyRefractContainer_eq (container : List Element) :
    SimplifyRefractContainer container = collapse container := by
  unfold SimplifyRefractContainer
  match container with
  | [] => rfl
  | [x] => rfl
  | x :: y :: rest =>
    simp only [List.isEmpty_cons, Bool.false_eq_true, if_false, List.length_cons]
    rw [if_neg (by omega)]
    show some (List.foldl Element.push_back (Element.mk "" false false [] [] (.array [])) _) = _
    rw [Element.foldl_push_back_array]
    simp [collapse]

/-- The attributes after the statements before the loop: `typeAttributes`, when the attribute
mapper returns an element, and nothing else. -/
theorem RefractElementFromValue.head_attributes (T : ElementType) (d : String)
    (vd : mson.ValueDefinition) (e : Element)
    (h : RefractElementFromValue.head T d vd = .ok e) :
    e.attributes =
      (match MsAttributesToRefract vd.typeDefinition.attributes with
      | some attrs => [("typeAttributes", attrs)]
      | none => []) := by
  unfold RefractElementFromValue.head at h
  have key : ∀ e0 : Element, e0.attributes = [] →
      Except.ok (if (!d.isEmpty) = true then
        (match MsAttributesToRefract vd.typeDefinition.attributes with
          | some attrs => e0.setAttribute "typeAttributes" attrs
          | none => e0).setMeta "description" (IElement.Create d)
        else
          match MsAttributesToRefract vd.typeDefinition.attributes with
          | some attrs => e0.setAttribute "typeAttributes" attrs
          | none => e0) = (Except.ok e : Except Error Element) →
      e.attributes =
        (match MsAttributesToRefract vd.typeDefinition.attributes with
        | some attrs => [("typeAttributes", attrs)]
        | none => []) := by
    intro e0 h0 he
    cases hd : d.isEmpty <;> cases ha : MsAttributesToRefract vd.typeDefinition.attributes <;>
      simp only [hd, ha, Bool.not_true, Bool.not_false, Bool.false_eq_true, if_false,
        if_true, Except.ok.injEq] at he <;>
      (subst he; simp [h0, Collection.assign])
  by_cases hv : vd.values.isEmpty = true
  · simp only [hv, Bool.not_true, Bool.false_eq_true, if_false] at h
    exact key _ (by simp) h
  · have hv2 : vd.values.isEmpty = false := by simpa using hv
    simp only [hv2, Bool.not_false, if_true] at h
    cases hx : ExtractValues T vd with
    | error err => simp only [hx] at h; cases h
    | ok v =>
      simp only [hx] at h
      exact key _ (by simp) h

/-- What a section loop that ends without an error has accumulated: the attributes of the
element are untouched, and the Sample and Default lists have grown by the elements extracted
from the Sample and from the Default sections, in section order. -/
theorem RefractElementFromValue_loop_lists (T : ElementType)
    (sections : List mson.TypeSection) :
    ∀ (st st' : SectionState), RefractElementFromValue.loop T sections st = .ok st' →
      st'.element.attributes = st.element.attributes ∧
      ∃ samples defaults : List Element,
        (sections.filter fun s => s.klass = .SampleClass).map (sectionElement T) =
          samples.map Except.ok ∧
        (sections.filter fun s => s.klass = .DefaultClass).map (sectionElement T) =
          defaults.map Except.ok ∧
        st'.samples = st.samples ++ samples ∧ st'.defaults = st.defaults ++ defaults := by
  induction sections with
  | nil =>
    intro st st' h
    rw [RefractElementFromValue.loop] at h
    cases h
    exact ⟨rfl, [], [], rfl, rfl, by simp, by simp⟩
  | cons it rest ih =>
    intro st st' h
    rw [RefractElementFromValue.loop] at h
    by_cases hk : it.klass = .MemberTypeClass
    · simp only [hk, if_true] at h
      split at h
      · cases h
      · cases hx : ExtractTypeSection T it with
        | error err => simp only [hx] at h; cases h
        | ok v =>
          simp only [hx] at h
          obtain ⟨h1, ss, ds, h2, h3, h4, h5⟩ := ih _ _ h
          exact ⟨by simpa using h1, ss, ds, by simpa [List.filter, hk] using h2,
            by simpa [List.filter, hk] using h3, h4, h5⟩
    · simp only [hk, if_false] at h
      cases hx : ExtractTypeSection T it with
      | error err => simp only [hx] at h; cases h
      | ok v =>
        simp only [hx] at h
        have hse : sectionElement T it = .ok ((Element.new T).set v) := by
          simp only [sectionElement, hx]
        by_cases hs : it.klass = .SampleClass
        · simp only [hs, if_true] at h
          obtain ⟨h1, ss, ds, h2, h3, h4, h5⟩ := ih _ _ h
          refine ⟨h1, (Element.new T).set v :: ss, ds, ?_, ?_, ?_, h5⟩
          · simp [List.filter, hs, hse, h2]
          · simpa [List.filter, hs] using h3
          · simpa using h4
        · by_cases hd : it.klass = .DefaultClass
          · simp only [hd, reduceCtorEq, if_true, if_false] at h
            obtain ⟨h1, ss, ds, h2, h3, h4, h5⟩ := ih _ _ h
            refine ⟨h1, ss, (Element.new T).set v :: ds, ?_, ?_, h4, ?_⟩
            · simpa [List.filter, hd] using h2
            · simp [List.filter, hd, hse, h3]
            · simpa using h5
          · simp only [hs, hd, if_false] at h
            cases h

/-- The attributes of a built node: `typeAttributes` as the attribute mapper returns it,
`sample` and `default` as the collapse of the elements extracted from the Sample and from the
Default sections. -/
theorem RefractElementFromValue_attributes (T : ElementType) (value : mson.ValueMember)
    (e : Element) (h : RefractElementFromValue T value = .ok e) :
    ∃ samples defaults : List Element,
      (value.sections.filter fun s => s.klass = .SampleClass).map (sectionElement T) =
        samples.map Except.ok ∧
      (value.sections.filter fun s => s.klass = .DefaultClass).map (sectionElement T) =
        defaults.map Except.ok ∧
      e.attributes.lookup "typeAttributes" =
        MsAttributesToRefract value.valueDefinition.typeDefinition.attributes ∧
      e.attributes.lookup "sample" = collapse samples ∧
      e.attributes.lookup "default" = collapse defaults := by
  obtain ⟨d, vd, sections⟩ := value
  simp only [mson.ValueMember.sections, mson.ValueMember.valueDefinition]
  rw [RefractElementFromValue_eq] at h
  cases hh : RefractElementFromValue.head T d vd with
  | error err => simp only [hh] at h; cases h
  | ok e0 =>
    have ha := RefractElementFromValue.head_attributes T d vd e0 hh
    simp only [hh] at h
    by_cases hs : sections.isEmpty = true
    · simp only [hs, Bool.not_true, Bool.false_eq_true, if_false, Except.ok.injEq] at h
      subst h
      have hnil : sections = [] := by simpa using hs
      subst hnil
      refine ⟨[], [], rfl, rfl, ?_, ?_, ?_⟩ <;> rw [ha] <;>
        cases MsAttributesToRefract vd.typeDefinition.attributes <;>
        simp [Collection.lookup, collapse]
    · have hs2 : sections.isEmpty = false := by simpa using hs
      simp only [hs2, Bool.not_false, if_true] at h
      cases hl : RefractElementFromValue.loop T sections ⟨e0, [], []⟩ with
      | error err => simp only [hl] at h; cases h
      | ok st =>
        simp only [hl, Except.ok.injEq] at h
        subst h
        obtain ⟨h1, ss, ds, h2, h3, h4, h5⟩ := RefractElementFromValue_loop_lists T sections _ _ hl
        simp only [List.nil_append] at h4 h5
        refine ⟨ss, ds, h2, h3, ?_, ?_, ?_⟩ <;>
          simp only [RefractElementFromValue.tail, SimplifyRefractContainer_eq, h4, h5] <;>
          cases collapse ss <;> cases collapse ds <;>
          simp only [Element.attributes_setAttribute, Collection.lookup_assign, h1, ha] <;>
          cases MsAttributesToRefract vd.typeDefinition.attributes <;>
          simp [Collection.lookup]

end drafter

namespace drafter

open refract

/-- C11. Collapse rule: when `RefractElementFromValue` succeeds on a node with `n` Sample
sections (resp. `n` Default sections), the "sample" (resp. "default") attribute is absent when
`n = 0`, is exactly the single extracted element, unwrapped, when `n = 1`, and is an Array
element of length `n` holding the extracted elements in section order when `n > 1`; the two
lists are collapsed independently of each other. -/
theorem C11_collapse_rule (T : ElementType) (value : mson.ValueMember) (e : Element)
    (h : RefractElementFromValue T value = .ok e) :
    ∃ samples defaults : List Element,
      ((value.sections.filter fun s => s.klass = .SampleClass).map (sectionElement T) =
          samples.map Except.ok ∧
        samples.length = (value.sections.filter fun s => s.klass = .SampleClass).length) ∧
      ((value.sections.filter fun s => s.klass = .DefaultClass).map (sectionElement T) =
          defaults.map Except.ok ∧
        defaults.length = (value.sections.filter fun s => s.klass = .DefaultClass).length) ∧
      ((samples.length = 0 → e.attributes.lookup "sample" = none) ∧
        (∀ x, samples = [x] → e.attributes.lookup "sample" = some x) ∧
        (samples.length > 1 → e.attributes.lookup "sample" =
          some (.mk "" true false [] [] (.array samples)))) ∧
      ((defaults.length = 0 → e.attributes.lookup "default" = none) ∧
        (∀ x, defaults = [x] → e.attributes.lookup "default" = some x) ∧
        (defaults.length > 1 → e.attributes.lookup "default" =
          some (.mk "" true false [] [] (.array defaults)))) := by
  obtain ⟨samples, defaults, h1, h2, _, h4, h5⟩ :=
    RefractElementFromValue_attributes T value e h
  have key : ∀ (xs : List Element) (r : Option Element), r = collapse xs →
      (xs.length = 0 → r = none) ∧ (∀ x, xs = [x] → r = some x) ∧
      (xs.length > 1 → r = some (.mk "" true false [] [] (.array xs))) := by
    intro xs r hr
    subst hr
    match xs with
    | [] => exact ⟨fun _ => rfl, fun x hx => (by cases hx), fun hl => (by simp at hl)⟩
    | [y] =>
      exact ⟨fun hl => (by simp at hl), fun x hx => (by cases hx; rfl),
        fun hl => (by simp at hl)⟩
    | y :: z :: rest =>
      exact ⟨fun hl => (by simp at hl), fun x hx => (by cases hx), fun _ => rfl⟩
  refine ⟨samples, defaults, ⟨h1, ?_⟩, ⟨h2, ?_⟩, key samples _ h4, key defaults _ h5⟩
  · simpa using (congrArg List.length h1).symm
  · simpa using (congrArg List.length h2).symm

/-- C11 on a String value member with the sections Default "d1", Sample "s1", Default "d2":
the one sample is attached unwrapped, the two defaults as an Array in section order. -/
theorem C11_collapse_rule_witness :
    ∃ e, RefractElementFromValue .StringElement Scenario.sampled = .ok e ∧
      e.attributes.lookup "sample" = some (.mk "" true false [] [] (.string "s1")) ∧
      e.attributes.lookup "default" = some (.mk "" true false [] []
        (.array [.mk "" true false [] [] (.string "d1"),
          .mk "" true false [] [] (.string "d2")])) := by
  have inj : ∀ xs ys : List Element,
      xs.map (Except.ok : Element → Except Error Element) = ys.map Except.ok → xs = ys :=
    fun xs ys hxy => List.map_injective_iff.mpr (fun a b hab => Except.ok.inj hab) hxy
  obtain ⟨samples, defaults, ⟨hs, _⟩, ⟨hd, _⟩, ⟨_, hs1, _⟩, ⟨_, _, hdn⟩⟩ :=
    C11_collapse_rule .StringElement Scenario.sampled _ rfl
  have hs2 : samples = [.mk "" true false [] [] (.string "s1")] :=
    inj _ _ (hs.symm.trans rfl)
  have hd2 : defaults = [.mk "" true false [] [] (.string "d1"),
      .mk "" true false [] [] (.string "d2")] :=
    inj _ _ (hd.symm.trans rfl)
  refine ⟨_, rfl, hs1 _ hs2, ?_⟩
  rw [hdn (by rw [hd2]; decide), hd2]

/-- C13. When `RefractElementFromValue` succeeds on a node, the attributes of the built
element contain the key "typeAttributes" only if the flag set of the node is non-empty: an
empty flag set omits the key, and a flag set with exactly one flag gives a "typeAttributes"
value that is a one-element Array holding the String element of that flag's tag. -/
theorem C13_typeAttributes_key (T : ElementType) (value : mson.ValueMember) (e : Element)
    (h : RefractElementFromValue T value = .ok e) :
    ((e.attributes.lookup "typeAttributes").isSome = true →
      value.valueDefinition.typeDefinition.attributes ≠ 0) ∧
    (value.valueDefinition.typeDefinition.attributes = 0 →
      e.attributes.lookup "typeAttributes" = none) ∧
    (value.valueDefinition.typeDefinition.attributes = mson.RequiredTypeAttribute →
      e.attributes.lookup "typeAttributes" = some (.mk "" true false [] []
        (.array [.mk "" true false [] [] (.string "required")]))) ∧
    (value.valueDefinition.typeDefinition.attributes = mson.OptionalTypeAttribute →
      e.attributes.lookup "typeAttributes" = some (.mk "" true false [] []
        (.array [.mk "" true false [] [] (.string "optional")]))) ∧
    (value.valueDefinition.typeDefinition.attributes = mson.DefaultTypeAttribute →
      e.attributes.lookup "typeAttributes" = some (.mk "" true false [] []
        (.array [.mk "" true false [] [] (.string "default")]))) ∧
    (value.valueDefinition.typeDefinition.attributes = mson.SampleTypeAttribute →
      e.attributes.lookup "typeAttributes" = some (.mk "" true false [] []
        (.array [.mk "" true false [] [] (.string "sample")]))) ∧
    (value.valueDefinition.typeDefinition.attributes = mson.FixedTypeAttribute →
      e.attributes.lookup "typeAttributes" = some (.mk "" true false [] []
        (.array [.mk "" true false [] [] (.string "fixed")]))) := by
  obtain ⟨_, _, _, _, h3, _, _⟩ := RefractElementFromValue_attributes T value e h
  rw [h3]
  refine ⟨fun hs h0 => ?_, fun h0 => ?_, fun h0 => ?_, fun h0 => ?_, fun h0 => ?_,
    fun h0 => ?_, fun h0 => ?_⟩
  · rw [h0] at hs
    exact absurd hs (by decide)
  all_goals rw [h0]; rfl

/-- C13 on a String value member whose only flag is `required`. -/
theorem C13_typeAttributes_key_witness :
    ∃ e, RefractElementFromValue .StringElement Scenario.required = .ok e ∧
      e.attributes.lookup "typeAttributes" = some (.mk "" true false [] []
        (.array [.mk "" true false [] [] (.string "required")])) :=
  ⟨_, rfl, (C13_typeAttributes_key .StringElement Scenario.required _ rfl).2.2.1 rfl⟩

end drafter

namespace drafter

open refract

/-! ### The first failure ends a traversal -/

theorem firstError_append (a b : List mson.Element) :
    firstError (a ++ b) =
      (match firstError a with
      | some err => some err
      | none => firstError b) := by
  induction a with
  | nil => rfl
  | cons x rest ih =>
    simp only [List.cons_append, firstError]
    cases MsonElementToRefract x with
    | error err => rfl
    | ok y => exact ih

/-- The first failure of a list whose elements before `x` build and on which `x` fails. -/
theorem firstError_append_cons (pre post : List mson.Element) (x : mson.Element) (err : Error)
    (hpre : ∀ p ∈ pre, ∃ y, MsonElementToRefract p = .ok y)
    (hx : MsonElementToRefract x = .error err) :
    firstError (pre ++ x :: post) = some err := by
  induction pre with
  | nil => simp only [List.nil_append, firstError, hx]
  | cons p rest ih =>
    obtain ⟨y, hy⟩ := hpre p (List.mem_cons_self _ _)
    simp only [List.cons_append, firstError, hy]
    exact ih (fun q hq => hpre q (List.mem_cons_of_mem _ hq))

/-- A list holding an element that fails to build has a first failure. -/
theorem firstError_of_mem (els : List mson.Element) (x : mson.Element) (err : Error)
    (hmem : x ∈ els) (hx : MsonElementToRefract x = .error err) :
    ∃ err2, firstError els = some err2 := by
  induction els with
  | nil => cases hmem
  | cons p rest ih =>
    simp only [firstError]
    cases hp : MsonElementToRefract p with
    | error err2 => exact ⟨err2, rfl⟩
    | ok y =>
      rcases List.mem_cons.mp hmem with rfl | hmem
      · rw [hx] at hp; cases hp
      · exact ih hmem

/-- The loop of `MsonOneofToRefract` fails with the first failure of the alternatives. -/
theorem MsonOneofToRefract_loop_firstError (alts : List mson.Element) :
    ∀ (select : Element) (err : Error), firstError alts = some err →
      MsonOneofToRefract.loop alts select = .error err := by
  induction alts with
  | nil => intro select err h; cases h
  | cons a rest ih =>
    intro select err h
    rw [MsonOneofToRefract.loop]
    simp only [firstError] at h
    cases ha : MsonElementToRefract a with
    | error err2 => simp only [ha] at h ⊢; cases h; rfl
    | ok y => simp only [ha] at h ⊢; exact ih _ _ h

/-- The loop of the composite `ExtractTypeSection` fails with the first failure of the
elements. -/
theorem ExtractTypeSection_loop_firstError (els : List mson.Element) :
    ∀ (result : List Element) (err : Error), firstError els = some err →
      ExtractTypeSection.loop els result = .error err := by
  induction els with
  | nil => intro result err h; cases h
  | cons a rest ih =>
    intro result err h
    rw [ExtractTypeSection.loop]
    simp only [firstError] at h
    cases ha : MsonElementToRefract a with
    | error err2 => simp only [ha] at h ⊢; cases h; rfl
    | ok y => simp only [ha] at h ⊢; exact ih _ _ h

/-- The composite extraction of a section fails with the first failure of its elements. -/
theorem ExtractTypeSection_firstError (T : ElementType) (ts : mson.TypeSection) (err : Error)
    (hT : T = .ArrayElement ∨ T = .ObjectElement)
    (h : firstError ts.elements = some err) : ExtractTypeSection T ts = .error err := by
  obtain ⟨k, d, value, elements⟩ := ts
  simp only [mson.TypeSection.elements] at h
  have hne : elements.isEmpty = false := by
    cases elements with
    | nil => cases h
    | cons _ _ => rfl
  rcases hT with rfl | rfl <;>
    simp only [ExtractTypeSection, hne, Bool.false_eq_true, if_false,
      ExtractTypeSection_loop_firstError elements [] err h] <;> rfl

/-- The inner loop of `ToRefract` fails with the first failure of the elements, and ends
without an error when there is none. -/
theorem ToRefract.elements_firstError (els : List mson.Element) :
    ∀ (e : Element),
      (∀ err, firstError els = some err → ToRefract.elements els e = .error err) ∧
      (firstError els = none → ∃ e2, ToRefract.elements els e = .ok e2) := by
  induction els with
  | nil =>
    intro e
    exact ⟨fun err h => (by cases h), fun _ => ⟨e, rfl⟩⟩
  | cons a rest ih =>
    intro e
    rw [ToRefract.elements]
    simp only [firstError]
    cases ha : MsonElementToRefract a with
    | error err2 =>
      exact ⟨fun err h => (by cases h; rfl), fun h => (by cases h)⟩
    | ok y => exact ih _

/-- The outer loop of `ToRefract` fails with the first failure of the members. -/
theorem ToRefract_loop_firstError (sections : List mson.TypeSection) :
    ∀ (e : Element) (err : Error), firstError (ToRefract.members sections) = some err →
      ToRefract.loop sections e = .error err := by
  induction sections with
  | nil => intro e err h; cases h
  | cons it rest ih =>
    intro e err h
    rw [ToRefract.loop]
    rw [ToRefract.members] at h
    by_cases hk : it.klass = .BlockDescriptionClass
    · simp only [hk, if_true] at h ⊢
      exact ih _ _ h
    · simp only [hk, if_false] at h ⊢
      rw [firstError_append] at h
      obtain ⟨h1, h2⟩ := ToRefract.elements_firstError it.elements e
      cases hf : firstError it.elements with
      | some err2 =>
        simp only [hf] at h
        cases h
        simp only [h1 _ hf]
      | none =>
        simp only [hf] at h
        obtain ⟨e2, he2⟩ := h2 hf
        simp only [he2]
        exact ih _ _ h

/-- `ToRefract` fails with the first failure of the members of the data structure. -/
theorem ToRefract_firstError (ds : snowcrash.DataStructure) (err : Error)
    (h : firstError (ToRefract.members ds.sections) = some err) :
    ToRefract ds = .error err := by
  unfold ToRefract
  exact ToRefract_loop_firstError ds.sections _ err h

/-! ### The section loop, section by section -/

/-- The section loop over a list of sections followed by further sections. -/
theorem RefractElementFromValue.loop_append (T : ElementType) (pre : List mson.TypeSection) :
    ∀ (rest : List mson.TypeSection) (st : SectionState),
      RefractElementFromValue.loop T (pre ++ rest) st =
        (match RefractElementFromValue.loop T pre st with
        | .error err => .error err
        | .ok st2 => RefractElementFromValue.loop T rest st2) := by
  induction pre with
  | nil => intro rest st; rfl
  | cons it pre ih =>
    intro rest st
    simp only [List.cons_append]
    rw [RefractElementFromValue.loop, RefractElementFromValue.loop]
    by_cases hk : it.klass = .MemberTypeClass
    · simp only [hk, if_true]
      split
      · rfl
      · cases ExtractTypeSection T it with
        | error err => rfl
        | ok v => exact ih _ _
    · simp only [hk, if_false]
      cases ExtractTypeSection T it with
      | error err => rfl
      | ok v =>
        simp only []
        by_cases hs : it.klass = .SampleClass
        · simp only [hs, if_true]
          exact ih _ _
        · by_cases hd : it.klass = .DefaultClass
          · simp only [hd, reduceCtorEq, if_true, if_false]
            exact ih _ _
          · simp only [hs, hd, if_false]

/-- A section loop that ends without an error has met only MemberType, Sample and Default
sections. -/
theorem RefractElementFromValue_loop_classes (T : ElementType)
    (sections : List mson.TypeSection) :
    ∀ (st st' : SectionState), RefractElementFromValue.loop T sections st = .ok st' →
      ∀ s ∈ sections, s.klass = .MemberTypeClass ∨ s.klass = .SampleClass ∨
        s.klass = .DefaultClass := by
  induction sections with
  | nil => intro st st' _ s hs; cases hs
  | cons it rest ih =>
    intro st st' h s hs
    rw [RefractElementFromValue.loop] at h
    by_cases hk : it.klass = .MemberTypeClass
    · simp only [hk, if_true] at h
      split at h
      · cases h
      · cases hx : ExtractTypeSection T it with
        | error err => simp only [hx] at h; cases h
        | ok v =>
          simp only [hx] at h
          rcases List.mem_cons.mp hs with rfl | hs
          · exact Or.inl hk
          · exact ih _ _ h s hs
    · simp only [hk, if_false] at h
      cases hx : ExtractTypeSection T it with
      | error err => simp only [hx] at h; cases h
      | ok v =>
        simp only [hx] at h
        by_cases hsa : it.klass = .SampleClass
        · simp only [hsa, if_true] at h
          rcases List.mem_cons.mp hs with rfl | hs
          · exact Or.inr (Or.inl hsa)
          · exact ih _ _ h s hs
        · by_cases hd : it.klass = .DefaultClass
          · simp only [hd, reduceCtorEq, if_true, if_false] at h
            rcases List.mem_cons.mp hs with rfl | hs
            · exact Or.inr (Or.inr hd)
            · exact ih _ _ h s hs
          · simp only [hsa, hd, if_false] at h
            cases h

end drafter

namespace drafter

open refract

/-! ### Sections of an unexpected class -/

/-- C16, as stated, fails: on an Array Property whose only section is a BlockDescription
section (which carries no element), the build fails with "Cannot extract values from empty
container", not with the unexpected-section error. -/
theorem C16_counterexample :
    (Scenario.arrayWithDescription.toValueMember.sections.map mson.TypeSection.klass)
      = [.BlockDescriptionClass] ∧
    RefractElementFromValue .ArrayElement Scenario.arrayWithDescription.toValueMember =
      .error (.logic_error "Cannot extract values from empty container") ∧
    MsonPropertyToRefract Scenario.arrayWithDescription =
      .error (.logic_error "Cannot extract values from empty container") ∧
    MsonPropertyToRefract Scenario.arrayWithDescription ≠
      .error (.logic_error "Unexpected section for property") := by
  refine ⟨rfl, rfl, rfl, ?_⟩
  have h : MsonPropertyToRefract Scenario.arrayWithDescription =
      .error (.logic_error "Cannot extract values from empty container") := rfl
  rw [h]
  intro h2
  injection h2 with h3
  injection h3 with h4
  exact absurd h4 (by decide)

/-- C16, amended. A node with a section whose class is neither MemberType, Sample nor Default
never builds, whatever the element kind. When the section loop reaches such a section, the
content of the section is extracted first: the build fails with the unexpected-section error
("Unexpected section for property") when that extraction succeeds, which it always does for
the Boolean, Number and String kinds, and with the error of the extraction otherwise, which is
"Cannot extract values from empty container" for an Array or Object kind and a section without
elements. -/
theorem C16_unexpected_section (T : ElementType) (d : String) (vd : mson.ValueDefinition)
    (pre post : List mson.TypeSection) (s : mson.TypeSection) (e0 : Element)
    (st : SectionState)
    (hk : s.klass ≠ .MemberTypeClass ∧ s.klass ≠ .SampleClass ∧ s.klass ≠ .DefaultClass)
    (hh : RefractElementFromValue.head T d vd = .ok e0)
    (hpre : RefractElementFromValue.loop T pre ⟨e0, [], []⟩ = .ok st) :
    RefractElementFromValue T (.mk d vd (pre ++ s :: post)) =
      (match ExtractTypeSection T s with
      | .error err => .error err
      | .ok _ => .error (.logic_error "Unexpected section for property")) ∧
    (T = .BooleanElement ∨ T = .NumberElement ∨ T = .StringElement →
      RefractElementFromValue T (.mk d vd (pre ++ s :: post)) =
        .error (.logic_error "Unexpected section for property")) ∧
    (T = .ArrayElement ∨ T = .ObjectElement → s.elements = [] →
      RefractElementFromValue T (.mk d vd (pre ++ s :: post)) =
        .error (.logic_error "Cannot extract values from empty container")) ∧
    (∀ (T2 : ElementType) (value : mson.ValueMember), s ∈ value.sections →
      ∀ e, RefractElementFromValue T2 value ≠ .ok e) := by
  have hne : (pre ++ s :: post).isEmpty = false := by cases pre <;> rfl
  have h1 : RefractElementFromValue T (.mk d vd (pre ++ s :: post)) =
      (match ExtractTypeSection T s with
      | .error err => .error err
      | .ok _ => .error (.logic_error "Unexpected section for property")) := by
    rw [RefractElementFromValue_eq]
    simp only [hh, hne, Bool.not_false, if_true, RefractElementFromValue.loop_append, hpre]
    rw [RefractElementFromValue.loop]
    simp only [hk.1, hk.2.1, hk.2.2, if_false]
    cases ExtractTypeSection T s <;> rfl
  refine ⟨h1, fun hT => ?_, fun hT hel => ?_, fun T2 value hs e he => ?_⟩
  · rw [h1]
    obtain ⟨k, ds, v, els⟩ := s
    rcases hT with rfl | rfl | rfl <;> rfl
  · rw [h1]
    obtain ⟨k, ds, v, els⟩ := s
    simp only [mson.TypeSection.elements] at hel
    subst hel
    rcases hT with rfl | rfl <;> rfl
  · obtain ⟨d2, vd2, sections⟩ := value
    simp only [mson.ValueMember.sections] at hs
    rw [RefractElementFromValue_eq] at he
    cases hh2 : RefractElementFromValue.head T2 d2 vd2 with
    | error err => simp only [hh2] at he; cases he
    | ok e1 =>
      simp only [hh2] at he
      have hne2 : sections.isEmpty = false := by
        cases sections with
        | nil => cases hs
        | cons _ _ => rfl
      simp only [hne2, Bool.not_false, if_true] at he
      cases hl : RefractElementFromValue.loop T2 sections ⟨e1, [], []⟩ with
      | error err => simp only [hl] at he; cases he
      | ok st2 =>
        rcases RefractElementFromValue_loop_classes T2 sections _ _ hl s hs with h | h | h
        · exact hk.1 h
        · exact hk.2.1 h
        · exact hk.2.2 h

/-- C16, amended, on a String value member whose only section is a BlockDescription
section: the build fails with the unexpected-section error. -/
theorem C16_unexpected_section_witness :
    RefractElementFromValue .StringElement Scenario.stringWithDescription =
      .error (.logic_error "Unexpected section for property") :=
  (C16_unexpected_section .StringElement "" (Scenario.valueDefinition .StringTypeName ["a"])
    [] [] (.mk .BlockDescriptionClass "text" "" []) _ _
    ⟨by decide, by decide, by decide⟩ rfl rfl).2.1 (Or.inr (Or.inr rfl))

end drafter

namespace drafter

open refract

/-! ### Errors abort the transformation -/

/-- C15. Errors abort the whole transformation. If `MsonElementToRefract` fails on an element
of a top-level section that is not a BlockDescription section, on an alternative of a OneOf,
or on a child of a MemberType section of an Array- or Object-kind node, the enclosing
`ToRefract`, `MsonOneofToRefract`, or Property or Value build fails too, and no element is
returned; the error is that of the failing element, the first one the traversal meets (the
elements before it build, and for a node the section loop reaches the MemberType section with
the content of the node not yet set). -/
theorem C15_errors_abort :
    (∀ (ds : snowcrash.DataStructure) (pre post : List mson.Element) (x : mson.Element)
      (err : Error), ToRefract.members ds.sections = pre ++ x :: post →
      (∀ p ∈ pre, ∃ y, MsonElementToRefract p = .ok y) →
      MsonElementToRefract x = .error err → ToRefract ds = .error err) ∧
    (∀ (ds : snowcrash.DataStructure) (x : mson.Element) (err : Error),
      x ∈ ToRefract.members ds.sections → MsonElementToRefract x = .error err →
      ∃ err2, ToRefract ds = .error err2) ∧
    (∀ (pre post : List mson.Element) (x : mson.Element) (err : Error),
      (∀ p ∈ pre, ∃ y, MsonElementToRefract p = .ok y) →
      MsonElementToRefract x = .error err →
      MsonOneofToRefract (pre ++ x :: post) = .error err ∧
      MsonElementToRefract (.OneOfClass (pre ++ x :: post)) = .error err) ∧
    (∀ (oneOf : List mson.Element) (x : mson.Element) (err : Error),
      x ∈ oneOf → MsonElementToRefract x = .error err →
      ∃ err2, MsonOneofToRefract oneOf = .error err2) ∧
    (∀ (T : ElementType) (name : mson.PropertyName) (d : String) (vd : mson.ValueDefinition)
      (spre spost : List mson.TypeSection) (m : mson.TypeSection) (e0 : Element)
      (st : SectionState) (pre post : List mson.Element) (x : mson.Element) (err : Error),
      T = .ArrayElement ∨ T = .ObjectElement →
      RefractElementFromValue.head T d vd = .ok e0 →
      RefractElementFromValue.loop T spre ⟨e0, [], []⟩ = .ok st →
      st.element.empty = true → m.klass = .MemberTypeClass →
      m.elements = pre ++ x :: post →
      (∀ p ∈ pre, ∃ y, MsonElementToRefract p = .ok y) →
      MsonElementToRefract x = .error err →
      RefractElementFromValue T (.mk d vd (spre ++ m :: spost)) = .error err ∧
      RefractElementFromProperty T (.mk name (.mk d vd (spre ++ m :: spost))) = .error err ∧
      ((vd.typeDefinition.typeSpecification.name.base = .ArrayTypeName ∧ T = .ArrayElement) ∨
        (vd.typeDefinition.typeSpecification.name.base = .ObjectTypeName ∧
          T = .ObjectElement) →
        MsonPropertyToRefract (.mk name (.mk d vd (spre ++ m :: spost))) = .error err)) ∧
    (∀ (T : ElementType) (value : mson.ValueMember) (m : mson.TypeSection) (x : mson.Element)
      (err : Error), T = .ArrayElement ∨ T = .ObjectElement →
      m ∈ value.sections → m.klass = .MemberTypeClass → x ∈ m.elements →
      MsonElementToRefract x = .error err →
      ∀ e, RefractElementFromValue T value ≠ .ok e) := by
  refine ⟨?_, ?_, ?_, ?_, ?_, ?_⟩
  · intro ds pre post x err hm hpre hx
    apply ToRefract_firstError
    rw [hm]
    exact firstError_append_cons pre post x err hpre hx
  · intro ds x err hmem hx
    obtain ⟨err2, h2⟩ := firstError_of_mem _ x err hmem hx
    exact ⟨err2, ToRefract_firstError ds err2 h2⟩
  · intro pre post x err hpre hx
    have h : MsonOneofToRefract (pre ++ x :: post) = .error err := by
      unfold MsonOneofToRefract
      exact MsonOneofToRefract_loop_firstError _ _ err
        (firstError_append_cons pre post x err hpre hx)
    exact ⟨h, by rw [MsonElementToRefract_eq]; exact h⟩
  · intro oneOf x err hmem hx
    obtain ⟨err2, h2⟩ := firstError_of_mem _ x err hmem hx
    exact ⟨err2, by
      unfold MsonOneofToRefract
      exact MsonOneofToRefract_loop_firstError _ _ err2 h2⟩
  · intro T name d vd spre spost m e0 st pre post x err hT hh hpre hempty hk hel hok hx
    have hne : (spre ++ m :: spost).isEmpty = false := by cases spre <;> rfl
    have hext : ExtractTypeSection T m = .error err := by
      apply ExtractTypeSection_firstError T m err hT
      rw [hel]
      exact firstError_append_cons pre post x err hok hx
    have h1 : RefractElementFromValue T (.mk d vd (spre ++ m :: spost)) = .error err := by
      rw [RefractElementFromValue_eq]
      simp only [hh, hne, Bool.not_false, if_true, RefractElementFromValue.loop_append, hpre]
      rw [RefractElementFromValue.loop]
      simp only [hk, if_true, hempty, Bool.not_true, Bool.false_eq_true, if_false, hext]
    have h2 : RefractElementFromProperty T (.mk name (.mk d vd (spre ++ m :: spost))) =
        .error err := by
      rw [RefractElementFromProperty_eq]
      simp only [mson.PropertyMember.toValueMember, h1]
    refine ⟨h1, h2, fun hb => ?_⟩
    unfold MsonPropertyToRefract
    simp only [mson.PropertyMember.toValueMember, mson.ValueMember.valueDefinition]
    rcases hb with ⟨hb, rfl⟩ | ⟨hb, rfl⟩
    · simp only [hb]; exact h2
    · simp only [hb]; exact h2
  · intro T value m x err hT hm _ hx hfail e he
    obtain ⟨v, hv⟩ := RefractElementFromValue_ok_sections T value e he m hm
    obtain ⟨y, hy⟩ := ExtractTypeSection_composite_ok T m v hT hv x hx
    rw [hfail] at hy
    cases hy

/-- C15 on an Object Property whose MemberType section holds a property that builds and then
a value member of declared type Array, which fails with "Unhandled type of ValueMember": the
Property fails with that error. -/
theorem C15_errors_abort_witness :
    MsonElementToRefract (.ValueClass Scenario.arrayValue) =
      .error (.runtime_error "Unhandled type of ValueMember") ∧
    MsonPropertyToRefract Scenario.objectWithBadMember =
      .error (.runtime_error "Unhandled type of ValueMember") :=
  ⟨rfl, (C15_errors_abort.2.2.2.2.1 .ObjectElement (Scenario.propertyName "o") ""
    (Scenario.valueDefinition .ObjectTypeName []) [] []
    (.mk .MemberTypeClass "" "" [.PropertyClass Scenario.count, .ValueClass Scenario.arrayValue])
    _ _ [.PropertyClass Scenario.count] [] (.ValueClass Scenario.arrayValue) _
    (Or.inr rfl) rfl rfl rfl rfl rfl
    (by
      intro p hp
      rw [List.mem_singleton.mp hp]
      exact ⟨_, rfl⟩)
    rfl).2.2 (Or.inr ⟨rfl, rfl⟩)⟩

end drafter

namespace libc

/-! ### Facts about characters and the pieces of `atof` -/

theorem isDigit_toNat (c : Char) (h : c.isDigit = true) : 48 ≤ c.toNat ∧ c.toNat ≤ 57 := by
  simp only [Char.isDigit, Bool.and_eq_true, decide_eq_true_eq] at h
  obtain ⟨h1, h2⟩ := h
  have h1' : (48 : UInt32).toNat ≤ c.val.toNat := UInt32.le_def.mp h1
  have h2' : c.val.toNat ≤ (57 : UInt32).toNat := UInt32.le_def.mp h2
  exact ⟨h1', h2'⟩

theorem toLower_of_lt (c : Char) (h : c.toNat < 65) : c.toLower = c := by
  show (if c.toNat ≥ 65 ∧ c.toNat ≤ 90 then Char.ofNat (c.toNat + 32) else c) = c
  rw [if_neg (by omega)]

theorem isspace_of_ge (c : Char) (h : 33 ≤ c.toNat) : isspace c = false := by
  unfold isspace
  have h1 : (c.toNat == 32) = false := by
    rw [beq_eq_false_iff_ne]; omega
  have h2 : decide (c.toNat ≤ 13) = false := by
    rw [decide_eq_false_iff_not]; omega
  simp [h1, h2]

theorem ne_of_toNat_ne {c d : Char} (h : c.toNat ≠ d.toNat) : c ≠ d :=
  fun hcd => h (congrArg Char.toNat hcd)

/-- The digits at the head of a text that goes on with a character that is no digit. -/
theorem span_isDigit (ds rest : List Char) (hds : ∀ c ∈ ds, c.isDigit = true)
    (hrest : ∀ c r, rest = c :: r → c.isDigit = false) :
    (ds ++ rest).span Char.isDigit = (ds, rest) := by
  induction ds with
  | nil =>
    cases rest with
    | nil => rfl
    | cons c r => simp [List.span, List.span.loop, hrest c r rfl]
  | cons d ds ih =>
    have hd := hds d (List.mem_cons_self _ _)
    have := ih (fun c hc => hds c (List.mem_cons_of_mem _ hc))
    rw [List.span_eq_take_drop] at this ⊢
    simp only [List.cons_append, List.takeWhile_cons, hd, if_true, List.dropWhile_cons,
      Prod.mk.injEq, List.cons.injEq, true_and] at this ⊢
    exact this

end libc

namespace libc

theorem startsWithCI_cons_false (w0 c : Char) (w t : List Char) (h : c.toLower ≠ w0) :
    startsWithCI (w0 :: w) (c :: t) = false := by
  simp [startsWithCI, h]

theorem startsWithCI_second_false (w0 w1 c0 c1 : Char) (t : List Char)
    (h : c1.toLower ≠ w1) : startsWithCI [w0, w1] (c0 :: c1 :: t) = false := by
  simp [startsWithCI, h]

theorem startsWithCI_short (w0 w1 c0 : Char) : startsWithCI [w0, w1] [c0] = false := by
  simp [startsWithCI]

/-- The fraction part of a plain decimal numeral, as text. -/
theorem decimalConstant_plain (ip fp : List Char) (hip : ip ≠ [])
    (hd1 : ∀ c ∈ ip, c.isDigit = true) (hd2 : ∀ c ∈ fp, c.isDigit = true) :
    decimalConstant (ip ++ (if fp.isEmpty then [] else '.' :: fp)) =
      some (roundBinary64 (decValue (ip ++ fp)) (10 ^ fp.length)) := by
  have hipe : ip.isEmpty = false := by
    cases ip with
    | nil => exact absurd rfl hip
    | cons _ _ => rfl
  unfold decimalConstant
  cases fp with
  | nil =>
    have hspan : (ip ++ ([] : List Char)).span Char.isDigit = (ip, []) :=
      span_isDigit ip [] hd1 (fun c r h => by cases h)
    simp only [List.isEmpty_nil, if_true, hspan, hipe, Bool.false_and, Bool.false_eq_true,
      if_false, exponentPart, List.length_nil, Int.Nat.cast_ofNat_Int, Int.sub_self,
      Option.some.injEq]
    simp [scaled]
  | cons f fp =>
    have hspan : (ip ++ '.' :: f :: fp).span Char.isDigit = (ip, '.' :: f :: fp) :=
      span_isDigit ip _ hd1 (fun c r h => by
        cases h
        decide)
    have hspan2 : (f :: fp).span Char.isDigit = (f :: fp, []) := by
      have := span_isDigit (f :: fp) [] hd2 (fun c r h => by cases h)
      simpa using this
    simp only [List.isEmpty_cons, Bool.false_eq_true, if_false, hspan, beq_self_eq_true,
      if_true, hspan2, hipe, Bool.false_and, exponentPart, Option.some.injEq]
    unfold scaled
    have hneg : ¬ (0 : Int) ≤ 0 - ((f :: fp).length : Int) := by
      simp only [List.length_cons]
      omega
    rw [if_neg hneg]
    congr 2

end libc

namespace libc

/-- The magnitude `atof` reads from the unsigned part of a plain decimal numeral. -/
theorem magnitude_plain (ip fp : List Char) (hip : ip ≠ [])
    (hd1 : ∀ c ∈ ip, c.isDigit = true) (hd2 : ∀ c ∈ fp, c.isDigit = true) :
    magnitude (ip ++ (if fp.isEmpty then [] else '.' :: fp)) =
      some (roundBinary64 (decValue (ip ++ fp)) (10 ^ fp.length)) := by
  have hdec := decimalConstant_plain ip fp hip hd1 hd2
  have hlow : ∀ c : Char, c.isDigit = true → c.toLower = c ∧ c.toNat ≤ 57 :=
    fun c hc => ⟨toLower_of_lt c (by have := isDigit_toNat c hc; omega), (isDigit_toNat c hc).2⟩
  have hne : ∀ (c w : Char), c.isDigit = true → 58 ≤ w.toNat → c.toLower ≠ w := by
    intro c w hc hw
    rw [(hlow c hc).1]
    exact ne_of_toNat_ne (by have := (hlow c hc).2; omega)
  obtain ⟨c0, ip', rfl⟩ : ∃ c0 ip', ip = c0 :: ip' := by
    cases ip with
    | nil => exact absurd rfl hip
    | cons c0 ip' => exact ⟨c0, ip', rfl⟩
  have hc0 := hd1 c0 (List.mem_cons_self _ _)
  have hinf : startsWithCI ['i', 'n', 'f']
      (c0 :: ip' ++ (if fp.isEmpty then [] else '.' :: fp)) = false :=
    startsWithCI_cons_false _ _ _ _ (hne c0 'i' hc0 (by decide))
  have hnan : startsWithCI ['n', 'a', 'n']
      (c0 :: ip' ++ (if fp.isEmpty then [] else '.' :: fp)) = false :=
    startsWithCI_cons_false _ _ _ _ (hne c0 'n' hc0 (by decide))
  have hhex : startsWithCI ['0', 'x']
      (c0 :: ip' ++ (if fp.isEmpty then [] else '.' :: fp)) = false := by
    cases ip' with
    | nil =>
      cases fp with
      | nil => exact startsWithCI_short _ _ _
      | cons f fp => exact startsWithCI_second_false _ _ _ _ _ (by decide)
    | cons c1 ip'' =>
      exact startsWithCI_second_false _ _ _ _ _
        (hne c1 'x' (hd1 c1 (List.mem_cons_of_mem _ (List.mem_cons_self _ _))) (by decide))
  unfold magnitude hexConstant
  simp only [hinf, hnan, hhex, Bool.false_eq_true, if_false, hdec]

/-- `atof` on a plain decimal numeral: the number it denotes, rounded to binary64. -/
theorem atof_decimalNumeral (negative : Bool) (ip fp : List Char) (hip : ip ≠ [])
    (hd1 : ∀ c ∈ ip, c.isDigit = true) (hd2 : ∀ c ∈ fp, c.isDigit = true) :
    atof (decimalNumeral negative ip fp) =
      (roundBinary64 (decValue (ip ++ fp)) (10 ^ fp.length)).withSign negative := by
  have hmag := magnitude_plain ip fp hip hd1 hd2
  obtain ⟨c0, ip', rfl⟩ : ∃ c0 ip', ip = c0 :: ip' := by
    cases ip with
    | nil => exact absurd rfl hip
    | cons c0 ip' => exact ⟨c0, ip', rfl⟩
  have hc0 := isDigit_toNat c0 (hd1 c0 (List.mem_cons_self _ _))
  -- no character of the numeral is the NUL character
  have hnul : ∀ c ∈ (if negative then ['-'] else []) ++ (c0 :: ip') ++
      (if fp.isEmpty then [] else '.' :: fp), (c.toNat != 0) = true := by
    intro c hc
    have h33 : 33 ≤ c.toNat := by
      simp only [List.mem_append] at hc
      rcases hc with (hc | hc) | hc
      · cases negative
        · simp at hc
        · simp only [if_true, List.mem_singleton] at hc
          subst hc
          decide
      · have := isDigit_toNat c (hd1 c hc)
        omega
      · cases hfp : fp.isEmpty
        · simp only [hfp, Bool.false_eq_true, if_false, List.mem_cons] at hc
          rcases hc with rfl | hc
          · decide
          · have := isDigit_toNat c (hd2 c hc)
            omega
        · simp [hfp] at hc
    simp only [bne_iff_ne, ne_eq]
    omega
  unfold atof decimalNumeral
  show atofChars (List.takeWhile (fun c => c.toNat != 0)
    ((if negative then ['-'] else []) ++ (c0 :: ip') ++
      (if fp.isEmpty then [] else '.' :: fp))) = _
  rw [List.takeWhile_eq_self_iff.mpr hnul]
  unfold atofChars
  cases negative with
  | true =>
    have hsp : isspace '-' = false := by decide
    simp only [if_true, List.singleton_append, List.cons_append, List.dropWhile_cons, hsp,
      Bool.false_eq_true, if_false, beq_self_eq_true]
    rw [List.nil_append, hmag]
    rfl
  | false =>
    have hsp : isspace c0 = false := isspace_of_ge c0 (by omega)
    have hm : (c0 == '-') = false := by
      rw [beq_eq_false_iff_ne]
      exact ne_of_toNat_ne (by
        have : ('-' : Char).toNat = 45 := by decide
        omega)
    have hp : (c0 == '+') = false := by
      rw [beq_eq_false_iff_ne]
      exact ne_of_toNat_ne (by
        have : ('+' : Char).toNat = 43 := by decide
        omega)
    simp only [Bool.false_eq_true, if_false, List.nil_append, List.cons_append,
      List.dropWhile_cons, hsp, hm, hp]
    rw [show c0 :: (ip' ++ if fp.isEmpty = true then [] else '.' :: fp) =
      c0 :: ip' ++ (if fp.isEmpty then [] else '.' :: fp) from rfl, hmag]
    rfl

end libc

namespace libc

/-! ### Rounding to binary64 -/

/-- `roundBinary64` in its two steps. -/
theorem roundBinary64_eq (n d : Nat) :
    roundBinary64 n d =
      if n = 0 then .finite 0 else roundAt n d (max (binaryExponent n d) (-1022) - 52) := by
  rfl

theorem log2Fuel_pow_le (fuel : Nat) : ∀ n : Nat, 1 ≤ n → 2 ^ log2Fuel fuel n ≤ n := by
  induction fuel with
  | zero => intro n h; simpa [log2Fuel] using h
  | succ fuel ih =>
    intro n h
    rw [log2Fuel]
    split
    · simpa using h
    · rename_i hn
      have h2 : 1 ≤ n / 2 := by omega
      have := ih (n / 2) h2
      rw [pow_succ]
      omega

theorem log2Fuel_lt_pow (fuel : Nat) : ∀ n : Nat, n ≤ fuel → n < 2 ^ (log2Fuel fuel n + 1) := by
  induction fuel with
  | zero => intro n h; simp [log2Fuel]; omega
  | succ fuel ih =>
    intro n h
    rw [log2Fuel]
    split
    · simp; omega
    · rename_i hn
      have h2 : n / 2 ≤ fuel := by omega
      have := ih (n / 2) h2
      rw [pow_succ]
      omega

theorem pow_log2_le (n : Nat) (h : 1 ≤ n) : 2 ^ log2 n ≤ n := log2Fuel_pow_le n n h

theorem lt_pow_log2 (n : Nat) : n < 2 ^ (log2 n + 1) := log2Fuel_lt_pow n n (le_refl n)

end libc

namespace libc


/-- The exponent computed for `n / d` is not above the true one: `2 ^ e ≤ n / d`. -/
theorem binaryExponent_spec (n d : Nat) (hn : 1 ≤ n) :
    (0 ≤ binaryExponent n d → d * 2 ^ (binaryExponent n d).toNat ≤ n) ∧
    (binaryExponent n d < 0 → d ≤ n * 2 ^ (-binaryExponent n d).toNat) := by
  have h1 := pow_log2_le n hn
  have h2 := lt_pow_log2 d
  unfold binaryExponent
  simp only []
  by_cases h0 : (0 : Int) ≤ (log2 n : Int) - (log2 d : Int)
  · simp only [h0, if_true]
    have e1 : ((log2 n : Int) - (log2 d : Int)).toNat = log2 n - log2 d := by omega
    by_cases hc : d * 2 ^ ((log2 n : Int) - (log2 d : Int)).toNat ≤ n
    · rw [if_pos hc]
      exact ⟨fun _ => hc, fun h => by omega⟩
    · rw [if_neg hc]
      by_cases hz : log2 n = log2 d
      · refine ⟨fun h => by omega, fun _ => ?_⟩
        have e2 : (-((log2 n : Int) - (log2 d : Int) - 1)).toNat = 1 := by omega
        have e4 : 2 ^ (log2 d + 1) = 2 * 2 ^ log2 d := by rw [pow_succ, Nat.mul_comm]
        rw [e2]
        rw [hz] at h1
        omega
      · refine ⟨fun _ => ?_, fun h => by omega⟩
        have e2 : ((log2 n : Int) - (log2 d : Int) - 1).toNat = log2 n - log2 d - 1 := by omega
        rw [e2]
        have e3 : log2 n = (log2 d + 1) + (log2 n - log2 d - 1) := by omega
        have h3 : d * 2 ^ (log2 n - log2 d - 1) ≤
            2 ^ (log2 d + 1) * 2 ^ (log2 n - log2 d - 1) :=
          Nat.mul_le_mul_right _ (Nat.le_of_lt h2)
        rw [← pow_add, ← e3] at h3
        exact le_trans h3 h1
  · simp only [h0, if_false]
    have e1 : (-((log2 n : Int) - (log2 d : Int))).toNat = log2 d - log2 n := by omega
    by_cases hc : d ≤ n * 2 ^ (-((log2 n : Int) - (log2 d : Int))).toNat
    · rw [if_pos hc]
      exact ⟨fun h => by omega, fun _ => hc⟩
    · rw [if_neg hc]
      refine ⟨fun h => by omega, fun _ => ?_⟩
      have e2 : (-((log2 n : Int) - (log2 d : Int) - 1)).toNat = log2 d - log2 n + 1 := by
        omega
      rw [e2]
      have e3 : log2 d + 1 = log2 n + (log2 d - log2 n + 1) := by omega
      have h3 : 2 ^ log2 n * 2 ^ (log2 d - log2 n + 1) ≤ n * 2 ^ (log2 d - log2 n + 1) :=
        Nat.mul_le_mul_right _ h1
      rw [← pow_add, ← e3] at h3
      exact le_trans (Nat.le_of_lt h2) h3

end libc

namespace libc

/-- The exponent computed for `n / d` is below every power of two that bounds `n / d`. -/
theorem binaryExponent_lt (n d x y : Nat) (hn : 1 ≤ n) (h : n * 2 ^ y < 2 ^ x * d) :
    binaryExponent n d < (x : Int) - y := by
  obtain ⟨hA, hB⟩ := binaryExponent_spec n d hn
  by_contra hge
  by_cases h0 : 0 ≤ binaryExponent n d
  · have hk := hA h0
    have hxy : x ≤ (binaryExponent n d).toNat + y := by omega
    have h1 : d * 2 ^ x ≤ d * 2 ^ ((binaryExponent n d).toNat + y) :=
      Nat.mul_le_mul_left _ (Nat.pow_le_pow_right (by decide) hxy)
    have h2 : d * 2 ^ ((binaryExponent n d).toNat + y) ≤ n * 2 ^ y := by
      rw [pow_add, ← Nat.mul_assoc]
      exact Nat.mul_le_mul_right _ hk
    have h3 : 2 ^ x * d = d * 2 ^ x := Nat.mul_comm _ _
    omega
  · have hk := hB (by omega)
    have hxy : x + (-binaryExponent n d).toNat ≤ y := by omega
    have h1 : d * 2 ^ x ≤ n * 2 ^ (-binaryExponent n d).toNat * 2 ^ x :=
      Nat.mul_le_mul_right _ hk
    have h2 : n * 2 ^ (-binaryExponent n d).toNat * 2 ^ x ≤ n * 2 ^ y := by
      rw [Nat.mul_assoc, ← pow_add]
      exact Nat.mul_le_mul_left _ (Nat.pow_le_pow_right (by decide) (by omega))
    have h3 : 2 ^ x * d = d * 2 ^ x := Nat.mul_comm _ _
    omega

/-- Rounding to a multiple of `2 ^ p` leaves a multiple of `2 ^ p` below `2 ^ 1024` as it
is: here `n / d = m * 2 ^ a / 2 ^ b` and `p ≤ a - b`. -/
theorem roundAt_exact (n d m a b : Nat) (p : Int) (hd : 0 < d)
    (hrep : n * 2 ^ b = m * 2 ^ a * d) (hp : p ≤ (a : Int) - b) (hof : n < 2 ^ 1024 * d) :
    roundAt n d p = .finite ((n : ℚ) / d) := by
  have hdq : (d : ℚ) ≠ 0 := by exact_mod_cast (Nat.pos_iff_ne_zero.mp hd)
  unfold roundAt
  by_cases h0 : 0 ≤ p
  · -- p = k ≥ 0 and a = b + k + j
    obtain ⟨k, rfl⟩ : ∃ k : Nat, p = k := ⟨p.toNat, by omega⟩
    obtain ⟨j, rfl⟩ : ∃ j : Nat, a = b + k + j := ⟨a - b - k, by omega⟩
    have hn : n = d * 2 ^ k * (m * 2 ^ j) := by
      have : n * 2 ^ b = d * 2 ^ k * (m * 2 ^ j) * 2 ^ b := by
        rw [hrep, pow_add, pow_add]; ring
      exact Nat.eq_of_mul_eq_mul_right (by positivity) this
    have hD : 0 < d * 2 ^ k := by positivity
    have hmod : n % (d * 2 ^ k) = 0 := by rw [hn]; exact Nat.mul_mod_right _ _
    have hdiv : n / (d * 2 ^ k) = m * 2 ^ j := by
      rw [hn]; exact Nat.mul_div_cancel_left _ hD
    have hlt : m * 2 ^ j * 2 ^ k < 2 ^ 1024 := by
      have : m * 2 ^ j * 2 ^ k * d < 2 ^ 1024 * d := by
        calc m * 2 ^ j * 2 ^ k * d = d * 2 ^ k * (m * 2 ^ j) := by ring
          _ = n := hn.symm
          _ < 2 ^ 1024 * d := hof
      exact Nat.lt_of_mul_lt_mul_right this
    simp only [h0, if_true, Int.toNat_ofNat, hmod, Nat.mul_zero, hD, hdiv,
      Nat.not_le.mpr hlt, if_false]
    congr 1
    rw [hn]
    push_cast
    field_simp
    ring
  · -- p = -k < 0 and a + k = b + j
    obtain ⟨k, hk⟩ : ∃ k : Nat, p = -(k : Int) := ⟨(-p).toNat, by omega⟩
    subst hk
    obtain ⟨j, hj⟩ : ∃ j : Nat, a + k = b + j := ⟨a + k - b, by omega⟩
    have hn : n * 2 ^ k = d * (m * 2 ^ j) := by
      have : n * 2 ^ k * 2 ^ b = d * (m * 2 ^ j) * 2 ^ b := by
        calc n * 2 ^ k * 2 ^ b = n * 2 ^ b * 2 ^ k := by ring
          _ = m * 2 ^ a * d * 2 ^ k := by rw [hrep]
          _ = d * m * 2 ^ (a + k) := by rw [pow_add]; ring
          _ = d * (m * 2 ^ j) * 2 ^ b := by rw [hj, pow_add]; ring
      exact Nat.eq_of_mul_eq_mul_right (by positivity) this
    have hmod : n * 2 ^ k % d = 0 := by rw [hn]; exact Nat.mul_mod_right _ _
    have hdiv : n * 2 ^ k / d = m * 2 ^ j := by
      rw [hn]; exact Nat.mul_div_cancel_left _ hd
    have e1 : (- -(k : Int)).toNat = k := by omega
    simp only [h0, if_false, e1, hmod, Nat.mul_zero, hd, if_true, hdiv]
    congr 1
    rw [Rat.mkRat_eq_div]
    have hq : (n : ℚ) * 2 ^ k = d * (m * 2 ^ j) := by exact_mod_cast hn
    push_cast
    field_simp
    linarith

/-- A number that is a binary64 value is left as it is by `roundBinary64`: here
`n / d = m * 2 ^ a / 2 ^ b` with `m < 2 ^ 53`, `b ≤ 1074` and `n / d < 2 ^ 1024`. -/
theorem roundBinary64_exact (n d m a b : Nat) (hd : 0 < d) (hm : m < 2 ^ 53)
    (hb : b ≤ 1074) (hrep : n * 2 ^ b = m * 2 ^ a * d) (hof : n < 2 ^ 1024 * d) :
    roundBinary64 n d = .finite ((n : ℚ) / d) := by
  rw [roundBinary64_eq]
  by_cases hn : n = 0
  · simp [hn]
  · rw [if_neg hn]
    apply roundAt_exact n d m a b _ hd hrep _ hof
    have hlt : n * 2 ^ b < 2 ^ (53 + a) * d := by
      rw [hrep, pow_add]
      have : m * 2 ^ a < 2 ^ 53 * 2 ^ a := Nat.mul_lt_mul_of_pos_right hm (by positivity)
      exact Nat.mul_lt_mul_of_pos_right this hd
    have he := binaryExponent_lt n d (53 + a) b (by omega) hlt
    have : max (binaryExponent n d) (-1022) ≤ (a : Int) - b + 52 := by
      apply max_le <;> push_cast at he <;> omega
    omega

end libc

namespace libc

theorem toLower_ne_zero (c : Char) (h : c.isDigit = false) : c.toLower ≠ '0' := by
  by_cases hu : 65 ≤ c.toNat ∧ c.toNat ≤ 90
  · have hc : c = Char.ofNat c.toNat := (Char.ofNat_toNat c).symm
    obtain ⟨h1, h2⟩ := hu
    generalize hk : c.toNat = k at hc h1 h2
    subst hc
    interval_cases k <;> decide
  · have : c.toLower = c := by
      show (if c.toNat ≥ 65 ∧ c.toNat ≤ 90 then Char.ofNat (c.toNat + 32) else c) = c
      rw [if_neg hu]
    rw [this]
    intro h0
    rw [h0] at h
    exact absurd h (by decide)

/-- No conversion is performed on a text that starts with a character other than a digit,
a point, and the initials of "inf" and "nan". -/
theorem magnitude_none (cs : List Char)
    (h : cs = [] ∨ ∃ c r, cs = c :: r ∧ c.isDigit = false ∧ c ≠ '.' ∧
      c.toLower ≠ 'i' ∧ c.toLower ≠ 'n') :
    magnitude cs = none := by
  rcases h with rfl | ⟨c, r, rfl, hd, hp, hi, hn⟩
  · rfl
  · have hinf := startsWithCI_cons_false 'i' c ['n', 'f'] r hi
    have hnan := startsWithCI_cons_false 'n' c ['a', 'n'] r hn
    have hhex := startsWithCI_cons_false '0' c ['x'] r (toLower_ne_zero c hd)
    have hp2 : (c == '.') = false := by simpa using hp
    unfold magnitude hexConstant decimalConstant
    simp only [hinf, hnan, hhex, Bool.false_eq_true, if_false]
    have hspan : (c :: r).span Char.isDigit = ([], c :: r) := by
      simp [List.span, List.span.loop, hd]
    simp only [hspan, hp2, Bool.false_eq_true, if_false, List.isEmpty_nil, Bool.and_self,
      if_true]

end libc

namespace libc

end libc

namespace drafter

open refract

/-! ### Number coercion -/

/-- C19, as stated, fails: "0.1" is a valid decimal numeral that denotes 1/10, and
`LiteralTo<double>` returns the binary64 value nearest to it, which is another number. -/
theorem C19_counterexample :
    libc.decimalNumeral false ['0'] ['1'] = "0.1" ∧
    libc.decimalValue false ['0'] ['1'] = 1 / 10 ∧
    LiteralTo_double "0.1" = .finite (mkRat 3602879701896397 36028797018963968) ∧
    LiteralTo_double "0.1" ≠ .finite (libc.decimalValue false ['0'] ['1']) := by
  have hv : libc.decimalValue false ['0'] ['1'] = 1 / 10 := by
    have e : libc.decValue (['0'] ++ ['1']) = 1 := by decide
    rw [libc.decimalValue, e]
    norm_num
  have h : LiteralTo_double "0.1" =
      .finite (mkRat 3602879701896397 36028797018963968) := rfl
  refine ⟨rfl, hv, h, ?_⟩
  rw [h, hv]
  intro h2
  injection h2 with h3
  rw [Rat.mkRat_eq_div] at h3
  norm_num at h3

/-- C19, amended. For every valid decimal numeral (an optional minus sign, digits and
optionally a point followed by digits), `LiteralTo<double>` returns the number the numeral
denotes rounded to binary64 (to nearest, ties to even); this is exactly the denoted number
whenever that number is a binary64 value: its magnitude `n / 10 ^ k` (`n` the value of the
digits, `k` the number of fraction digits) is `m * 2 ^ a / 2 ^ b` for some `m < 2 ^ 53` and
`b ≤ 1074`, and it is below `2 ^ 1024`. -/
theorem C19_number_coercion_rounds (negative : Bool) (ip fp : List Char) (hip : ip ≠ [])
    (hd1 : ∀ c ∈ ip, c.isDigit = true) (hd2 : ∀ c ∈ fp, c.isDigit = true) :
    LiteralTo_double (libc.decimalNumeral negative ip fp) =
      (libc.roundBinary64 (libc.decValue (ip ++ fp)) (10 ^ fp.length)).withSign negative ∧
    (∀ m a b : Nat, m < 2 ^ 53 → b ≤ 1074 →
      libc.decValue (ip ++ fp) * 2 ^ b = m * 2 ^ a * 10 ^ fp.length →
      libc.decValue (ip ++ fp) < 2 ^ 1024 * 10 ^ fp.length →
      LiteralTo_double (libc.decimalNumeral negative ip fp) =
        .finite (libc.decimalValue negative ip fp)) := by
  have h1 := libc.atof_decimalNumeral negative ip fp hip hd1 hd2
  refine ⟨h1, fun m a b hm hb hrep hof => ?_⟩
  have hd : 0 < 10 ^ fp.length := by positivity
  unfold LiteralTo_double
  rw [h1, libc.roundBinary64_exact _ _ m a b hd hm hb hrep hof]
  cases negative <;> simp [libc.Double.withSign, libc.decimalValue]

/-- C19, amended, on the examples "42", "-3" and "1.5": each is coerced to exactly the number
it denotes. -/
theorem C19_number_coercion_rounds_witness :
    LiteralTo_double "42" = .finite 42 ∧ LiteralTo_double "-3" = .finite (-3) ∧
    LiteralTo_double "1.5" = .finite (3 / 2) := by
  have e42 : libc.decValue (['4', '2'] ++ []) = 42 := by decide
  have e3 : libc.decValue (['3'] ++ []) = 3 := by decide
  have e15 : libc.decValue (['1'] ++ ['5']) = 15 := by decide
  have h42 := (C19_number_coercion_rounds false ['4', '2'] [] (by decide) (by decide)
    (by decide)).2 21 1 0 (by norm_num) (by norm_num)
    (by rw [e42]; norm_num) (by rw [e42]; norm_num)
  have h3 := (C19_number_coercion_rounds true ['3'] [] (by decide) (by decide)
    (by decide)).2 3 0 0 (by norm_num) (by norm_num)
    (by rw [e3]; norm_num) (by rw [e3]; norm_num)
  have h15 := (C19_number_coercion_rounds false ['1'] ['5'] (by decide) (by decide)
    (by decide)).2 3 0 1 (by norm_num) (by norm_num)
    (by rw [e15]; norm_num) (by rw [e15]; norm_num)
  refine ⟨?_, ?_, ?_⟩
  · rw [show ("42" : String) = libc.decimalNumeral false ['4', '2'] [] from rfl, h42,
      libc.decimalValue, e42]
    norm_num
  · rw [show ("-3" : String) = libc.decimalNumeral true ['3'] [] from rfl, h3,
      libc.decimalValue, e3]
    norm_num
  · rw [show ("1.5" : String) = libc.decimalNumeral false ['1'] ['5'] from rfl, h15,
      libc.decimalValue, e15]
    norm_num

end drafter

namespace drafter

open refract

/-! ### Composite value extraction -/

/-- The composite extraction with a given factory: one leaf per literal, in order. -/
theorem ExtractValues.composite_of_factory (vd : mson.ValueDefinition) (hv : vd.values ≠ [])
    (f : String → Element)
    (hf : FactoryFromType
      (if vd.typeDefinition.typeSpecification.nestedTypes.length = 1 then
        (vd.typeDefinition.typeSpecification.nestedTypes.headD
          ⟨.StringTypeName, ⟨"", false⟩⟩).base
      else .StringTypeName) = .ok f) :
    ExtractValues.composite vd = .ok (vd.values.map fun v => f v.literal) := by
  have hne : vd.values.isEmpty = false := by
    cases hl : vd.values with
    | nil => exact absurd hl hv
    | cons _ _ => rfl
  unfold ExtractValues.composite
  simp only [hne, Bool.false_eq_true, if_false, hf]
  rfl

/-- The composite extraction with a factory that is out of scope. -/
theorem ExtractValues.composite_of_error (vd : mson.ValueDefinition) (hv : vd.values ≠ [])
    (err : Error)
    (hf : FactoryFromType
      (if vd.typeDefinition.typeSpecification.nestedTypes.length = 1 then
        (vd.typeDefinition.typeSpecification.nestedTypes.headD
          ⟨.StringTypeName, ⟨"", false⟩⟩).base
      else .StringTypeName) = .error err) :
    ExtractValues.composite vd = .error err := by
  have hne : vd.values.isEmpty = false := by
    cases hl : vd.values with
    | nil => exact absurd hl hv
    | cons _ _ => rfl
  unfold ExtractValues.composite
  simp only [hne, Bool.false_eq_true, if_false, hf]

/-- C21, as stated, fails: for the Array value definition with the literals "a", "b" and the
single nested type name Object, the extraction fails with "Out of scope - this should never
happen": there is no result, hence no leaf of the kind of the nested type name. -/
theorem C21_counterexample :
    (Scenario.arrayOf .ObjectTypeName ["a", "b"]).values.length = 2 ∧
    (Scenario.arrayOf .ObjectTypeName ["a", "b"]).typeDefinition.typeSpecification.nestedTypes.map
      (fun t => t.base) = [.ObjectTypeName] ∧
    ExtractValues .ArrayElement (Scenario.arrayOf .ObjectTypeName ["a", "b"]) =
      .error (.logic_error "Out of scope - this should never happen") ∧
    ExtractValues .ObjectElement (Scenario.arrayOf .ObjectTypeName ["a", "b"]) =
      .error (.logic_error "Out of scope - this should never happen") ∧
    ¬ ∃ v, ExtractValues .ArrayElement (Scenario.arrayOf .ObjectTypeName ["a", "b"]) = .ok v := by
  refine ⟨rfl, rfl, rfl, rfl, ?_⟩
  rintro ⟨v, hv⟩
  have h : ExtractValues .ArrayElement (Scenario.arrayOf .ObjectTypeName ["a", "b"]) =
      .error (.logic_error "Out of scope - this should never happen") := rfl
  rw [h] at hv
  cases hv

/-- C21, amended. For a value definition with a non-empty list of `n` literals, the
extraction for an Array or Object target returns exactly `n` leaf elements in the order of the
literals, the i-th leaf holding the coercion of the i-th literal; every leaf has the kind of
the single declared nested type name when exactly one nested type name is declared and it is
Boolean, Number or String, and String kind when zero or more than one nested type names are
declared. -/
theorem C21_composite_extraction (vd : mson.ValueDefinition) (hv : vd.values ≠ []) :
    (∀ t : mson.TypeName, vd.typeDefinition.typeSpecification.nestedTypes = [t] →
      (t.base = .BooleanTypeName →
        ExtractValues .ArrayElement vd = .ok (.array (vd.values.map fun v =>
          .mk "" true false [] [] (.boolean (LiteralTo_bool v.literal)))) ∧
        ExtractValues .ObjectElement vd = .ok (.object (vd.values.map fun v =>
          .mk "" true false [] [] (.boolean (LiteralTo_bool v.literal))))) ∧
      (t.base = .NumberTypeName →
        ExtractValues .ArrayElement vd = .ok (.array (vd.values.map fun v =>
          .mk "" true false [] [] (.number (LiteralTo_double v.literal)))) ∧
        ExtractValues .ObjectElement vd = .ok (.object (vd.values.map fun v =>
          .mk "" true false [] [] (.number (LiteralTo_double v.literal))))) ∧
      (t.base = .StringTypeName →
        ExtractValues .ArrayElement vd = .ok (.array (vd.values.map fun v =>
          .mk "" true false [] [] (.string (LiteralTo_string v.literal)))) ∧
        ExtractValues .ObjectElement vd = .ok (.object (vd.values.map fun v =>
          .mk "" true false [] [] (.string (LiteralTo_string v.literal)))))) ∧
    (vd.typeDefinition.typeSpecification.nestedTypes.length ≠ 1 →
      ExtractValues .ArrayElement vd = .ok (.array (vd.values.map fun v =>
        .mk "" true false [] [] (.string (LiteralTo_string v.literal)))) ∧
      ExtractValues .ObjectElement vd = .ok (.object (vd.values.map fun v =>
        .mk "" true false [] [] (.string (LiteralTo_string v.literal))))) ∧
    (∀ (T : ElementType) (v : Value), T = .ArrayElement ∨ T = .ObjectElement →
      ExtractValues T vd = .ok v →
      (Element.mk "" true false [] [] v).children.length = vd.values.length) := by
  have key : ∀ f : String → Element,
      FactoryFromType
        (if vd.typeDefinition.typeSpecification.nestedTypes.length = 1 then
          (vd.typeDefinition.typeSpecification.nestedTypes.headD
            ⟨.StringTypeName, ⟨"", false⟩⟩).base
        else .StringTypeName) = .ok f →
      ExtractValues .ArrayElement vd = .ok (.array (vd.values.map fun v => f v.literal)) ∧
      ExtractValues .ObjectElement vd = .ok (.object (vd.values.map fun v => f v.literal)) := by
    intro f hf
    simp only [ExtractValues, ExtractValues.composite_of_factory vd hv f hf]
    exact ⟨rfl, rfl⟩
  refine ⟨fun t hn => ⟨fun ht => ?_, fun ht => ?_, fun ht => ?_⟩, fun hn => ?_,
    fun T v hT hx => ?_⟩
  · exact key bef (by simp only [hn, List.length_singleton, if_true, List.headD_cons, ht]; rfl)
  · exact key nef (by simp only [hn, List.length_singleton, if_true, List.headD_cons, ht]; rfl)
  · exact key sef (by simp only [hn, List.length_singleton, if_true, List.headD_cons, ht]; rfl)
  · exact key sef (by simp only [hn, if_false]; rfl)
  · have hc : ∃ r, ExtractValues.composite vd = .ok r ∧ r.length = vd.values.length := by
      have hne : vd.values.isEmpty = false := by
        cases hl : vd.values with
        | nil => exact absurd hl hv
        | cons _ _ => rfl
      cases hf : FactoryFromType
        (if vd.typeDefinition.typeSpecification.nestedTypes.length = 1 then
          (vd.typeDefinition.typeSpecification.nestedTypes.headD
            ⟨.StringTypeName, ⟨"", false⟩⟩).base
        else .StringTypeName) with
      | error err =>
        have he := ExtractValues.composite_of_error vd hv err hf
        rcases hT with rfl | rfl <;> simp only [ExtractValues, he] at hx <;> cases hx
      | ok f =>
        exact ⟨_, ExtractValues.composite_of_factory vd hv f hf, by simp⟩
    obtain ⟨r, hr, hlen⟩ := hc
    rcases hT with rfl | rfl <;> simp only [ExtractValues, hr] at hx <;> cases hx <;>
      exact hlen

/-- C21, amended, on the Array value definition with the literals "1", "x" and the single
nested type name Number: two Number leaves, 1 and (for the malformed "x") 0. -/
theorem C21_composite_extraction_witness :
    ExtractValues .ArrayElement (Scenario.arrayOf .NumberTypeName ["1", "x"]) =
      .ok (.array [.mk "" true false [] [] (.number (.finite 1)),
        .mk "" true false [] [] (.number (.finite 0))]) :=
  (((C21_composite_extraction (Scenario.arrayOf .NumberTypeName ["1", "x"]) (by decide)).1
    _ rfl).2.1 rfl).1.trans rfl

end drafter

namespace drafter

open refract

/-! ### The content of a built node -/

@[simp] theorem Element.value_new (T : ElementType) : (Element.new T).value = Value.init T :=
  rfl

/-- Without direct values, the statements before the loop leave the content of the fresh
element untouched. -/
theorem RefractElementFromValue.head_value_of_empty (T : ElementType) (d : String)
    (vd : mson.ValueDefinition) (e : Element) (hv : vd.values.isEmpty = true)
    (h : RefractElementFromValue.head T d vd = .ok e) : e.value = Value.init T := by
  unfold RefractElementFromValue.head at h
  simp only [hv, Bool.not_true, Bool.false_eq_true, if_false] at h
  cases hd : d.isEmpty <;> cases ha : MsAttributesToRefract vd.typeDefinition.attributes <;>
    simp only [hd, ha, Bool.not_true, Bool.not_false, Bool.false_eq_true, if_false,
      if_true, Except.ok.injEq] at h <;>
    (subst h; simp)

/-- The element at the end of a section loop that ends without an error: it is the element
the loop started with when the sections hold no MemberType section; otherwise the loop started
with an element without content, the sections hold exactly one MemberType section, and the
element has been given the content extracted from that section. -/
theorem RefractElementFromValue_loop_element (T : ElementType)
    (sections : List mson.TypeSection) :
    ∀ (st st' : SectionState), RefractElementFromValue.loop T sections st = .ok st' →
      ((sections.filter fun s => s.klass = .MemberTypeClass) = [] ∧
        st'.element = st.element) ∨
      (st.element.hasContent = false ∧ ∃ m v,
        (sections.filter fun s => s.klass = .MemberTypeClass) = [m] ∧
        ExtractTypeSection T m = .ok v ∧ st'.element = st.element.set v) := by
  induction sections with
  | nil =>
    intro st st' h
    rw [RefractElementFromValue.loop] at h
    cases h
    exact Or.inl ⟨rfl, rfl⟩
  | cons it rest ih =>
    intro st st' h
    rw [RefractElementFromValue.loop] at h
    by_cases hk : it.klass = .MemberTypeClass
    · simp only [hk, if_true] at h
      by_cases hc : st.element.hasContent = true
      · simp [Element.empty, hc] at h
      · have hc2 : st.element.hasContent = false := by simpa using hc
        simp only [Element.empty, hc2, Bool.not_false, Bool.not_true, Bool.false_eq_true,
          if_false] at h
        cases hx : ExtractTypeSection T it with
        | error err => simp only [hx] at h; cases h
        | ok v =>
          simp only [hx] at h
          rcases ih _ _ h with ⟨h1, h2⟩ | ⟨h1, _⟩
          · refine Or.inr ⟨hc2, it, v, ?_, hx, h2⟩
            simp [List.filter, hk, h1]
          · simp at h1
    · simp only [hk, if_false] at h
      cases hx : ExtractTypeSection T it with
      | error err => simp only [hx] at h; cases h
      | ok v =>
        simp only [hx] at h
        have key : ∀ st2 : SectionState, st2.element = st.element →
            RefractElementFromValue.loop T rest st2 = .ok st' →
            (((it :: rest).filter fun s => s.klass = .MemberTypeClass) = [] ∧
              st'.element = st.element) ∨
            (st.element.hasContent = false ∧ ∃ m v,
              ((it :: rest).filter fun s => s.klass = .MemberTypeClass) = [m] ∧
              ExtractTypeSection T m = .ok v ∧ st'.element = st.element.set v) := by
          intro st2 he h2
          rcases ih _ _ h2 with ⟨h1, h3⟩ | ⟨h1, m, w, h3, h4, h5⟩
          · exact Or.inl ⟨by simpa [List.filter, hk] using h1, by rw [h3, he]⟩
          · exact Or.inr ⟨by rw [← he]; exact h1, m, w, by simpa [List.filter, hk] using h3,
              h4, by rw [h5, he]⟩
        by_cases hs : it.klass = .SampleClass
        · simp only [hs, if_true] at h
          exact key ⟨st.element, st.defaults, st.samples ++ [(Element.new T).set v]⟩ rfl h
        · by_cases hd : it.klass = .DefaultClass
          · simp only [hd, reduceCtorEq, if_true, if_false] at h
            exact key ⟨st.element, st.defaults ++ [(Element.new T).set v], st.samples⟩ rfl h
          · simp only [hs, hd, if_false] at h
            cases h

@[simp] theorem RefractElementFromValue.tail_value (st : SectionState) :
    (RefractElementFromValue.tail st).value = st.element.value := by
  unfold RefractElementFromValue.tail
  cases SimplifyRefractContainer st.samples <;> cases SimplifyRefractContainer st.defaults <;>
    simp

@[simp] theorem RefractElementFromValue.tail_hasContent (st : SectionState) :
    (RefractElementFromValue.tail st).hasContent = st.element.hasContent := by
  unfold RefractElementFromValue.tail
  cases SimplifyRefractContainer st.samples <;> cases SimplifyRefractContainer st.defaults <;>
    simp

/-- Where the content of a built node comes from: from nowhere (no direct value, no
MemberType section), from the direct values (and then there is no MemberType section), or from
the one MemberType section (and then there is no direct value). -/
theorem RefractElementFromValue_content (T : ElementType) (value : mson.ValueMember)
    (e : Element) (h : RefractElementFromValue T value = .ok e) :
    (value.valueDefinition.values = [] ∧
      (value.sections.filter fun s => s.klass = .MemberTypeClass) = [] ∧
      e.hasContent = false ∧ e.value = Value.init T) ∨
    (value.valueDefinition.values ≠ [] ∧
      (value.sections.filter fun s => s.klass = .MemberTypeClass) = [] ∧
      e.hasContent = true ∧ ExtractValues T value.valueDefinition = .ok e.value) ∨
    (value.valueDefinition.values = [] ∧ e.hasContent = true ∧
      ∃ m, (value.sections.filter fun s => s.klass = .MemberTypeClass) = [m] ∧
        ExtractTypeSection T m = .ok e.value) := by
  obtain ⟨d, vd, sections⟩ := value
  simp only [mson.ValueMember.sections, mson.ValueMember.valueDefinition]
  rw [RefractElementFromValue_eq] at h
  cases hh : RefractElementFromValue.head T d vd with
  | error err => simp only [hh] at h; cases h
  | ok e0 =>
    obtain ⟨_, _, hc, hval⟩ := RefractElementFromValue.head_ok T d vd e0 hh
    have h0 : ∀ e1 : Element, e1.value = e0.value → e1.hasContent = e0.hasContent →
        (sections.filter fun s => s.klass = .MemberTypeClass) = [] →
        (vd.values = [] ∧ (sections.filter fun s => s.klass = .MemberTypeClass) = [] ∧
          e1.hasContent = false ∧ e1.value = Value.init T) ∨
        (vd.values ≠ [] ∧ (sections.filter fun s => s.klass = .MemberTypeClass) = [] ∧
          e1.hasContent = true ∧ ExtractValues T vd = .ok e1.value) ∨
        (vd.values = [] ∧ e1.hasContent = true ∧
          ∃ m, (sections.filter fun s => s.klass = .MemberTypeClass) = [m] ∧
            ExtractTypeSection T m = .ok e1.value) := by
      intro e1 hv1 hc1 hf
      by_cases hv : vd.values.isEmpty = true
      · refine Or.inl ⟨by simpa using hv, hf, by rw [hc1, hc, hv]; rfl, ?_⟩
        rw [hv1]
        exact RefractElementFromValue.head_value_of_empty T d vd e0 hv hh
      · have hv2 : vd.values.isEmpty = false := by simpa using hv
        refine Or.inr (Or.inl ⟨by simpa using hv, hf, by rw [hc1, hc, hv2]; rfl, ?_⟩)
        rw [hv1]
        exact hval hv2
    simp only [hh] at h
    by_cases hs : sections.isEmpty = true
    · simp only [hs, Bool.not_true, Bool.false_eq_true, if_false, Except.ok.injEq] at h
      subst h
      have hnil : sections = [] := by simpa using hs
      subst hnil
      exact h0 e0 rfl rfl rfl
    · have hs2 : sections.isEmpty = false := by simpa using hs
      simp only [hs2, Bool.not_false, if_true] at h
      cases hl : RefractElementFromValue.loop T sections ⟨e0, [], []⟩ with
      | error err => simp only [hl] at h; cases h
      | ok st =>
        simp only [hl, Except.ok.injEq] at h
        subst h
        rcases RefractElementFromValue_loop_element T sections _ _ hl with
          ⟨h1, h2⟩ | ⟨h1, m, v, h2, h3, h4⟩
        · simp only at h2
          exact h0 _ (by simp [h2]) (by simp [h2]) h1
        · simp only at h1 h4
          have hv : vd.values.isEmpty = true := by
            rw [hc] at h1
            simpa using h1
          refine Or.inr (Or.inr ⟨by simpa using hv, by simp [h4], m, h2, ?_⟩)
          simp [h4, h3]

end drafter

namespace drafter

open refract

/-! ### The content extracted from a section -/

/-- The content extracted from a section for a Boolean, Number or String element: the
coercion of the scalar content string of the section. -/
theorem ExtractTypeSection_scalar (ts : mson.TypeSection) :
    ExtractTypeSection .BooleanElement ts = .ok (.boolean (LiteralTo_bool ts.value)) ∧
    ExtractTypeSection .NumberElement ts = .ok (.number (LiteralTo_double ts.value)) ∧
    ExtractTypeSection .StringElement ts = .ok (.string (LiteralTo_string ts.value)) := by
  obtain ⟨k, d, value, elements⟩ := ts
  exact ⟨rfl, rfl, rfl⟩

/-- The loop of the composite `ExtractTypeSection` over elements that all build. -/
theorem ExtractTypeSection_loop_of_ok (els : List mson.Element) :
    ∀ (ys result : List Element), els.map MsonElementToRefract = ys.map Except.ok →
      ExtractTypeSection.loop els result = .ok (result ++ ys) := by
  induction els with
  | nil =>
    intro ys result h
    cases ys with
    | nil => rw [ExtractTypeSection.loop]; simp
    | cons y ys => cases h
  | cons it rest ih =>
    intro ys result h
    cases ys with
    | nil => cases h
    | cons y ys =>
      simp only [List.map_cons, List.cons.injEq] at h
      rw [ExtractTypeSection.loop]
      simp only [h.1]
      rw [ih ys _ h.2]
      simp

/-- The content extracted from a section for an Array or Object element, when the extraction
succeeds: the section has elements, they all build, and the content is the list of the built
elements, in order. -/
theorem ExtractTypeSection_composite_value (T : ElementType) (ts : mson.TypeSection)
    (v : Value) (hT : T = .ArrayElement ∨ T = .ObjectElement)
    (h : ExtractTypeSection T ts = .ok v) :
    ts.elements ≠ [] ∧ ∃ ys, ts.elements.map MsonElementToRefract = ys.map Except.ok ∧
      v = (match T with
        | .ObjectElement => .object ys
        | _ => .array ys) := by
  obtain ⟨k, d, value, elements⟩ := ts
  simp only [mson.TypeSection.elements]
  rcases hT with rfl | rfl <;> simp only [ExtractTypeSection] at h
  · split at h
    · cases h
    · rename_i hne
      obtain ⟨r, hr, rfl⟩ := Except.map_eq_ok h
      obtain ⟨ys, h1, h2⟩ := ExtractTypeSection_loop_ok elements [] r hr
      refine ⟨by intro h0; subst h0; simp at hne, ys, h1, ?_⟩
      simp [h2]
  · split at h
    · cases h
    · rename_i hne
      obtain ⟨r, hr, rfl⟩ := Except.map_eq_ok h
      obtain ⟨ys, h1, h2⟩ := ExtractTypeSection_loop_ok elements [] r hr
      refine ⟨by intro h0; subst h0; simp at hne, ys, h1, ?_⟩
      simp [h2]

/-- The content extracted from a section for an Array or Object element, when the section
has elements and they all build. -/
theorem ExtractTypeSection_composite_of_ok (ts : mson.TypeSection) (ys : List Element)
    (hne : ts.elements ≠ []) (h : ts.elements.map MsonElementToRefract = ys.map Except.ok) :
    ExtractTypeSection .ArrayElement ts = .ok (.array ys) ∧
    ExtractTypeSection .ObjectElement ts = .ok (.object ys) := by
  obtain ⟨k, d, value, elements⟩ := ts
  simp only [mson.TypeSection.elements] at hne h
  have he : elements.isEmpty = false := by
    cases elements with
    | nil => exact absurd rfl hne
    | cons _ _ => rfl
  simp only [ExtractTypeSection, he, Bool.false_eq_true, if_false,
    ExtractTypeSection_loop_of_ok elements ys [] h, List.nil_append]
  exact ⟨rfl, rfl⟩

end drafter

namespace drafter

open refract

/-! ### Content from a MemberType section -/

/-- A node without direct values whose only section is a MemberType section builds as soon as
the content of the section extracts, and that content is the content of the element. -/
theorem RefractElementFromValue_member_only (T : ElementType) (d : String)
    (vd : mson.ValueDefinition) (m : mson.TypeSection) (v : Value) (hv : vd.values = [])
    (hk : m.klass = .MemberTypeClass) (hx : ExtractTypeSection T m = .ok v) :
    ∃ e, RefractElementFromValue T (.mk d vd [m]) = .ok e ∧ e.value = v := by
  have hv2 : vd.values.isEmpty = true := by rw [hv]; rfl
  obtain ⟨e0, he0⟩ := RefractElementFromValue.head_of_empty T d vd hv2
  obtain ⟨_, _, hc, _⟩ := RefractElementFromValue.head_ok T d vd e0 he0
  rw [hv2] at hc
  have hl : RefractElementFromValue.loop T [m] ⟨e0, [], []⟩ = .ok ⟨e0.set v, [], []⟩ := by
    rw [RefractElementFromValue.loop]
    simp only [hk, if_true, Element.empty, hc, Bool.not_true, Bool.not_false,
      Bool.false_eq_true, if_false, hx]
    rw [RefractElementFromValue.loop]
  refine ⟨RefractElementFromValue.tail ⟨e0.set v, [], []⟩, ?_, by simp⟩
  rw [RefractElementFromValue_eq]
  simp only [he0, List.isEmpty_cons, Bool.not_false, if_true, hl]

/-- C22. MemberType extraction. For a node without direct values and with exactly one
MemberType section `m`: when the node builds as an Array or Object, the section has nested
elements, each of them builds, and the content of the node is exactly the list of the elements
built by `MsonElementToRefract` from them, in order; when it builds as a Boolean, Number or
String, the content is the coercion of the scalar content string of the section. When `m` is
the only section of the node, the node does build: as an Array or Object whenever the section
has nested elements that each build, and as a scalar always. -/
theorem C22_member_extraction (d : String) (vd : mson.ValueDefinition) (m : mson.TypeSection)
    (hv : vd.values = []) (hk : m.klass = .MemberTypeClass) :
    (∀ (T : ElementType) (sections : List mson.TypeSection) (e : Element),
      (sections.filter fun s => s.klass = .MemberTypeClass) = [m] →
      RefractElementFromValue T (.mk d vd sections) = .ok e →
      (T = .ArrayElement → m.elements ≠ [] ∧
        ∃ ys, m.elements.map MsonElementToRefract = ys.map Except.ok ∧ e.value = .array ys) ∧
      (T = .ObjectElement → m.elements ≠ [] ∧
        ∃ ys, m.elements.map MsonElementToRefract = ys.map Except.ok ∧ e.value = .object ys) ∧
      (T = .BooleanElement → e.value = .boolean (LiteralTo_bool m.value)) ∧
      (T = .NumberElement → e.value = .number (LiteralTo_double m.value)) ∧
      (T = .StringElement → e.value = .string (LiteralTo_string m.value))) ∧
    (∀ ys : List Element, m.elements ≠ [] →
      m.elements.map MsonElementToRefract = ys.map Except.ok →
      (∃ e, RefractElementFromValue .ArrayElement (.mk d vd [m]) = .ok e ∧
        e.value = .array ys) ∧
      (∃ e, RefractElementFromValue .ObjectElement (.mk d vd [m]) = .ok e ∧
        e.value = .object ys)) ∧
    (∃ e, RefractElementFromValue .BooleanElement (.mk d vd [m]) = .ok e ∧
      e.value = .boolean (LiteralTo_bool m.value)) ∧
    (∃ e, RefractElementFromValue .NumberElement (.mk d vd [m]) = .ok e ∧
      e.value = .number (LiteralTo_double m.value)) ∧
    (∃ e, RefractElementFromValue .StringElement (.mk d vd [m]) = .ok e ∧
      e.value = .string (LiteralTo_string m.value)) := by
  have hs := ExtractTypeSection_scalar m
  refine ⟨fun T sections e hf h => ?_, fun ys hne hys => ?_, ?_, ?_, ?_⟩
  · have hx : ExtractTypeSection T m = .ok e.value := by
      rcases RefractElementFromValue_content T _ e h with
        ⟨_, h2, _⟩ | ⟨h1, _⟩ | ⟨_, _, m2, h2, h3⟩
      · simp only [mson.ValueMember.sections] at h2
        rw [hf] at h2
        cases h2
      · exact absurd hv h1
      · simp only [mson.ValueMember.sections] at h2
        rw [hf] at h2
        cases h2
        exact h3
    refine ⟨fun hT => ?_, fun hT => ?_, fun hT => ?_, fun hT => ?_, fun hT => ?_⟩
    · subst hT
      obtain ⟨h1, ys, h2, h3⟩ := ExtractTypeSection_composite_value _ m _ (Or.inl rfl) hx
      exact ⟨h1, ys, h2, h3⟩
    · subst hT
      obtain ⟨h1, ys, h2, h3⟩ := ExtractTypeSection_composite_value _ m _ (Or.inr rfl) hx
      exact ⟨h1, ys, h2, h3⟩
    · subst hT
      rw [hs.1] at hx
      exact (Except.ok.inj hx).symm
    · subst hT
      rw [hs.2.1] at hx
      exact (Except.ok.inj hx).symm
    · subst hT
      rw [hs.2.2] at hx
      exact (Except.ok.inj hx).symm
  · obtain ⟨h1, h2⟩ := ExtractTypeSection_composite_of_ok m ys hne hys
    exact ⟨RefractElementFromValue_member_only _ d vd m _ hv hk h1,
      RefractElementFromValue_member_only _ d vd m _ hv hk h2⟩
  · exact RefractElementFromValue_member_only _ d vd m _ hv hk hs.1
  · exact RefractElementFromValue_member_only _ d vd m _ hv hk hs.2.1
  · exact RefractElementFromValue_member_only _ d vd m _ hv hk hs.2.2

end drafter

namespace drafter

open refract

/-- C22 on an Object value member without direct value whose MemberType section holds a
property and a mixin: the children of the built Object are the two built elements, in
order. -/
theorem C22_member_extraction_witness :
    ∃ e, RefractElementFromValue .ObjectElement Scenario.objectWithMembers = .ok e ∧
      [MsonElementToRefract (.PropertyClass Scenario.count),
        MsonElementToRefract (.MixinClass (Scenario.typeDefinition .ObjectTypeName))] =
        e.children.map Except.ok := by
  refine ⟨_, rfl, ?_⟩
  obtain ⟨_, ys, h1, h2⟩ :=
    ((C22_member_extraction "" (Scenario.valueDefinition .ObjectTypeName [])
      (.mk .MemberTypeClass "" ""
        [.PropertyClass Scenario.count, .MixinClass (Scenario.typeDefinition .ObjectTypeName)])
      rfl rfl).1 .ObjectElement Scenario.objectWithMembers.sections _ rfl rfl).2.1 rfl
  rw [Element.children_of_value _ ys (Or.inr h2)]
  exact h1

end drafter

namespace drafter

open refract

/-! ### At most one source of content -/

/-- After a section loop that ends without an error over sections that hold a MemberType
section, the content of the element is set. -/
theorem RefractElementFromValue_loop_member_content (T : ElementType)
    (sections : List mson.TypeSection) (st st' : SectionState)
    (h : RefractElementFromValue.loop T sections st = .ok st')
    (m : mson.TypeSection) (hm : m ∈ sections) (hk : m.klass = .MemberTypeClass) :
    st'.element.hasContent = true := by
  rcases RefractElementFromValue_loop_element T sections st st' h with
    ⟨h1, _⟩ | ⟨_, _, v, _, _, h2⟩
  · have : m ∈ sections.filter fun s => s.klass = .MemberTypeClass :=
      List.mem_filter.mpr ⟨hm, by simpa using hk⟩
    rw [h1] at this
    cases this
  · rw [h2]
    simp

/-- C23. At-most-one-content-source invariant. Whenever `RefractElementFromValue` succeeds,
the node did not have both a non-empty direct value list and a MemberType section, and it had
at most one MemberType section; the content of the built element comes from at most one
source: it is unset (no direct value, no MemberType section), or it is the value extracted
from the direct values (no MemberType section), or it is the value extracted from the one
MemberType section (no direct value). A second MemberType section hits the content-conflict
rule: when the section loop has gone through sections that hold a MemberType section and meets
another one, the build fails with the content-conflict error. -/
theorem C23_one_content_source :
    (∀ (T : ElementType) (value : mson.ValueMember) (e : Element),
      RefractElementFromValue T value = .ok e →
      ¬ (value.valueDefinition.values ≠ [] ∧ hasMembers value = true) ∧
      (value.sections.filter fun s => s.klass = .MemberTypeClass).length ≤ 1 ∧
      ((value.valueDefinition.values = [] ∧ hasMembers value = false ∧
          e.hasContent = false ∧ e.value = Value.init T) ∨
        (value.valueDefinition.values ≠ [] ∧ hasMembers value = false ∧
          e.hasContent = true ∧ ExtractValues T value.valueDefinition = .ok e.value) ∨
        (value.valueDefinition.values = [] ∧ e.hasContent = true ∧
          ∃ m, (value.sections.filter fun s => s.klass = .MemberTypeClass) = [m] ∧
            ExtractTypeSection T m = .ok e.value))) ∧
    (∀ (T : ElementType) (d : String) (vd : mson.ValueDefinition)
      (pre post : List mson.TypeSection) (m1 m2 : mson.TypeSection) (e0 : Element)
      (st : SectionState),
      RefractElementFromValue.head T d vd = .ok e0 →
      RefractElementFromValue.loop T pre ⟨e0, [], []⟩ = .ok st →
      m1 ∈ pre → m1.klass = .MemberTypeClass → m2.klass = .MemberTypeClass →
      RefractElementFromValue T (.mk d vd (pre ++ m2 :: post)) =
        .error (.logic_error
          "Element content was already set, you cannot fill it from 'memberType'")) := by
  refine ⟨fun T value e h => ?_, fun T d vd pre post m1 m2 e0 st hh hpre hm1 hk1 hk2 => ?_⟩
  · have hmem : ∀ l : List mson.TypeSection,
        (l.filter fun s => s.klass = .MemberTypeClass) = [] →
        (l.any fun it => it.klass = .MemberTypeClass) = false := by
      intro l hl
      rw [List.filter_eq_nil_iff] at hl
      cases hany : l.any fun it => decide (it.klass = .MemberTypeClass) with
      | false => rfl
      | true =>
        obtain ⟨s, hs, hsk⟩ := List.any_eq_true.mp hany
        exact absurd hsk (hl s hs)
    rcases RefractElementFromValue_content T value e h with
      ⟨h1, h2, h3, h4⟩ | ⟨h1, h2, h3, h4⟩ | ⟨h1, h3, m, h2, h4⟩
    · have hm := hmem _ h2
      refine ⟨fun hc => hc.1 h1, by rw [h2]; simp, Or.inl ⟨h1, hm, h3, h4⟩⟩
    · have hm := hmem _ h2
      refine ⟨fun hc => ?_, by rw [h2]; simp, Or.inr (Or.inl ⟨h1, hm, h3, h4⟩)⟩
      rw [hasMembers, hm] at hc
      exact absurd hc.2 (by decide)
    · exact ⟨fun hc => hc.1 h1, by rw [h2]; simp, Or.inr (Or.inr ⟨h1, h3, m, h2, h4⟩)⟩
  · have hne : (pre ++ m2 :: post).isEmpty = false := by cases pre <;> rfl
    have hc := RefractElementFromValue_loop_member_content T pre _ st hpre m1 hm1 hk1
    rw [RefractElementFromValue_eq]
    simp only [hh, hne, Bool.not_false, if_true, RefractElementFromValue.loop_append, hpre]
    rw [RefractElementFromValue.loop_cons_member T m2 post st hk2 hc]

/-- C23 on an Object value member without direct value whose one MemberType section holds two
elements (it builds, and its content is the one extracted from that section), and on a String
value member without direct value and with two MemberType sections (the build fails with the
content-conflict error). -/
theorem C23_one_content_source_witness :
    (∃ e, RefractElementFromValue .ObjectElement Scenario.objectWithMembers = .ok e ∧
      e.hasContent = true ∧
      ∃ m, Scenario.objectWithMembers.sections = [m] ∧
        ExtractTypeSection .ObjectElement m = .ok e.value) ∧
    RefractElementFromValue .StringElement Scenario.twoMembers =
      .error (.logic_error
        "Element content was already set, you cannot fill it from 'memberType'") := by
  refine ⟨⟨_, rfl, ?_⟩, ?_⟩
  · rcases (C23_one_content_source.1 .ObjectElement Scenario.objectWithMembers _ rfl).2.2 with
      ⟨_, h, _⟩ | ⟨h, _⟩ | ⟨_, h3, m, hm, hx⟩
    · exact absurd h (by decide)
    · exact absurd rfl h
    · exact ⟨h3, m, hm, hx⟩
  · exact C23_one_content_source.2 .StringElement ""
      (Scenario.valueDefinition .StringTypeName [])
      [.mk .MemberTypeClass "" "a" []] [] (.mk .MemberTypeClass "" "a" [])
      (.mk .MemberTypeClass "" "b" []) _ _ rfl rfl (List.mem_singleton.mpr rfl) rfl rfl

end drafter

namespace drafter

open refract

/-! ### The elements extracted from Sample and Default sections -/

/-- The element extracted from a section for a Boolean, Number or String node. -/
theorem sectionElement_scalar (s : mson.TypeSection) :
    sectionElement .BooleanElement s =
      .ok (.mk "" true false [] [] (.boolean (LiteralTo_bool s.value))) ∧
    sectionElement .NumberElement s =
      .ok (.mk "" true false [] [] (.number (LiteralTo_double s.value))) ∧
    sectionElement .StringElement s =
      .ok (.mk "" true false [] [] (.string (LiteralTo_string s.value))) := by
  obtain ⟨h1, h2, h3⟩ := ExtractTypeSection_scalar s
  simp only [sectionElement, h1, h2, h3]
  exact ⟨rfl, rfl, rfl⟩

/-- The element extracted from a section, when the extraction succeeds: a fresh element of
the class of the node, holding the extracted content. -/
theorem sectionElement_ok (T : ElementType) (s : mson.TypeSection) (x : Element)
    (h : sectionElement T s = .ok x) :
    x.kind = T ∧ x.meta = [] ∧ x.attributes = [] ∧ x.element_ = "" ∧
      ExtractTypeSection T s = .ok x.value := by
  unfold sectionElement at h
  cases hx : ExtractTypeSection T s with
  | error err => simp only [hx] at h; cases h
  | ok v =>
    simp only [hx, Except.ok.injEq] at h
    subst h
    have hk := ExtractTypeSection_kind T s v hx
    exact ⟨by simpa using hk, by simp, by simp, rfl, by simp⟩

/-- C24. When a node builds, every Sample or Default section of the node is extracted as a new
element of the same kind as the element built for the node (these elements, collapsed, are the
"sample" and "default" attributes); for a Boolean, Number or String node the content of the
new element is the coercion of the scalar content string of the section to that kind, so that
on a Number node a Sample with text "abc" becomes a Number 0; for an Array or Object node it
is the list of the elements built from the nested schema elements of the section, in order. -/
theorem C24_sample_default_elements (T : ElementType) (value : mson.ValueMember)
    (e : Element) (h : RefractElementFromValue T value = .ok e) :
    (∃ samples defaults : List Element,
      (value.sections.filter fun s => s.klass = .SampleClass).map (sectionElement T) =
        samples.map Except.ok ∧
      (value.sections.filter fun s => s.klass = .DefaultClass).map (sectionElement T) =
        defaults.map Except.ok ∧
      e.attributes.lookup "sample" = collapse samples ∧
      e.attributes.lookup "default" = collapse defaults) ∧
    (∀ s ∈ value.sections, s.klass = .SampleClass ∨ s.klass = .DefaultClass →
      ∃ x, sectionElement T s = .ok x ∧ x.kind = e.kind ∧
        x.meta = [] ∧ x.attributes = [] ∧ x.element_ = "" ∧
        (T = .BooleanElement → x.value = .boolean (LiteralTo_bool s.value)) ∧
        (T = .NumberElement → x.value = .number (LiteralTo_double s.value)) ∧
        (T = .StringElement → x.value = .string (LiteralTo_string s.value)) ∧
        (T = .ArrayElement → ∃ ys,
          s.elements.map MsonElementToRefract = ys.map Except.ok ∧ x.value = .array ys) ∧
        (T = .ObjectElement → ∃ ys,
          s.elements.map MsonElementToRefract = ys.map Except.ok ∧ x.value = .object ys)) ∧
    LiteralTo_double "abc" = .finite 0 := by
  refine ⟨?_, fun s hs _ => ?_, rfl⟩
  · obtain ⟨samples, defaults, h1, h2, _, h4, h5⟩ :=
      RefractElementFromValue_attributes T value e h
    exact ⟨samples, defaults, h1, h2, h4, h5⟩
  · obtain ⟨v, hv⟩ := RefractElementFromValue_ok_sections T value e h s hs
    have hse : sectionElement T s = .ok ((Element.new T).set v) := by
      simp only [sectionElement, hv]
    obtain ⟨h1, h2, h3, h4, h5⟩ := sectionElement_ok T s _ hse
    have hsc := ExtractTypeSection_scalar s
    have hval : ((Element.new T).set v).value = v := by simp
    refine ⟨_, hse, by rw [h1, (RefractElementFromValue_ok T value e h).1], h2, h3, h4,
      fun hT => ?_, fun hT => ?_, fun hT => ?_, fun hT => ?_, fun hT => ?_⟩
    · subst hT
      rw [hval]
      rw [hsc.1] at hv
      exact (Except.ok.inj hv).symm
    · subst hT
      rw [hval]
      rw [hsc.2.1] at hv
      exact (Except.ok.inj hv).symm
    · subst hT
      rw [hval]
      rw [hsc.2.2] at hv
      exact (Except.ok.inj hv).symm
    · subst hT
      obtain ⟨_, ys, hy1, hy2⟩ := ExtractTypeSection_composite_value _ s v (Or.inl rfl) hv
      exact ⟨ys, hy1, by rw [hval]; exact hy2⟩
    · subst hT
      obtain ⟨_, ys, hy1, hy2⟩ := ExtractTypeSection_composite_value _ s v (Or.inr rfl) hv
      exact ⟨ys, hy1, by rw [hval]; exact hy2⟩

/-- C24 on a Number value member with a Sample section of text "abc": the "sample" attribute
is a Number element holding 0. -/
theorem C24_sample_default_elements_witness :
    ∃ e, RefractElementFromValue .NumberElement Scenario.numberWithSample = .ok e ∧
      e.attributes.lookup "sample" = some (.mk "" true false [] [] (.number (.finite 0))) := by
  have inj : ∀ xs ys : List Element,
      xs.map (Except.ok : Element → Except Error Element) = ys.map Except.ok → xs = ys :=
    fun xs ys hxy => List.map_injective_iff.mpr (fun a b hab => Except.ok.inj hab) hxy
  obtain ⟨⟨samples, defaults, hs, _, h1, _⟩, _, _⟩ :=
    C24_sample_default_elements .NumberElement Scenario.numberWithSample _ rfl
  have hs2 : samples = [.mk "" true false [] [] (.number (.finite 0))] :=
    inj _ _ (hs.symm.trans rfl)
  exact ⟨_, rfl, by rw [h1, hs2]; rfl⟩

end drafter

namespace drafter

open refract

/-! ### The description of a node -/

/-- C25. When `RefractElementFromValue` succeeds on a node, the meta of the built element
contains "description" if and only if the description of the node is non-empty, and then it
is the String element holding that description text unchanged; the name that
`RefractElementFromProperty` attaches to a Property leaves the entry as it is. -/
theorem C25_description_meta (T : ElementType) (value : mson.ValueMember) (e : Element)
    (h : RefractElementFromValue T value = .ok e) :
    ((e.meta.lookup "description").isSome = true ↔ value.description ≠ "") ∧
    (value.description ≠ "" → e.meta.lookup "description" =
      some (.mk "" true false [] [] (.string value.description))) ∧
    (∀ (name : mson.PropertyName) (e2 : Element),
      RefractElementFromProperty T (.mk name value) = .ok e2 →
      e2.meta.lookup "description" = e.meta.lookup "description") := by
  have hm := (RefractElementFromValue_ok T value e h).2
  refine ⟨?_, fun hd => ?_, fun name e2 h2 => ?_⟩
  · by_cases hd : value.description.isEmpty = true
    · have hd2 : value.description = "" := (String.isEmpty_iff _).mp hd
      rw [hm]
      simp only [hd, if_true]
      simp [Collection.lookup, hd2]
    · have hd2 : value.description ≠ "" := fun h0 => hd ((String.isEmpty_iff _).mpr h0)
      rw [hm]
      simp only [hd, if_false]
      simp [Collection.lookup, hd2]
  · have hd2 : ¬ value.description.isEmpty = true :=
      fun h0 => hd ((String.isEmpty_iff _).mp h0)
    rw [hm]
    simp only [hd2, if_false]
    simp [Collection.lookup]
    rfl
  · rw [RefractElementFromProperty_eq] at h2
    simp only [mson.PropertyMember.toValueMember, h, Except.ok.injEq] at h2
    subst h2
    rw [Element.meta_setMeta, Collection.lookup_assign]
    simp

/-- C25 on a String value member with the description "about". -/
theorem C25_description_meta_witness :
    ∃ e, RefractElementFromValue .StringElement Scenario.describedString = .ok e ∧
      e.meta.lookup "description" = some (.mk "" true false [] [] (.string "about")) :=
  ⟨_, rfl, (C25_description_meta .StringElement Scenario.describedString _ rfl).2.1
    (by decide)⟩

end drafter

namespace drafter

open refract

/-! ### Termination -/

/-- The schema elements nested in a schema element are strictly smaller than it. -/
theorem subElements_sizeOf (mse x : mson.Element) (h : x ∈ subElements mse) :
    sizeOf x < sizeOf mse := by
  have key : ∀ sections : List mson.TypeSection,
      x ∈ (sections.map fun s => s.elements).flatten → sizeOf x < sizeOf sections := by
    intro sections hx
    simp only [List.mem_flatten, List.mem_map] at hx
    obtain ⟨l, ⟨s, hs, rfl⟩, hx⟩ := hx
    obtain ⟨k, ds, v, els⟩ := s
    have h1 := List.sizeOf_lt_of_mem hs
    have h2 := List.sizeOf_lt_of_mem hx
    simp only [mson.TypeSection.elements] at h2
    simp only [mson.TypeSection.mk.sizeOf_spec] at h1
    omega
  cases mse with
  | PropertyClass property =>
    obtain ⟨name, d, vd, sections⟩ := property
    have h1 := key sections h
    simp only [mson.Element.PropertyClass.sizeOf_spec, mson.PropertyMember.mk.sizeOf_spec,
      mson.ValueMember.mk.sizeOf_spec]
    omega
  | ValueClass value =>
    obtain ⟨d, vd, sections⟩ := value
    have h1 := key sections h
    simp only [mson.Element.ValueClass.sizeOf_spec, mson.ValueMember.mk.sizeOf_spec]
    omega
  | MixinClass m => simp [subElements] at h
  | OneOfClass oneOf =>
    simp only [subElements] at h
    have h2 := List.sizeOf_lt_of_mem h
    simp only [mson.Element.OneOfClass.sizeOf_spec]
    omega
  | GroupClass els =>
    simp only [subElements] at h
    have h2 := List.sizeOf_lt_of_mem h
    simp only [mson.Element.GroupClass.sizeOf_spec]
    omega

end drafter

namespace drafter

open refract

/-! ### The bounded recursion agrees with `MsonElementToRefract` -/

/-- The loop of the composite `ExtractTypeSection`, when the calls it makes return what
`MsonElementToRefract` returns. -/
theorem ExtractTypeSectionWith_loop_eq (self : mson.Element → Bounded Element)
    (els : List mson.Element) :
    (∀ x ∈ els, self x = some (MsonElementToRefract x)) →
    ∀ result : List Element,
      ExtractTypeSectionWith.loop self els result = some (ExtractTypeSection.loop els result) := by
  induction els with
  | nil =>
    intro _ result
    rw [ExtractTypeSectionWith.loop, ExtractTypeSection.loop]
  | cons it rest ih =>
    intro h result
    rw [ExtractTypeSectionWith.loop, ExtractTypeSection.loop, h it (List.mem_cons_self _ _)]
    cases MsonElementToRefract it with
    | error err => rfl
    | ok e => exact ih (fun x hx => h x (List.mem_cons_of_mem _ hx)) _

/-- `ExtractTypeSection<T>`, when the calls it makes return what `MsonElementToRefract`
returns. -/
theorem ExtractTypeSectionWith_eq (self : mson.Element → Bounded Element) (T : ElementType)
    (ts : mson.TypeSection) (h : ∀ x ∈ ts.elements, self x = some (MsonElementToRefract x)) :
    ExtractTypeSectionWith self T ts = some (ExtractTypeSection T ts) := by
  obtain ⟨k, d, value, elements⟩ := ts
  simp only [mson.TypeSection.elements] at h
  cases T
  · rfl
  · rfl
  · rfl
  · simp only [ExtractTypeSectionWith, ExtractTypeSection, mson.TypeSection.elements]
    by_cases he : elements.isEmpty = true
    · simp only [he, if_true]
      rfl
    · simp only [he, Bool.false_eq_true, if_false, ExtractTypeSectionWith_loop_eq self elements h]
      cases ExtractTypeSection.loop elements [] <;> rfl
  · simp only [ExtractTypeSectionWith, ExtractTypeSection, mson.TypeSection.elements]
    by_cases he : elements.isEmpty = true
    · simp only [he, if_true]
      rfl
    · simp only [he, Bool.false_eq_true, if_false, ExtractTypeSectionWith_loop_eq self elements h]
      cases ExtractTypeSection.loop elements [] <;> rfl

/-- The section loop, when the calls it makes return what `MsonElementToRefract` returns. -/
theorem RefractElementFromValueWith_loop_eq (self : mson.Element → Bounded Element)
    (T : ElementType) (sections : List mson.TypeSection) :
    (∀ s ∈ sections, ∀ x ∈ s.elements, self x = some (MsonElementToRefract x)) →
    ∀ st : SectionState,
      RefractElementFromValueWith.loop self T sections st =
        some (RefractElementFromValue.loop T sections st) := by
  induction sections with
  | nil =>
    intro _ st
    rw [RefractElementFromValueWith.loop, RefractElementFromValue.loop]
  | cons it rest ih =>
    intro h st
    have hit := ExtractTypeSectionWith_eq self T it (h it (List.mem_cons_self _ _))
    have hrest := ih (fun s hs => h s (List.mem_cons_of_mem _ hs))
    rw [RefractElementFromValueWith.loop, RefractElementFromValue.loop, hit]
    by_cases hk : it.klass = .MemberTypeClass
    · simp only [hk, if_true]
      split
      · rfl
      · cases ExtractTypeSection T it with
        | error err => rfl
        | ok v => exact hrest _
    · simp only [hk, if_false]
      cases ExtractTypeSection T it with
      | error err => rfl
      | ok v =>
        simp only []
        by_cases hs : it.klass = .SampleClass
        · simp only [hs, if_true]
          exact hrest _
        · by_cases hd : it.klass = .DefaultClass
          · simp only [hd, reduceCtorEq, if_true, if_false]
            exact hrest _
          · simp only [hs, hd, if_false]

/-- `RefractElementFromValue<T>`, when the calls it makes return what `MsonElementToRefract`
returns. -/
theorem RefractElementFromValueWith_eq (self : mson.Element → Bounded Element)
    (T : ElementType) (value : mson.ValueMember)
    (h : ∀ s ∈ value.sections, ∀ x ∈ s.elements, self x = some (MsonElementToRefract x)) :
    RefractElementFromValueWith self T value = some (RefractElementFromValue T value) := by
  obtain ⟨d, vd, sections⟩ := value
  simp only [mson.ValueMember.sections] at h
  rw [RefractElementFromValue_eq]
  simp only [RefractElementFromValueWith, mson.ValueMember.description,
    mson.ValueMember.valueDefinition, mson.ValueMember.sections]
  cases RefractElementFromValue.head T d vd with
  | error err => rfl
  | ok element =>
    simp only []
    by_cases hs : sections.isEmpty = true
    · simp only [hs, Bool.not_true, Bool.false_eq_true, if_false]
    · have hs2 : sections.isEmpty = false := by simpa using hs
      simp only [hs2, Bool.not_false, if_true,
        RefractElementFromValueWith_loop_eq self T sections h]
      cases RefractElementFromValue.loop T sections ⟨element, [], []⟩ <;> rfl

/-- `RefractElementFromProperty<T>`, when the calls it makes return what
`MsonElementToRefract` returns. -/
theorem RefractElementFromPropertyWith_eq (self : mson.Element → Bounded Element)
    (T : ElementType) (property : mson.PropertyMember)
    (h : ∀ s ∈ property.toValueMember.sections, ∀ x ∈ s.elements,
      self x = some (MsonElementToRefract x)) :
    RefractElementFromPropertyWith self T property =
      some (RefractElementFromProperty T property) := by
  rw [RefractElementFromProperty_eq]
  simp only [RefractElementFromPropertyWith, RefractElementFromValueWith_eq self T _ h]
  cases RefractElementFromValue T property.toValueMember <;> rfl

/-- `MsonPropertyToRefract`, when the calls it makes return what `MsonElementToRefract`
returns. -/
theorem MsonPropertyToRefractWith_eq (self : mson.Element → Bounded Element)
    (property : mson.PropertyMember)
    (h : ∀ s ∈ property.toValueMember.sections, ∀ x ∈ s.elements,
      self x = some (MsonElementToRefract x)) :
    MsonPropertyToRefractWith self property = some (MsonPropertyToRefract property) := by
  have hp := fun T => RefractElementFromPropertyWith_eq self T property h
  unfold MsonPropertyToRefractWith MsonPropertyToRefract
  cases property.toValueMember.valueDefinition.typeDefinition.typeSpecification.name.base
  · simp only []
    split
    · exact hp _
    · exact hp _
  · exact hp _
  · exact hp _
  · exact hp _
  · exact hp _
  · simp only [hp]
    cases RefractElementFromProperty .ArrayElement property <;> rfl
  · exact hp _

/-- `MsonValueToRefract`, when the calls it makes return what `MsonElementToRefract`
returns. -/
theorem MsonValueToRefractWith_eq (self : mson.Element → Bounded Element)
    (value : mson.ValueMember)
    (h : ∀ s ∈ value.sections, ∀ x ∈ s.elements, self x = some (MsonElementToRefract x)) :
    MsonValueToRefractWith self value = some (MsonValueToRefract value) := by
  have hv := fun T => RefractElementFromValueWith_eq self T value h
  unfold MsonValueToRefractWith MsonValueToRefract
  cases value.valueDefinition.typeDefinition.typeSpecification.name.base <;>
    first | exact hv _ | rfl

/-- The loop of `MsonOneofToRefract`, when the calls it makes return what
`MsonElementToRefract` returns. -/
theorem MsonOneofToRefractWith_loop_eq (self : mson.Element → Bounded Element)
    (alts : List mson.Element) :
    (∀ x ∈ alts, self x = some (MsonElementToRefract x)) →
    ∀ select : Element,
      MsonOneofToRefractWith.loop self alts select =
        some (MsonOneofToRefract.loop alts select) := by
  induction alts with
  | nil =>
    intro _ select
    rw [MsonOneofToRefractWith.loop, MsonOneofToRefract.loop]
  | cons it rest ih =>
    intro h select
    rw [MsonOneofToRefractWith.loop, MsonOneofToRefract.loop, h it (List.mem_cons_self _ _)]
    cases MsonElementToRefract it with
    | error err => rfl
    | ok e => exact ih (fun x hx => h x (List.mem_cons_of_mem _ hx)) _

/-- The body of `MsonElementToRefract` returns what `MsonElementToRefract` returns as soon as
the calls it makes on the elements nested in its argument do: it makes no other call. -/
theorem MsonElementToRefractWith_eq (self : mson.Element → Bounded Element)
    (mse : mson.Element)
    (h : ∀ x ∈ subElements mse, self x = some (MsonElementToRefract x)) :
    MsonElementToRefractWith self mse = some (MsonElementToRefract mse) := by
  have hsec : ∀ sections : List mson.TypeSection,
      (∀ x ∈ (sections.map fun s => s.elements).flatten,
        self x = some (MsonElementToRefract x)) →
      ∀ s ∈ sections, ∀ x ∈ s.elements, self x = some (MsonElementToRefract x) := by
    intro sections hx s hs x hxs
    apply hx
    simp only [List.mem_flatten, List.mem_map]
    exact ⟨s.elements, ⟨s, hs, rfl⟩, hxs⟩
  rw [MsonElementToRefract_eq]
  cases mse with
  | PropertyClass property =>
    exact MsonPropertyToRefractWith_eq self property (hsec _ h)
  | ValueClass value =>
    exact MsonValueToRefractWith_eq self value (hsec _ h)
  | MixinClass mixin => rfl
  | OneOfClass oneOf =>
    exact MsonOneofToRefractWith_loop_eq self oneOf h _
  | GroupClass els => rfl

/-- Enough fuel gives the result: under a bound larger than the size of the schema element,
the bounded recursion returns what `MsonElementToRefract` returns. -/
theorem MsonElementToRefractFuel_eq (fuel : Nat) :
    ∀ mse : mson.Element, sizeOf mse < fuel →
      MsonElementToRefractFuel fuel mse = some (MsonElementToRefract mse) := by
  induction fuel with
  | zero => intro mse h; omega
  | succ n ih =>
    intro mse h
    rw [MsonElementToRefractFuel]
    apply MsonElementToRefractWith_eq
    intro x hx
    have := subElements_sizeOf mse x hx
    exact ih x (by omega)

/-- The inner loop of `ToRefract`, when the calls it makes return what `MsonElementToRefract`
returns. -/
theorem ToRefractWith_elements_eq (self : mson.Element → Bounded Element)
    (els : List mson.Element) :
    (∀ x ∈ els, self x = some (MsonElementToRefract x)) →
    ∀ e : Element, ToRefractWith.elements self els e = some (ToRefract.elements els e) := by
  induction els with
  | nil =>
    intro _ e
    rw [ToRefractWith.elements, ToRefract.elements]
  | cons it rest ih =>
    intro h e
    rw [ToRefractWith.elements, ToRefract.elements, h it (List.mem_cons_self _ _)]
    cases MsonElementToRefract it with
    | error err => rfl
    | ok y => exact ih (fun x hx => h x (List.mem_cons_of_mem _ hx)) _

/-- The outer loop of `ToRefract`, when the calls it makes return what `MsonElementToRefract`
returns. -/
theorem ToRefractWith_loop_eq (self : mson.Element → Bounded Element)
    (sections : List mson.TypeSection) :
    (∀ s ∈ sections, ∀ x ∈ s.elements, self x = some (MsonElementToRefract x)) →
    ∀ e : Element, ToRefractWith.loop self sections e = some (ToRefract.loop sections e) := by
  induction sections with
  | nil =>
    intro _ e
    rw [ToRefractWith.loop, ToRefract.loop]
  | cons it rest ih =>
    intro h e
    have hrest := ih (fun s hs => h s (List.mem_cons_of_mem _ hs))
    rw [ToRefractWith.loop, ToRefract.loop]
    by_cases hk : it.klass = .BlockDescriptionClass
    · simp only [hk, if_true]
      exact hrest _
    · simp only [hk, if_false,
        ToRefractWith_elements_eq self it.elements (h it (List.mem_cons_self _ _))]
      cases ToRefract.elements it.elements e with
      | error err => rfl
      | ok e2 => exact hrest _

/-- Enough fuel gives the result of `ToRefract`. -/
theorem ToRefractFuel_eq (fuel : Nat) (ds : snowcrash.DataStructure)
    (h : sizeOf ds.sections < fuel) : ToRefractFuel fuel ds = some (ToRefract ds) := by
  unfold ToRefractFuel ToRefractWith ToRefract
  apply ToRefractWith_loop_eq
  intro s hs x hx
  apply MsonElementToRefractFuel_eq
  have h1 := List.sizeOf_lt_of_mem hs
  have h2 := List.sizeOf_lt_of_mem hx
  obtain ⟨k, d, v, els⟩ := s
  simp only [mson.TypeSection.elements] at h2
  simp only [mson.TypeSection.mk.sizeOf_spec] at h1
  omega

end drafter

namespace drafter

open refract

/-- C26. The transformation is total on finite inputs. The calls of `MsonElementToRefract`
made inside a call of `MsonElementToRefract` (through `MsonPropertyToRefract`,
`MsonValueToRefract`, `MsonOneofToRefract` and the composite `ExtractTypeSection`) are calls
on elements nested in its argument: the body returns what `MsonElementToRefract` returns as
soon as the calls on those elements do. The nested elements are strictly smaller than the
element and the nesting relation is well-founded. So the recursion, run as the C++ runs it
under a bound on the depth of the nested calls, cannot go on for ever: a bound of 0 gives up,
and every bound larger than the size of the schema tree gives the result, which is one
element or one error; the same holds for `ToRefract` on every data structure. -/
theorem C26_total :
    (∀ mse x : mson.Element, x ∈ subElements mse → sizeOf x < sizeOf mse) ∧
    WellFounded (fun x y : mson.Element => x ∈ subElements y) ∧
    (∀ (self : mson.Element → Bounded Element) (mse : mson.Element),
      (∀ x ∈ subElements mse, self x = some (MsonElementToRefract x)) →
      MsonElementToRefractWith self mse = some (MsonElementToRefract mse)) ∧
    (∀ mse : mson.Element, MsonElementToRefractFuel 0 mse = none) ∧
    (∀ (fuel : Nat) (mse : mson.Element), sizeOf mse < fuel →
      MsonElementToRefractFuel fuel mse = some (MsonElementToRefract mse)) ∧
    (∀ (fuel : Nat) (ds : snowcrash.DataStructure), sizeOf ds.sections < fuel →
      ToRefractFuel fuel ds = some (ToRefract ds)) ∧
    (∀ mse : mson.Element, ∃ fuel : Nat,
      (∃ e, MsonElementToRefractFuel fuel mse = some (.ok e)) ∨
      (∃ err, MsonElementToRefractFuel fuel mse = some (.error err))) ∧
    (∀ ds : snowcrash.DataStructure, ∃ fuel : Nat,
      (∃ e, ToRefractFuel fuel ds = some (.ok e)) ∨
      (∃ err, ToRefractFuel fuel ds = some (.error err))) := by
  refine ⟨subElements_sizeOf, ?_, MsonElementToRefractWith_eq, fun _ => rfl,
    MsonElementToRefractFuel_eq, ToRefractFuel_eq, fun mse => ?_, fun ds => ?_⟩
  · exact Subrelation.wf (fun {x y} h => subElements_sizeOf y x h) (measure sizeOf).wf
  · refine ⟨sizeOf mse + 1, ?_⟩
    rw [MsonElementToRefractFuel_eq _ mse (Nat.lt_succ_self _)]
    cases MsonElementToRefract mse with
    | error err => exact Or.inr ⟨err, rfl⟩
    | ok e => exact Or.inl ⟨e, rfl⟩
  · refine ⟨sizeOf ds.sections + 1, ?_⟩
    rw [ToRefractFuel_eq _ ds (Nat.lt_succ_self _)]
    cases ToRefract ds with
    | error err => exact Or.inr ⟨err, rfl⟩
    | ok e => exact Or.inl ⟨e, rfl⟩

/-- C26 on the Object property whose MemberType section holds a property that builds and a
value member that does not: with the bound 1 the recursion gives up, with the bound 2 it
returns the error, and so it does with a bound larger than the size of the tree; and on the
data structure "User", which returns an element. -/
theorem C26_total_witness :
    MsonElementToRefractFuel 1 (.PropertyClass Scenario.objectWithBadMember) = none ∧
    MsonElementToRefractFuel 2 (.PropertyClass Scenario.objectWithBadMember) =
      some (.error (.runtime_error "Unhandled type of ValueMember")) ∧
    MsonElementToRefractFuel 100000 (.PropertyClass Scenario.objectWithBadMember) =
      some (.error (.runtime_error "Unhandled type of ValueMember")) ∧
    (∃ e, ToRefractFuel 100000 Scenario.user = some (.ok e)) ∧
    sizeOf (mson.Element.ValueClass Scenario.arrayValue) <
      sizeOf (mson.Element.PropertyClass Scenario.objectWithBadMember) :=
  ⟨rfl, rfl,
    (C26_total.2.2.2.2.1 100000 (.PropertyClass Scenario.objectWithBadMember)
      (by decide)).trans rfl,
    ⟨_, (C26_total.2.2.2.2.2.1 100000 Scenario.user (by decide)).trans rfl⟩,
    C26_total.1 (.PropertyClass Scenario.objectWithBadMember) (.ValueClass Scenario.arrayValue)
      (by simp [subElements, Scenario.objectWithBadMember, mson.PropertyMember.toValueMember,
        mson.ValueMember.sections, mson.TypeSection.elements])⟩

end drafter

namespace drafter

/-! ### The parameter serializers -/

/-- The loop of `WrapParameters` appends one object per parameter, in order. -/
theorem WrapParameters_loop_eq (K : SerializeKey) (ps : List snowcrash.Parameter) :
    ∀ acc : sos.Array, WrapParameters.loop K ps acc =
      acc ++ ps.map fun p => sos.Base.object (WrapParameters.parameter K p) := by
  induction ps with
  | nil => intro acc; simp [WrapParameters.loop]
  | cons p rest ih =>
    intro acc
    rw [WrapParameters.loop]
    simp only [ih, sos.Array.push, List.map_cons, List.append_assoc, List.singleton_append]

/-- The loop of `WrapParametersSourcemap` leaves `parametersArray` as it is. -/
theorem WrapParametersSourcemap_loop_eq (K : SerializeKey)
    (ps : List snowcrash.ParameterSourceMap) :
    ∀ acc : sos.Array, WrapParametersSourcemap.loop K ps acc = acc := by
  induction ps with
  | nil => intro acc; rfl
  | cons p rest ih =>
    intro acc
    rw [WrapParametersSourcemap.loop]
    exact ih acc

/-- C27, what the code does. `WrapParameters` returns an array with exactly one entry per
parameter, in order, but `WrapParametersSourcemap` returns the empty array for every parameter
collection: the body of its loop fills the object `parameter` and never pushes it. On the
source map of a collection of one parameter the result has no entry, where the plain
serializer returns one entry for a collection of one parameter. -/
theorem C27_WrapParametersSourcemap_empty :
    (∀ (K : SerializeKey) (parameters : List snowcrash.Parameter),
      WrapParameters K parameters =
        parameters.map (fun p => sos.Base.object (WrapParameters.parameter K p)) ∧
      (WrapParameters K parameters).length = parameters.length) ∧
    (∀ (K : SerializeKey) (parameters : snowcrash.ParametersSourceMap),
      WrapParametersSourcemap K parameters = []) ∧
    Scenario.idParameterSourceMap.collection.length = 1 ∧
    (WrapParametersSourcemap Scenario.keys Scenario.idParameterSourceMap).length = 0 ∧
    (WrapParameters Scenario.keys [Scenario.idParameter]).length = 1 := by
  refine ⟨fun K ps => ?_, fun K ps => ?_, rfl, rfl, rfl⟩
  · have h : WrapParameters K ps =
        ps.map (fun p => sos.Base.object (WrapParameters.parameter K p)) := by
      unfold WrapParameters
      rw [WrapParameters_loop_eq]
      rfl
    exact ⟨h, by rw [h, List.length_map]⟩
  · unfold WrapParametersSourcemap
    exact WrapParametersSourcemap_loop_eq K _ []

end drafter

namespace drafter

open refract

/-! ### The dispatch on value members -/

/-- C28. Value-member dispatch is narrower than Property dispatch. `MsonValueToRefract` builds
a value member of declared type Boolean, Number or String as that kind; it builds every value
member of declared type Undefined as String kind, whatever its values and sections (never as
Object, so that with two or more literals it fails with the cardinality error); and it fails
with the runtime error "Unhandled type of ValueMember" for every value member of declared type
Array, Enum or Object, whatever its values and sections. -/
theorem C28_value_dispatch (value : mson.ValueMember) :
    MsonElementToRefract (.ValueClass value) = MsonValueToRefract value ∧
    (value.valueDefinition.typeDefinition.typeSpecification.name.base = .BooleanTypeName →
      MsonValueToRefract value = RefractElementFromValue .BooleanElement value ∧
      ∀ e, MsonValueToRefract value = .ok e → e.kind = .BooleanElement) ∧
    (value.valueDefinition.typeDefinition.typeSpecification.name.base = .NumberTypeName →
      MsonValueToRefract value = RefractElementFromValue .NumberElement value ∧
      ∀ e, MsonValueToRefract value = .ok e → e.kind = .NumberElement) ∧
    (value.valueDefinition.typeDefinition.typeSpecification.name.base = .StringTypeName →
      MsonValueToRefract value = RefractElementFromValue .StringElement value ∧
      ∀ e, MsonValueToRefract value = .ok e → e.kind = .StringElement) ∧
    (value.valueDefinition.typeDefinition.typeSpecification.name.base = .UndefinedTypeName →
      MsonValueToRefract value = RefractElementFromValue .StringElement value ∧
      (∀ e, MsonValueToRefract value = .ok e → e.kind = .StringElement) ∧
      (value.valueDefinition.values.length ≥ 2 →
        MsonValueToRefract value =
          .error (.logic_error "For primitive types is just one value supported"))) ∧
    (value.valueDefinition.typeDefinition.typeSpecification.name.base = .ArrayTypeName ∨
      value.valueDefinition.typeDefinition.typeSpecification.name.base = .EnumTypeName ∨
      value.valueDefinition.typeDefinition.typeSpecification.name.base = .ObjectTypeName →
      MsonValueToRefract value = .error (.runtime_error "Unhandled type of ValueMember")) := by
  have hk : ∀ (T : ElementType),
      MsonValueToRefract value = RefractElementFromValue T value →
      ∀ e, MsonValueToRefract value = .ok e → e.kind = T := by
    intro T h e he
    rw [h] at he
    exact (RefractElementFromValue_ok T value e he).1
  refine ⟨by rw [MsonElementToRefract_eq], fun hb => ?_, fun hb => ?_, fun hb => ?_,
    fun hb => ?_, fun hb => ?_⟩
  · have h : MsonValueToRefract value = RefractElementFromValue .BooleanElement value := by
      unfold MsonValueToRefract; rw [hb]
    exact ⟨h, hk _ h⟩
  · have h : MsonValueToRefract value = RefractElementFromValue .NumberElement value := by
      unfold MsonValueToRefract; rw [hb]
    exact ⟨h, hk _ h⟩
  · have h : MsonValueToRefract value = RefractElementFromValue .StringElement value := by
      unfold MsonValueToRefract; rw [hb]
    exact ⟨h, hk _ h⟩
  · have h : MsonValueToRefract value = RefractElementFromValue .StringElement value := by
      unfold MsonValueToRefract; rw [hb]
    refine ⟨h, hk _ h, fun hl => ?_⟩
    rw [h]
    obtain ⟨d, vd, sections⟩ := value
    simp only [mson.ValueMember.valueDefinition] at hl
    have hv : vd.values.isEmpty = false := by
      cases hvs : vd.values with
      | nil => rw [hvs] at hl; simp at hl
      | cons _ _ => rfl
    rw [RefractElementFromValue_eq,
      RefractElementFromValue.head_of_extract_error .StringElement d vd _ hv
        (ExtractValues_scalar_many .StringElement vd (Or.inr (Or.inr rfl)) (by omega))]
  · unfold MsonValueToRefract
    rcases hb with hb | hb | hb <;> rw [hb] <;> rfl

/-- C28 on a value member of declared type Undefined with two literals (cardinality error)
and on a value member of declared type Array ("Unhandled type of ValueMember"). -/
theorem C28_value_dispatch_witness :
    MsonValueToRefract Scenario.undefinedPair =
      .error (.logic_error "For primitive types is just one value supported") ∧
    MsonValueToRefract Scenario.arrayValue =
      .error (.runtime_error "Unhandled type of ValueMember") :=
  ⟨((C28_value_dispatch Scenario.undefinedPair).2.2.2.2.1 rfl).2.2 (by decide),
    (C28_value_dispatch Scenario.arrayValue).2.2.2.2.2 (Or.inl rfl)⟩

end drafter

namespace drafter

open refract

/-! ### A single nested type name that is not scalar -/

/-- C29. Composite value extraction does not fall back to String for a single non-scalar
nested type. For a value definition with a non-empty value list whose type definition declares
exactly one nested type name that is not Boolean, Number or String (that is Array, Enum,
Object or Undefined), the composite extraction fails with the logic error "Out of scope - this
should never happen" and produces no leaves, and so does the build of every node built as an
Array or Object from it: `RefractElementFromValue`, `RefractElementFromProperty`, and
`MsonPropertyToRefract` on a Property of declared type Enum, Array or Object, or of declared
type Undefined with children. -/
theorem C29_nonscalar_nested (vd : mson.ValueDefinition) (t : mson.TypeName)
    (hv : vd.values ≠ []) (hn : vd.typeDefinition.typeSpecification.nestedTypes = [t])
    (ht : t.base ≠ .BooleanTypeName ∧ t.base ≠ .NumberTypeName ∧ t.base ≠ .StringTypeName) :
    (t.base = .ArrayTypeName ∨ t.base = .EnumTypeName ∨ t.base = .ObjectTypeName ∨
      t.base = .UndefinedTypeName) ∧
    ExtractValues.composite vd =
      .error (.logic_error "Out of scope - this should never happen") ∧
    (∀ T : ElementType, T = .ArrayElement ∨ T = .ObjectElement →
      ExtractValues T vd = .error (.logic_error "Out of scope - this should never happen") ∧
      ∀ (d : String) (sections : List mson.TypeSection),
        RefractElementFromValue T (.mk d vd sections) =
          .error (.logic_error "Out of scope - this should never happen") ∧
        ∀ name : mson.PropertyName,
          RefractElementFromProperty T (.mk name (.mk d vd sections)) =
            .error (.logic_error "Out of scope - this should never happen")) ∧
    (∀ (name : mson.PropertyName) (d : String) (sections : List mson.TypeSection),
      vd.typeDefinition.typeSpecification.name.base = .EnumTypeName ∨
      vd.typeDefinition.typeSpecification.name.base = .ArrayTypeName ∨
      vd.typeDefinition.typeSpecification.name.base = .ObjectTypeName ∨
      (vd.typeDefinition.typeSpecification.name.base = .UndefinedTypeName ∧
        hasChildren (.mk d vd sections) = true) →
      MsonPropertyToRefract (.mk name (.mk d vd sections)) =
        .error (.logic_error "Out of scope - this should never happen")) := by
  have hc : ExtractValues.composite vd =
      .error (.logic_error "Out of scope - this should never happen") := by
    apply ExtractValues.composite_of_error vd hv
    simp only [hn, List.length_singleton, if_true, List.headD_cons]
    obtain ⟨h1, h2, h3⟩ := ht
    cases hb : t.base <;> first | rfl | exact absurd hb h1 | exact absurd hb h2 | exact absurd hb h3
  have hne : vd.values.isEmpty = false := by
    cases hl : vd.values with
    | nil => exact absurd hl hv
    | cons _ _ => rfl
  have hx : ∀ T : ElementType, T = .ArrayElement ∨ T = .ObjectElement →
      ExtractValues T vd = .error (.logic_error "Out of scope - this should never happen") := by
    intro T hT
    rcases hT with rfl | rfl <;> simp only [ExtractValues, hc] <;> rfl
  have hval : ∀ T : ElementType, T = .ArrayElement ∨ T = .ObjectElement →
      ∀ (d : String) (sections : List mson.TypeSection),
      RefractElementFromValue T (.mk d vd sections) =
        .error (.logic_error "Out of scope - this should never happen") := by
    intro T hT d sections
    rw [RefractElementFromValue_eq,
      RefractElementFromValue.head_of_extract_error T d vd _ hne (hx T hT)]
  have hprop : ∀ T : ElementType, T = .ArrayElement ∨ T = .ObjectElement →
      ∀ (d : String) (sections : List mson.TypeSection) (name : mson.PropertyName),
      RefractElementFromProperty T (.mk name (.mk d vd sections)) =
        .error (.logic_error "Out of scope - this should never happen") := by
    intro T hT d sections name
    rw [RefractElementFromProperty_eq]
    simp only [mson.PropertyMember.toValueMember, hval T hT d sections]
  refine ⟨?_, hc, fun T hT => ⟨hx T hT, fun d sections =>
    ⟨hval T hT d sections, hprop T hT d sections⟩⟩, fun name d sections hb => ?_⟩
  · obtain ⟨h1, h2, h3⟩ := ht
    cases hb : t.base <;> simp_all
  · unfold MsonPropertyToRefract
    simp only [mson.PropertyMember.toValueMember, mson.ValueMember.valueDefinition]
    rcases hb with hb | hb | hb | ⟨hb, hch⟩
    · rw [hb]
      simp only [hprop .ArrayElement (Or.inl rfl) d sections name]
      rfl
    · rw [hb]
      exact hprop .ArrayElement (Or.inl rfl) d sections name
    · rw [hb]
      exact hprop .ObjectElement (Or.inr rfl) d sections name
    · rw [hb]
      simp only [hch, if_true]
      exact hprop .ObjectElement (Or.inr rfl) d sections name

/-- C29 on the Array Property with the literals "a", "b" and the single nested type name
Object: the build fails with "Out of scope - this should never happen". -/
theorem C29_nonscalar_nested_witness :
    MsonPropertyToRefract
      (.mk (Scenario.propertyName "p") (.mk "" (Scenario.arrayOf .ObjectTypeName ["a", "b"]) []))
      = .error (.logic_error "Out of scope - this should never happen") :=
  (C29_nonscalar_nested (Scenario.arrayOf .ObjectTypeName ["a", "b"])
    ⟨.ObjectTypeName, ⟨"", false⟩⟩ (by decide) rfl ⟨by decide, by decide, by decide⟩).2.2.2
    (Scenario.propertyName "p") "" [] (Or.inr (Or.inl rfl))

end drafter

namespace drafter

open refract

/-! ### The wrapper of an Enum property -/

@[simp] theorem Element.meta_element (e : Element) (n : String) :
    (e.element n).meta = e.meta := by
  cases e; rfl

@[simp] theorem Element.attributes_element (e : Element) (n : String) :
    (e.element n).attributes = e.attributes := by
  cases e; rfl

/-- `ArrayToEnum` wraps the re-tagged element in a fresh Object. -/
theorem ArrayToEnum_eq (array : Element) :
    ArrayToEnum array = .mk "" true false [] [] (.object [array.element "enum"]) := rfl

/-- C30. For every Enum-typed Property that builds, the outer wrapping Object element has
empty meta, empty attributes, no element name and exactly one child; the name of the property
(meta "name"), its description (meta "description"), and the attributes "typeAttributes",
"sample" and "default" are all carried by that child, the inner Array element tagged "enum",
not by the wrapper. -/
theorem C30_enum_wrapper (property : mson.PropertyMember) (e : Element)
    (ht : property.toValueMember.valueDefinition.typeDefinition.typeSpecification.name.base
      = .EnumTypeName)
    (h : MsonPropertyToRefract property = .ok e) :
    ∃ array, e = .mk "" true false [] [] (.object [array]) ∧
      e.kind = .ObjectElement ∧ e.meta = [] ∧ e.attributes = [] ∧ e.children = [array] ∧
      array.kind = .ArrayElement ∧ array.element_ = "enum" ∧
      array.meta.lookup "name" =
        some (.mk "" true false [] [] (.string property.name.literal)) ∧
      array.meta.lookup "description" =
        (if property.toValueMember.description.isEmpty then none
          else some (.mk "" true false [] [] (.string property.toValueMember.description))) ∧
      array.attributes.lookup "typeAttributes" =
        MsAttributesToRefract property.toValueMember.valueDefinition.typeDefinition.attributes ∧
      ∃ samples defaults : List Element,
        (property.toValueMember.sections.filter fun s => s.klass = .SampleClass).map
          (sectionElement .ArrayElement) = samples.map Except.ok ∧
        (property.toValueMember.sections.filter fun s => s.klass = .DefaultClass).map
          (sectionElement .ArrayElement) = defaults.map Except.ok ∧
        array.attributes.lookup "sample" = collapse samples ∧
        array.attributes.lookup "default" = collapse defaults := by
  unfold MsonPropertyToRefract at h
  rw [ht] at h
  obtain ⟨a, ha, rfl⟩ := Except.map_eq_ok h
  rw [RefractElementFromProperty_eq] at ha
  cases hv : RefractElementFromValue .ArrayElement property.toValueMember with
  | error err => simp only [hv] at ha; cases ha
  | ok e0 =>
    simp only [hv, Except.ok.injEq] at ha
    subst ha
    obtain ⟨hk, hm⟩ := RefractElementFromValue_ok _ _ e0 hv
    obtain ⟨samples, defaults, h1, h2, h3, h4, h5⟩ :=
      RefractElementFromValue_attributes _ _ e0 hv
    refine ⟨(e0.setMeta "name" (IElement.Create property.name.literal)).element "enum",
      rfl, rfl, rfl, rfl, rfl, by simpa using hk, by simp, ?_, ?_, by simpa using h3,
      samples, defaults, h1, h2, by simpa using h4, by simpa using h5⟩
    · rw [Element.meta_element, Element.meta_setMeta, Collection.lookup_assign]
      simp only [if_true]
      rfl
    · rw [Element.meta_element, Element.meta_setMeta, Collection.lookup_assign, hm]
      by_cases hd : property.toValueMember.description.isEmpty = true
      · simp [hd, Collection.lookup]
      · simp only [hd, if_false]
        simp [Collection.lookup]
        rfl

end drafter

namespace drafter

open refract

/-- C30 on an Enum-typed Property named "e" with a description, the flag `required`, a Sample
section and a Default section: all of them are found on the inner Array tagged "enum". -/
theorem C30_enum_wrapper_witness :
    ∃ array, MsonPropertyToRefract Scenario.enumFull =
        .ok (.mk "" true false [] [] (.object [array])) ∧
      array.element_ = "enum" ∧
      array.meta.lookup "name" = some (.mk "" true false [] [] (.string "e")) ∧
      array.meta.lookup "description" = some (.mk "" true false [] [] (.string "kind")) ∧
      array.attributes.lookup "typeAttributes" = some (.mk "" true false [] []
        (.array [.mk "" true false [] [] (.string "required")])) ∧
      array.attributes.lookup "sample" = some (.mk "" true false [] []
        (.array [.mk "" true false [] [] (.string "a")])) ∧
      array.attributes.lookup "default" = some (.mk "" true false [] []
        (.array [.mk "" true false [] [] (.string "b")])) := by
  have inj : ∀ xs ys : List Element,
      xs.map (Except.ok : Element → Except Error Element) = ys.map Except.ok → xs = ys :=
    fun xs ys hxy => List.map_injective_iff.mpr (fun a b hab => Except.ok.inj hab) hxy
  obtain ⟨e, he0⟩ : ∃ e, MsonPropertyToRefract Scenario.enumFull = .ok e := ⟨_, rfl⟩
  obtain ⟨array, he, _, _, _, _, _, htag, hname, hdesc, hta, samples, defaults, hs, hd, hsa,
    hde⟩ := C30_enum_wrapper Scenario.enumFull e rfl he0
  subst he
  have hs2 : samples = [.mk "" true false [] []
      (.array [.mk "" true false [] [] (.string "a")])] := inj _ _ (hs.symm.trans rfl)
  have hd2 : defaults = [.mk "" true false [] []
      (.array [.mk "" true false [] [] (.string "b")])] := inj _ _ (hd.symm.trans rfl)
  exact ⟨array, he0, htag, hname, hdesc.trans rfl, hta.trans rfl,
    by rw [hsa, hs2]; rfl, by rw [hde, hd2]; rfl⟩

end drafter

namespace drafter

open refract

/-! ### Nodes without direct values -/

/-- A node without direct values and without sections builds, for every element class: the
built element has the class, no content, and the initial value of the class. -/
theorem RefractElementFromValue_of_empty (T : ElementType) (d : String)
    (vd : mson.ValueDefinition) (hv : vd.values = []) :
    ∃ e, RefractElementFromValue T (.mk d vd []) = .ok e ∧ e.kind = T ∧ e.empty = true ∧
      e.value = Value.init T := by
  have hv2 : vd.values.isEmpty = true := by rw [hv]; rfl
  obtain ⟨e, he⟩ := RefractElementFromValue.head_of_empty T d vd hv2
  obtain ⟨hk, _, hc, _⟩ := RefractElementFromValue.head_ok T d vd e he
  refine ⟨e, by rw [RefractElementFromValue_nil, he], hk, ?_,
    RefractElementFromValue.head_value_of_empty T d vd e hv2 he⟩
  rw [Element.empty, hc, hv2]
  rfl

/-- The same for `RefractElementFromProperty`. -/
theorem RefractElementFromProperty_of_empty (T : ElementType) (name : mson.PropertyName)
    (d : String) (vd : mson.ValueDefinition) (hv : vd.values = []) :
    ∃ e, RefractElementFromProperty T (.mk name (.mk d vd [])) = .ok e ∧ e.kind = T ∧
      e.empty = true ∧ e.value = Value.init T := by
  obtain ⟨e, he, hk, hc, hval⟩ := RefractElementFromValue_of_empty T d vd hv
  refine ⟨e.setMeta "name" (IElement.Create name.literal), ?_, by simpa using hk, ?_,
    by simpa using hval⟩
  · rw [RefractElementFromProperty_eq]
    simp only [mson.PropertyMember.toValueMember, he, mson.PropertyMember.name]
  · simpa [Element.empty] using hc

/-- The only error of `FactoryFromType`. -/
theorem FactoryFromType_error (typeName : mson.BaseTypeName) (err : Error)
    (h : FactoryFromType typeName = .error err) :
    err = .logic_error "Out of scope - this should never happen" := by
  cases typeName <;> first | (cases h; done) | (cases h; rfl)

/-- The value extraction of a non-empty value list does not fail with the empty-value
error. -/
theorem ExtractValues_ne_empty_error (T : ElementType) (vd : mson.ValueDefinition)
    (hv : vd.values ≠ []) :
    ExtractValues T vd ≠ .error (.logic_error "Cannot extract values from empty container") := by
  have hne : vd.values.isEmpty = false := by
    cases hl : vd.values with
    | nil => exact absurd hl hv
    | cons _ _ => rfl
  have hp : ∀ {V : Type} (f : mson.Literal → V) (g : V → Value),
      g <$> ExtractValues.primitive f vd ≠
        .error (.logic_error "Cannot extract values from empty container") := by
    intro V f g
    unfold ExtractValues.primitive
    simp only [hne, Bool.false_eq_true, if_false]
    split
    · intro h
      injection h with h
      injection h with h
      exact absurd h (by decide)
    · intro h
      cases h
  have hc : ∀ g : List Element → Value,
      g <$> ExtractValues.composite vd ≠
        .error (.logic_error "Cannot extract values from empty container") := by
    intro g
    cases hf : FactoryFromType
      (if vd.typeDefinition.typeSpecification.nestedTypes.length = 1 then
        (vd.typeDefinition.typeSpecification.nestedTypes.headD
          ⟨.StringTypeName, ⟨"", false⟩⟩).base
      else .StringTypeName) with
    | error err =>
      rw [ExtractValues.composite_of_error vd hv err hf]
      have herr := FactoryFromType_error _ err hf
      subst herr
      intro h
      injection h with h
      injection h with h
      exact absurd h (by decide)
    | ok f =>
      rw [ExtractValues.composite_of_factory vd hv f hf]
      intro h
      cases h
  cases T
  · exact hp _ _
  · exact hp _ _
  · exact hp _ _
  · exact hc _
  · exact hc _

end drafter

namespace drafter

open refract

/-- The statements before the section loop never fail with the empty-value error: the value
extraction is only called on a non-empty value list. -/
theorem RefractElementFromValue.head_ne_empty_error (T : ElementType) (d : String)
    (vd : mson.ValueDefinition) :
    RefractElementFromValue.head T d vd ≠
      .error (.logic_error "Cannot extract values from empty container") := by
  intro h
  by_cases hv : vd.values.isEmpty = true
  · obtain ⟨e, he⟩ := RefractElementFromValue.head_of_empty T d vd hv
    rw [he] at h
    cases h
  · have hv2 : vd.values.isEmpty = false := by simpa using hv
    have hne : vd.values ≠ [] := by
      intro h0
      rw [h0] at hv2
      cases hv2
    cases hx : ExtractValues T vd with
    | error err =>
      rw [RefractElementFromValue.head_of_extract_error T d vd err hv2 hx] at h
      injection h with h
      rw [h] at hx
      exact ExtractValues_ne_empty_error T vd hne hx
    | ok v =>
      obtain ⟨e, he⟩ := RefractElementFromValue.head_of_extract T d vd v hv2 hx
      rw [he] at h
      cases h

/-- C31, as stated, fails: the Enum-typed Property without direct value and without section
builds, but the element returned is not an element without content: it is the Object wrapper,
whose content is its one child, the Array tagged "enum" (which is the element without
content). -/
theorem C31_counterexample :
    Scenario.enumEmpty.toValueMember.valueDefinition.values = [] ∧
    Scenario.enumEmpty.toValueMember.sections = [] ∧
    ∃ e array, MsonPropertyToRefract Scenario.enumEmpty = .ok e ∧
      e.kind = .ObjectElement ∧ e.empty = false ∧ e.children = [array] ∧
      array.kind = .ArrayElement ∧ array.empty = true :=
  ⟨rfl, rfl, _, _, rfl, rfl, rfl, rfl, rfl, rfl⟩

/-- C31, amended. An empty direct value list is not an error for the builder. A Property of
declared type Boolean, Number, String, Array, Object or Undefined, and a Value member of
declared type Boolean, Number, String or Undefined, with an empty value list and no type
sections, builds: the element returned has the dispatched kind (String for Undefined) and
absent content (`empty()` is true). A Property of declared type Enum with an empty value list
and no type sections builds too: the element returned is the Object wrapper whose one child
is the Array tagged "enum", and that Array has absent content. The empty-value error of
`ExtractValues` is unreachable from `RefractElementFromValue`: the statements before the
section loop never fail with it, nor does the build of a node without sections. -/
theorem C31_empty_values_build (name : mson.PropertyName) (d : String)
    (vd : mson.ValueDefinition) (hv : vd.values = []) :
    (∀ T : ElementType,
      (vd.typeDefinition.typeSpecification.name.base = .BooleanTypeName ∧
          T = .BooleanElement) ∨
        (vd.typeDefinition.typeSpecification.name.base = .NumberTypeName ∧
          T = .NumberElement) ∨
        (vd.typeDefinition.typeSpecification.name.base = .StringTypeName ∧
          T = .StringElement) ∨
        (vd.typeDefinition.typeSpecification.name.base = .ArrayTypeName ∧
          T = .ArrayElement) ∨
        (vd.typeDefinition.typeSpecification.name.base = .ObjectTypeName ∧
          T = .ObjectElement) ∨
        (vd.typeDefinition.typeSpecification.name.base = .UndefinedTypeName ∧
          T = .StringElement) →
      ∃ e, MsonPropertyToRefract (.mk name (.mk d vd [])) = .ok e ∧ e.kind = T ∧
        e.empty = true ∧ e.value = Value.init T) ∧
    (vd.typeDefinition.typeSpecification.name.base = .EnumTypeName →
      ∃ array, MsonPropertyToRefract (.mk name (.mk d vd [])) =
          .ok (.mk "" true false [] [] (.object [array])) ∧
        array.kind = .ArrayElement ∧ array.element_ = "enum" ∧ array.empty = true ∧
        array.value = .array []) ∧
    (∀ T : ElementType,
      (vd.typeDefinition.typeSpecification.name.base = .BooleanTypeName ∧
          T = .BooleanElement) ∨
        (vd.typeDefinition.typeSpecification.name.base = .NumberTypeName ∧
          T = .NumberElement) ∨
        (vd.typeDefinition.typeSpecification.name.base = .StringTypeName ∧
          T = .StringElement) ∨
        (vd.typeDefinition.typeSpecification.name.base = .UndefinedTypeName ∧
          T = .StringElement) →
      ∃ e, MsonValueToRefract (.mk d vd []) = .ok e ∧ e.kind = T ∧ e.empty = true ∧
        e.value = Value.init T) ∧
    (∀ (T : ElementType) (d2 : String) (vd2 : mson.ValueDefinition),
      RefractElementFromValue.head T d2 vd2 ≠
        .error (.logic_error "Cannot extract values from empty container") ∧
      RefractElementFromValue T (.mk d2 vd2 []) ≠
        .error (.logic_error "Cannot extract values from empty container")) := by
  have hch : hasChildren (.mk d vd []) = false := by
    simp [hasChildren, hasMembers, mson.ValueMember.valueDefinition, mson.ValueMember.sections,
      hv]
  refine ⟨fun T hT => ?_, fun hb => ?_, fun T hT => ?_, fun T d2 vd2 => ⟨?_, ?_⟩⟩
  · have hp := RefractElementFromProperty_of_empty T name d vd hv
    unfold MsonPropertyToRefract
    simp only [mson.PropertyMember.toValueMember, mson.ValueMember.valueDefinition]
    rcases hT with ⟨hb, rfl⟩ | ⟨hb, rfl⟩ | ⟨hb, rfl⟩ | ⟨hb, rfl⟩ | ⟨hb, rfl⟩ | ⟨hb, rfl⟩ <;>
      rw [hb]
    · exact hp
    · exact hp
    · exact hp
    · exact hp
    · exact hp
    · simp only [hch, Bool.false_eq_true, if_false]
      exact hp
  · obtain ⟨e, he, hk, hc, hval⟩ :=
      RefractElementFromProperty_of_empty .ArrayElement name d vd hv
    refine ⟨e.element "enum", ?_, by simpa using hk, by simp, ?_, by simpa using hval⟩
    · unfold MsonPropertyToRefract
      simp only [mson.PropertyMember.toValueMember, mson.ValueMember.valueDefinition, hb, he]
      rfl
    · simpa [Element.empty] using hc
  · have hp := RefractElementFromValue_of_empty T d vd hv
    unfold MsonValueToRefract
    simp only [mson.ValueMember.valueDefinition]
    rcases hT with ⟨hb, rfl⟩ | ⟨hb, rfl⟩ | ⟨hb, rfl⟩ | ⟨hb, rfl⟩ <;> rw [hb] <;> exact hp
  · exact RefractElementFromValue.head_ne_empty_error T d2 vd2
  · rw [RefractElementFromValue_nil]
    exact RefractElementFromValue.head_ne_empty_error T d2 vd2

/-- C31, amended, on the Array Property and on the Undefined Value member without direct
value and without section: an Array, and a String, without content. -/
theorem C31_empty_values_build_witness :
    (∃ e, MsonPropertyToRefract
        (.mk (Scenario.propertyName "p") (.mk "" (Scenario.valueDefinition .ArrayTypeName []) []))
        = .ok e ∧ e.kind = .ArrayElement ∧ e.empty = true ∧ e.value = .array []) ∧
    (∃ e, MsonValueToRefract (.mk "" (Scenario.valueDefinition .UndefinedTypeName []) [])
        = .ok e ∧ e.kind = .StringElement ∧ e.empty = true ∧ e.value = .string "") :=
  ⟨(C31_empty_values_build (Scenario.propertyName "p") ""
      (Scenario.valueDefinition .ArrayTypeName []) rfl).1 .ArrayElement
      (Or.inr (Or.inr (Or.inr (Or.inl ⟨rfl, rfl⟩)))),
    (C31_empty_values_build (Scenario.propertyName "p") ""
      (Scenario.valueDefinition .UndefinedTypeName []) rfl).2.2.1 .StringElement
      (Or.inr (Or.inr (Or.inr ⟨rfl, rfl⟩)))⟩

end drafter

namespace drafter

open refract

/-! ### A first section without nested elements, on an Array or Object node -/

/-- The composite section extraction fails on a section without nested elements. -/
theorem ExtractTypeSection_of_no_elements (T : ElementType) (s : mson.TypeSection)
    (hT : T = .ArrayElement ∨ T = .ObjectElement) (hs : s.elements = []) :
    ExtractTypeSection T s =
      .error (.logic_error "Cannot extract values from empty container") := by
  obtain ⟨k, d, v, els⟩ := s
  simp only [mson.TypeSection.elements] at hs
  subst hs
  rcases hT with rfl | rfl <;> rfl

/-- C32. For a node built as an Array or Object with an empty direct value list whose first
type section has an empty nested element list, the build fails with the logic error "Cannot
extract values from empty container" whatever the class of that section (MemberType, Sample,
Default or BlockDescription) and whatever follows it: the content of the section is extracted
before its class is checked. So does the build of a Property of declared type Array, Enum or
Object with such a first section, for instance an Array property with a Sample section
carrying only scalar text. -/
theorem C32_first_section_without_elements (T : ElementType) (d : String)
    (vd : mson.ValueDefinition) (s : mson.TypeSection) (rest : List mson.TypeSection)
    (hT : T = .ArrayElement ∨ T = .ObjectElement) (hv : vd.values = [])
    (hs : s.elements = []) :
    RefractElementFromValue T (.mk d vd (s :: rest)) =
      .error (.logic_error "Cannot extract values from empty container") ∧
    (∀ name : mson.PropertyName,
      RefractElementFromProperty T (.mk name (.mk d vd (s :: rest))) =
        .error (.logic_error "Cannot extract values from empty container")) ∧
    (∀ name : mson.PropertyName,
      (vd.typeDefinition.typeSpecification.name.base = .ArrayTypeName ∧ T = .ArrayElement) ∨
      (vd.typeDefinition.typeSpecification.name.base = .EnumTypeName ∧ T = .ArrayElement) ∨
      (vd.typeDefinition.typeSpecification.name.base = .ObjectTypeName ∧ T = .ObjectElement) →
      MsonPropertyToRefract (.mk name (.mk d vd (s :: rest))) =
        .error (.logic_error "Cannot extract values from empty container")) := by
  have hv2 : vd.values.isEmpty = true := by rw [hv]; rfl
  obtain ⟨e0, he0⟩ := RefractElementFromValue.head_of_empty T d vd hv2
  obtain ⟨_, _, hc, _⟩ := RefractElementFromValue.head_ok T d vd e0 he0
  rw [hv2] at hc
  have hx := ExtractTypeSection_of_no_elements T s hT hs
  have h1 : RefractElementFromValue T (.mk d vd (s :: rest)) =
      .error (.logic_error "Cannot extract values from empty container") := by
    rw [RefractElementFromValue_eq]
    simp only [he0, List.isEmpty_cons, Bool.not_false, if_true]
    rw [RefractElementFromValue.loop]
    by_cases hk : s.klass = .MemberTypeClass
    · simp only [hk, if_true, Element.empty, hc, Bool.not_true, Bool.not_false,
        Bool.false_eq_true, if_false, hx]
    · simp only [hk, if_false, hx]
  have h2 : ∀ name : mson.PropertyName,
      RefractElementFromProperty T (.mk name (.mk d vd (s :: rest))) =
        .error (.logic_error "Cannot extract values from empty container") := by
    intro name
    rw [RefractElementFromProperty_eq]
    simp only [mson.PropertyMember.toValueMember, h1]
  refine ⟨h1, h2, fun name hb => ?_⟩
  unfold MsonPropertyToRefract
  simp only [mson.PropertyMember.toValueMember, mson.ValueMember.valueDefinition]
  rcases hb with ⟨hb, rfl⟩ | ⟨hb, rfl⟩ | ⟨hb, rfl⟩
  · rw [hb]
    exact h2 name
  · rw [hb]
    simp only [h2 name]
    rfl
  · rw [hb]
    exact h2 name

/-- C32 on an Array property without direct value whose only section is a Sample section
carrying only scalar text. -/
theorem C32_first_section_without_elements_witness :
    MsonPropertyToRefract Scenario.arrayWithScalarSample =
      .error (.logic_error "Cannot extract values from empty container") :=
  (C32_first_section_without_elements .ArrayElement ""
    (Scenario.valueDefinition .ArrayTypeName []) (.mk .SampleClass "" "text" []) []
    (Or.inl rfl) rfl rfl).2.2 (Scenario.propertyName "p") (Or.inl ⟨rfl, rfl⟩)

end drafter

namespace drafter

open refract

/-! ### The legacy serializer and the element builder on type attributes -/

/-- The tags an Array of String elements holds. -/
theorem elementTags_array (tags : List String) :
    elementTags (some (.mk "" true false [] []
      (.array (tags.map fun tag => Element.mk "" true false [] [] (.string tag))))) = tags := by
  have hf : ((fun x : Element =>
      match x.value with
      | .string tag => some tag
      | _ => none) ∘ fun tag => Element.mk "" true false [] [] (.string tag)) = some := by
    funext tag
    rfl
  show (tags.map fun tag => Element.mk "" true false [] [] (.string tag)).filterMap
    (fun x : Element =>
      match x.value with
      | .string tag => some tag
      | _ => none) = tags
  rw [List.filterMap_map, hf, List.filterMap_some]

/-- The tags the element of `MsAttributesToRefract` holds are the tags of the set flags. -/
theorem elementTags_MsAttributesToRefract (ta : mson.TypeAttributes) :
    elementTags (MsAttributesToRefract ta) = typeAttributeTags ta := by
  rw [MsAttributesToRefract_eq]
  cases h : typeAttributeTags ta with
  | nil => rfl
  | cons t ts => exact elementTags_array (t :: ts)

/-- The array of `WrapTypeAttributes`, given the tags of the set flags: the first of them, if
any. -/
theorem WrapTypeAttributes_eq (ta : mson.TypeAttributes) :
    WrapTypeAttributes ta = ((typeAttributeTags ta).take 1).map sos.Base.string := by
  unfold WrapTypeAttributes typeAttributeTags
  by_cases h1 : ta &&& mson.RequiredTypeAttribute = 0 <;>
  by_cases h2 : ta &&& mson.OptionalTypeAttribute = 0 <;>
  by_cases h3 : ta &&& mson.DefaultTypeAttribute = 0 <;>
  by_cases h4 : ta &&& mson.SampleTypeAttribute = 0 <;>
  by_cases h5 : ta &&& mson.FixedTypeAttribute = 0 <;>
  simp [h1, h2, h3, h4, h5, List.filter, sos.Array.push]

/-- The number of set flags is the number of their tags. -/
theorem flagCount_eq (ta : mson.TypeAttributes) :
    flagCount ta = (typeAttributeTags ta).length := by
  unfold flagCount typeAttributeTags
  by_cases h1 : ta &&& mson.RequiredTypeAttribute = 0 <;>
  by_cases h2 : ta &&& mson.OptionalTypeAttribute = 0 <;>
  by_cases h3 : ta &&& mson.DefaultTypeAttribute = 0 <;>
  by_cases h4 : ta &&& mson.SampleTypeAttribute = 0 <;>
  by_cases h5 : ta &&& mson.FixedTypeAttribute = 0 <;>
  simp [h1, h2, h3, h4, h5, List.filter]

/-- The tags of an array of strings. -/
theorem legacyTags_map_string (l : List String) :
    legacyTags (l.map sos.Base.string) = l := by
  induction l with
  | nil => rfl
  | cons a l ih =>
    unfold legacyTags at ih ⊢
    simp [List.filterMap_cons, ih]

/-- C33. The legacy serializer and the element builder agree on type attributes only up to
the first tag. For every attribute flag set, `WrapTypeAttributes` returns an array of at most
one entry, a string, which is the first tag of the sequence `MsAttributesToRefract` produces
for the same flags, and the empty array where the mapper signals "no attribute"; the two tag
lists are equal exactly when at most one of the five flags is set. -/
theorem C33_legacy_type_attributes (ta : mson.TypeAttributes) :
    (WrapTypeAttributes ta).length ≤ 1 ∧
    WrapTypeAttributes ta = (legacyTags (WrapTypeAttributes ta)).map sos.Base.string ∧
    legacyTags (WrapTypeAttributes ta) = (elementTags (MsAttributesToRefract ta)).take 1 ∧
    (MsAttributesToRefract ta = none → WrapTypeAttributes ta = []) ∧
    (legacyTags (WrapTypeAttributes ta) = elementTags (MsAttributesToRefract ta) ↔
      flagCount ta ≤ 1) ∧
    WrapTypeAttributes (mson.RequiredTypeAttribute ||| mson.FixedTypeAttribute) =
      [.string "required"] ∧
    elementTags (MsAttributesToRefract (mson.RequiredTypeAttribute ||| mson.FixedTypeAttribute))
      = ["required", "fixed"] := by
  have h1 := WrapTypeAttributes_eq ta
  have h2 := elementTags_MsAttributesToRefract ta
  have h3 : legacyTags (WrapTypeAttributes ta) = (typeAttributeTags ta).take 1 := by
    rw [h1, legacyTags_map_string]
  refine ⟨?_, ?_, ?_, fun hn => ?_, ?_, rfl, rfl⟩
  · rw [h1, List.length_map, List.length_take]
    exact Nat.min_le_left _ _
  · rw [h3, h1]
  · rw [h3, h2]
  · have : typeAttributeTags ta = [] := by
      rw [← h2, hn]
      rfl
    rw [h1, this]
    rfl
  · rw [h3, h2, flagCount_eq]
    constructor
    · intro h
      have := congrArg List.length h
      rw [List.length_take] at this
      omega
    · intro h
      exact List.take_of_length_le h

end drafter

namespace drafter

open refract

/-! ### The element name of the root -/

end drafter

namespace drafter

/-! ### The legacy serializer on type names -/

/-- C35. `WrapTypeName` returns Null for an empty type name; for a non-empty type name whose
base is Boolean, String, Number, Array, Enum or Object it returns the string "boolean",
"string", "number", "array", "enum" or "object" respectively; and for a non-empty type name
with base Undefined it returns the symbol object of the symbol of the type name, with the
literal and the variable flag. -/
theorem C35_WrapTypeName (K : SerializeKey) (empty : mson.TypeName → Bool)
    (typeName : mson.TypeName) :
    (empty typeName = true → WrapTypeName K empty typeName = .null) ∧
    (empty typeName = false →
      (typeName.base = .BooleanTypeName → WrapTypeName K empty typeName = .string "boolean") ∧
      (typeName.base = .StringTypeName → WrapTypeName K empty typeName = .string "string") ∧
      (typeName.base = .NumberTypeName → WrapTypeName K empty typeName = .string "number") ∧
      (typeName.base = .ArrayTypeName → WrapTypeName K empty typeName = .string "array") ∧
      (typeName.base = .EnumTypeName → WrapTypeName K empty typeName = .string "enum") ∧
      (typeName.base = .ObjectTypeName → WrapTypeName K empty typeName = .string "object") ∧
      (typeName.base = .UndefinedTypeName →
        WrapTypeName K empty typeName = .object (WrapSymbol K typeName.symbol))) ∧
    (K.Literal ≠ K.Variable →
      WrapSymbol K typeName.symbol =
        [(K.Literal, .string typeName.symbol.literal),
          (K.Variable, .boolean typeName.symbol.variable_)]) := by
  refine ⟨fun he => ?_, fun he => ⟨fun hb => ?_, fun hb => ?_, fun hb => ?_, fun hb => ?_,
    fun hb => ?_, fun hb => ?_, fun hb => ?_⟩, fun hk => ?_⟩
  · simp [WrapTypeName, he]
  · simp [WrapTypeName, he, hb]
  · simp [WrapTypeName, he, hb]
  · simp [WrapTypeName, he, hb]
  · simp [WrapTypeName, he, hb]
  · simp [WrapTypeName, he, hb]
  · simp [WrapTypeName, he, hb]
  · simp [WrapTypeName, he, hb]
  · simp [WrapSymbol, sos.Object.set, hk]

/-- C35 on the type name Number, on a named type "User" and on a type name that the method
`empty()` reports empty. -/
theorem C35_WrapTypeName_witness :
    WrapTypeName Scenario.keys (fun _ => false) ⟨.NumberTypeName, ⟨"", false⟩⟩ =
      .string "number" ∧
    WrapTypeName Scenario.keys (fun _ => false) ⟨.UndefinedTypeName, ⟨"User", false⟩⟩ =
      .object [("literal", .string "User"), ("variable", .boolean false)] ∧
    WrapTypeName Scenario.keys (fun _ => true) ⟨.UndefinedTypeName, ⟨"", false⟩⟩ = .null :=
  ⟨((C35_WrapTypeName Scenario.keys (fun _ => false) ⟨.NumberTypeName, ⟨"", false⟩⟩).2.1
      rfl).2.2.1 rfl,
    (((C35_WrapTypeName Scenario.keys (fun _ => false)
      ⟨.UndefinedTypeName, ⟨"User", false⟩⟩).2.1 rfl).2.2.2.2.2.2 rfl).trans rfl,
    (C35_WrapTypeName Scenario.keys (fun _ => true) ⟨.UndefinedTypeName, ⟨"", false⟩⟩).1 rfl⟩

end drafter

namespace VisitableBy

/-! ### The dispatch of a visit over a typelist -/

/-- The outcome of `InvokeVisit` on a typelist: the visit on the first type of the list the
visitor can be cast to, or the exception when there is none. -/
theorem InvokeVisit_eq {Hs Arg : Type} (dynamic_cast : Hs → Bool) (a : Arg)
    (tl : typelist Hs) (calls : List (Hs × Arg)) :
    InvokeVisit dynamic_cast a tl calls =
      (match tl.toList.find? dynamic_cast with
      | some H => (.ok (), calls ++ [(H, a)])
      | none => (.error (.runtime_error "Unknown visitor type"), calls)) := by
  induction tl with
  | last H =>
    rw [InvokeVisit]
    cases h : dynamic_cast H <;> simp [typelist.toList, List.find?, h]
  | cons H T ih =>
    rw [InvokeVisit]
    cases h : dynamic_cast H
    · simp only [Bool.false_eq_true, if_false, ih, typelist.toList, List.find?, h]
    · simp [typelist.toList, List.find?, h]

/-- C36. For a non-empty typelist [H1, ..., Hn] and a visitor `v`, `InvokeVisit(v, a)` calls
`visit(a)` exactly once, on the first `Hi`, in typelist order, that `v` can be dynamically
cast to, and throws the runtime error "Unknown visitor type" if and only if `v` can be cast to
none of H1..Hn, in which case no visit is called. -/
theorem C36_InvokeVisit {Hs Arg : Type} (dynamic_cast : Hs → Bool) (a : Arg)
    (tl : typelist Hs) (calls : List (Hs × Arg)) :
    tl.toList ≠ [] ∧
    (∀ (pre post : List Hs) (H : Hs), tl.toList = pre ++ H :: post →
      (∀ P ∈ pre, dynamic_cast P = false) → dynamic_cast H = true →
      InvokeVisit dynamic_cast a tl calls = (.ok (), calls ++ [(H, a)])) ∧
    ((InvokeVisit dynamic_cast a tl calls).1 = .error (.runtime_error "Unknown visitor type") ↔
      ∀ H ∈ tl.toList, dynamic_cast H = false) ∧
    ((∀ H ∈ tl.toList, dynamic_cast H = false) →
      InvokeVisit dynamic_cast a tl calls =
        (.error (.runtime_error "Unknown visitor type"), calls)) ∧
    ((∃ H ∈ tl.toList, dynamic_cast H = true) →
      ∃ H ∈ tl.toList, dynamic_cast H = true ∧
        InvokeVisit dynamic_cast a tl calls = (.ok (), calls ++ [(H, a)])) := by
  have hnone : (∀ H ∈ tl.toList, dynamic_cast H = false) →
      InvokeVisit dynamic_cast a tl calls =
        (.error (.runtime_error "Unknown visitor type"), calls) := by
    intro hall
    rw [InvokeVisit_eq]
    have : tl.toList.find? dynamic_cast = none := by
      rw [List.find?_eq_none]
      intro H hH
      simp [hall H hH]
    rw [this]
  have hsome : (∃ H ∈ tl.toList, dynamic_cast H = true) →
      ∃ H ∈ tl.toList, dynamic_cast H = true ∧
        InvokeVisit dynamic_cast a tl calls = (.ok (), calls ++ [(H, a)]) := by
    rintro ⟨H0, hH0, hc0⟩
    rw [InvokeVisit_eq]
    cases hf : tl.toList.find? dynamic_cast with
    | none =>
      rw [List.find?_eq_none] at hf
      exact absurd hc0 (hf H0 hH0)
    | some H => exact ⟨H, List.mem_of_find?_eq_some hf, List.find?_some hf, rfl⟩
  refine ⟨?_, ?_, ⟨fun h => ?_, fun h => by rw [hnone h]⟩, hnone, hsome⟩
  · cases tl <;> simp [typelist.toList]
  · intro pre post H htl hpre hH
    rw [InvokeVisit_eq, htl]
    have key : ∀ l : List Hs, (∀ P ∈ l, dynamic_cast P = false) →
        (l ++ H :: post).find? dynamic_cast = some H := by
      intro l
      induction l with
      | nil => intro _; simp [List.find?, hH]
      | cons P l ih =>
        intro hl
        have hP := hl P (List.mem_cons_self _ _)
        simp only [List.cons_append, List.find?, hP]
        exact ih (fun Q hQ => hl Q (List.mem_cons_of_mem _ hQ))
    have := key pre hpre
    rw [this]
  · intro H hH
    cases hc : dynamic_cast H with
    | false => rfl
    | true =>
      obtain ⟨H1, _, _, h1⟩ := hsome ⟨H, hH, hc⟩
      rw [h1] at h
      cases h

/-- C36 on the typelist [0, 1, 2] and a visitor that can be cast to the types 1 and 2 (the
visit is called once, on 1) and on a visitor that can be cast to none (the exception, no
visit). -/
theorem C36_InvokeVisit_witness :
    InvokeVisit (fun H : Nat => decide (1 ≤ H)) "a" (.cons 0 (.cons 1 (.last 2))) [] =
      (.ok (), [(1, "a")]) ∧
    InvokeVisit (fun _ : Nat => false) "a" (.cons 0 (.cons 1 (.last 2))) [] =
      (.error (.runtime_error "Unknown visitor type"), []) :=
  ⟨(C36_InvokeVisit (fun H : Nat => decide (1 ≤ H)) "a" (.cons 0 (.cons 1 (.last 2))) []).2.1
      [0] [2] 1 rfl (by decide) (by decide),
    (C36_InvokeVisit (fun _ : Nat => false) "a" (.cons 0 (.cons 1 (.last 2))) []).2.2.2.1
      (fun _ _ => rfl)⟩

end VisitableBy
